import Mathlib

/-!
Wolfman Alpha gear computer: rings, words, bit-serial ALU and CPU core.

A shallow embedding of the ring machine of `include/wolfman_alpha` and `src/wa_cpu.cpp`, and
of the flat word-bank computer of `src/wa_components.cpp`.

Modelling conventions

* C++ `int` values are `Int`. The operator `%` of C++ truncates toward zero and is
  `Int.tmod`; `/` on `int` is `Int.tdiv`.
* An `int` sum or product that can leave the 32-bit range goes through `wrapInt`, the
  two's-complement value the unoptimised build computes (in C++ the overflow is undefined
  behaviour). `glyphAtIndex`, the helpers of `wa_math.hpp` and the dial budget are written
  with it. For the ring there are two readings: `Ring.shift`, `Ring.mapIndex` and the
  methods built on them take the two sums `offset_ + k` and `logicalIndex + offset_` as
  exact integers, and `Ring.shift32`, `Ring.mapIndex32` and the methods built on them take
  them through `wrapInt`. The two readings are the same function on every ring of at most
  `2^30` gears whose offset lies in `[0, gearCount)` (lemmas `Ring.shift32_eq`,
  `Ring.mapIndex32_eq`); the program builds rings of 360 gears. The console dial
  (`dialLoop`) is written on `Machine.shiftRing32`.
* `R_[i]` checks nothing: `CpuBase.reg` stops at the marker `unchecked_index` for an index
  outside the bank, and `CpuBase.regRaw` reads on, the memory found there being the
  parameter `past`.
* `u8` values are `Nat`; `x & 1u` is `x % 2` and a cast `(u8)e` is `e % 256`.
* A `std::vector` is a `List`; `gears_[i]` at an index that the preceding code has put in
  range is `List.getD`/`getElem?`.
* A `const` function that can throw returns `Except Exn α`.
* A mutating function returns the state it leaves behind together with `Option Exn`
  (`none` = returned normally, `some e` = threw `e`), because in C++ the writes made
  before a `throw` stay in the referenced object.
* `Gear::pitchRadius` is a `double` used by no computation and is left out. The text that
  `Machine::capacityString` prints for its `double` estimate is a parameter of the model.
* In the flat computer a `u64` is a `Nat` below `2^64`, and its components throw `CompExn`.
-/

namespace wa

/-! ## wa_types.hpp -/

/-- Exceptions thrown by the source, one constructor per throw site family, plus two
markers for undefined behaviour that the model does not continue past. -/
inductive Exn where
  /-- Thrown as `std::out_of_range("Ring gear index")` in `Ring::mapIndex`. -/
  | ring_gear_index
  /-- Thrown as `std::out_of_range("Ring out of range")` in `Machine::checkRing`. -/
  | ring_out_of_range
  /-- Thrown as `std::out_of_range("get_word_bit")`. -/
  | get_word_bit
  /-- Thrown as `std::out_of_range("set_word_bit")`. -/
  | set_word_bit
  /-- Thrown as `std::invalid_argument` by the helpers of `wa_math.hpp`. -/
  | invalid_argument
  /-- Thrown as `std::length_error` by `vector::reserve`/`resize` given a negative `int`. -/
  | length_error
  /-- Marker, not an exception: `std::vector::operator[]` outside the vector. -/
  | unchecked_index
  /-- Marker, not an exception: `%` or `/` with a zero divisor. -/
  | division_by_zero
deriving DecidableEq, Repr

/-- The value a 32-bit `int` holds after an operation whose exact result is `x`: `x` itself
inside `[-2^31, 2^31)`, and the two's-complement wrap-around outside, where the C++
operation is undefined behaviour. -/
def wrapInt (x : Int) : Int := (x + 2147483648) % 4294967296 - 2147483648

/-- Rotation direction, `enum class Dir : u8 { Left = 0, Right = 1 }`. -/
inductive Dir where
  | Left
  | Right
deriving DecidableEq, Repr

/-! ## wa_gear.hpp -/

/-- One gear: the binary state and the tooth count. -/
structure Gear where
  bit : Nat
  teeth : Int
deriving DecidableEq, Repr

/-! ## wa_ring.hpp -/

/-- The class `Ring`: cells, last rotation direction, rotation offset. -/
structure Ring where
  gears : List Gear
  dir : Dir
  offset : Int
deriving DecidableEq, Repr

/-- The constructor `Ring(gearCount, defaultTeeth, defaultPitchRadius)`. -/
def Ring.new (gearCount : Int) (defaultTeeth : Int) : Except Exn Ring :=
  if gearCount < 0 then .error .length_error
  else .ok { gears := List.replicate gearCount.toNat { bit := 0, teeth := defaultTeeth },
             dir := Dir.Right, offset := 0 }

/-- The accessor `Ring::gearCount`. -/
def Ring.gearCount (r : Ring) : Int := r.gears.length

/-- The method `Ring::shift(d, k)`. -/
def Ring.shift (r : Ring) (d : Dir) (k : Int) : Ring :=
  let n := r.gearCount
  if n ≤ 0 then r
  else
    let k1 := k.tmod n
    let k2 := if k1 < 0 then k1 + n else k1
    let o1 := if d = Dir.Right then (r.offset - k2).tmod n else (r.offset + k2).tmod n
    let o2 := if o1 < 0 then o1 + n else o1
    { r with offset := o2, dir := d }

/-- The method `Ring::tick(k)`. -/
def Ring.tick (r : Ring) (k : Int) : Ring := r.shift r.dir k

/-- The method `Ring::mapIndex`. -/
def Ring.mapIndex (r : Ring) (logicalIndex : Int) : Except Exn Int :=
  let n := r.gearCount
  if logicalIndex < 0 ∨ logicalIndex ≥ n then .error .ring_gear_index
  else
    let idx := (logicalIndex + r.offset).tmod n
    .ok (if idx < 0 then idx + n else idx)

/-- The method `Ring::getBit`. -/
def Ring.getBit (r : Ring) (logicalIndex : Int) : Except Exn Nat :=
  match r.mapIndex logicalIndex with
  | .error e => .error e
  | .ok idx =>
    match r.gears[idx.toNat]? with
    | some g => .ok (g.bit % 2)
    | none => .error .unchecked_index

/-- The method `Ring::setBit`. -/
def Ring.setBit (r : Ring) (logicalIndex : Int) (v : Nat) : Ring × Option Exn :=
  match r.mapIndex logicalIndex with
  | .error e => (r, some e)
  | .ok idx =>
    match r.gears[idx.toNat]? with
    | some g => ({ r with gears := r.gears.set idx.toNat { g with bit := v % 2 } }, none)
    | none => (r, some .unchecked_index)

/-- The method `Ring::flipBit`. -/
def Ring.flipBit (r : Ring) (logicalIndex : Int) : Ring × Option Exn :=
  match r.getBit logicalIndex with
  | .error e => (r, some e)
  | .ok b => r.setBit logicalIndex ((b ^^^ 1) % 256)

/-- The method `Ring::shift(d, k)` with the sums `offset_ - k` and `offset_ + k` taken in
32-bit `int`. -/
def Ring.shift32 (r : Ring) (d : Dir) (k : Int) : Ring :=
  let n := r.gearCount
  if n ≤ 0 then r
  else
    let k1 := k.tmod n
    let k2 := if k1 < 0 then k1 + n else k1
    let o1 := if d = Dir.Right then (wrapInt (r.offset - k2)).tmod n
              else (wrapInt (r.offset + k2)).tmod n
    let o2 := if o1 < 0 then o1 + n else o1
    { r with offset := o2, dir := d }

/-- The method `Ring::tick(k)` on `Ring.shift32`. -/
def Ring.tick32 (r : Ring) (k : Int) : Ring := r.shift32 r.dir k

/-- The method `Ring::mapIndex` with the sum `logicalIndex + offset_` taken in 32-bit
`int`. -/
def Ring.mapIndex32 (r : Ring) (logicalIndex : Int) : Except Exn Int :=
  let n := r.gearCount
  if logicalIndex < 0 ∨ logicalIndex ≥ n then .error .ring_gear_index
  else
    let idx := (wrapInt (logicalIndex + r.offset)).tmod n
    .ok (if idx < 0 then idx + n else idx)

/-- The method `Ring::getBit` on `Ring.mapIndex32`. -/
def Ring.getBit32 (r : Ring) (logicalIndex : Int) : Except Exn Nat :=
  match r.mapIndex32 logicalIndex with
  | .error e => .error e
  | .ok idx =>
    match r.gears[idx.toNat]? with
    | some g => .ok (g.bit % 2)
    | none => .error .unchecked_index

/-- The method `Ring::setBit` on `Ring.mapIndex32`. -/
def Ring.setBit32 (r : Ring) (logicalIndex : Int) (v : Nat) : Ring × Option Exn :=
  match r.mapIndex32 logicalIndex with
  | .error e => (r, some e)
  | .ok idx =>
    match r.gears[idx.toNat]? with
    | some g => ({ r with gears := r.gears.set idx.toNat { g with bit := v % 2 } }, none)
    | none => (r, some .unchecked_index)

/-- The method `Ring::flipBit` on `Ring.getBit32` and `Ring.setBit32`. -/
def Ring.flipBit32 (r : Ring) (logicalIndex : Int) : Ring × Option Exn :=
  match r.getBit32 logicalIndex with
  | .error e => (r, some e)
  | .ok b => r.setBit32 logicalIndex ((b ^^^ 1) % 256)

/-! ## wa_machine.hpp -/

/-- The class `Machine`: an ordered collection of rings. -/
structure Machine where
  rings : List Ring
deriving DecidableEq, Repr

/-- The constructor `Machine(rings, gearsPerRing)`. -/
def Machine.new (rings gearsPerRing : Int) : Except Exn Machine :=
  if rings < 0 then .error .length_error
  else if rings = 0 then .ok { rings := [] }
  else
    match Ring.new gearsPerRing 20 with
    | .error e => .error e
    | .ok rg => .ok { rings := List.replicate rings.toNat rg }

/-- The accessor `Machine::ringCount`. -/
def Machine.ringCount (m : Machine) : Int := m.rings.length

/-- The accessor `Machine::gearsPerRing`. -/
def Machine.gearsPerRing (m : Machine) : Int :=
  match m.rings with
  | [] => 0
  | r :: _ => r.gearCount

/-- The private check `Machine::checkRing`. -/
def Machine.checkRing (m : Machine) (r : Int) : Except Exn Unit :=
  if r < 0 ∨ r ≥ m.ringCount then .error .ring_out_of_range else .ok ()

/-- The accessor `Machine::ring(r)`. -/
def Machine.ring (m : Machine) (r : Int) : Except Exn Ring :=
  match m.checkRing r with
  | .error e => .error e
  | .ok _ =>
    match m.rings[r.toNat]? with
    | some rg => .ok rg
    | none => .error .unchecked_index

/-- The method `Machine::getBit`. -/
def Machine.getBit (m : Machine) (r i : Int) : Except Exn Nat :=
  match m.ring r with
  | .error e => .error e
  | .ok rg => rg.getBit i

/-- The method `Machine::setBit`. -/
def Machine.setBit (m : Machine) (r i : Int) (v : Nat) : Machine × Option Exn :=
  match m.ring r with
  | .error e => (m, some e)
  | .ok rg => ({ rings := m.rings.set r.toNat (rg.setBit i v).1 }, (rg.setBit i v).2)

/-- The method `Machine::flipBit`. -/
def Machine.flipBit (m : Machine) (r i : Int) : Machine × Option Exn :=
  match m.ring r with
  | .error e => (m, some e)
  | .ok rg => ({ rings := m.rings.set r.toNat (rg.flipBit i).1 }, (rg.flipBit i).2)

/-- The method `Machine::shiftRing`. -/
def Machine.shiftRing (m : Machine) (r : Int) (d : Dir) (k : Int) : Machine × Option Exn :=
  match m.ring r with
  | .error e => (m, some e)
  | .ok rg => ({ rings := m.rings.set r.toNat (rg.shift d k) }, none)

/-- The method `Machine::tickAll`. -/
def Machine.tickAll (m : Machine) (k : Int) : Machine :=
  { rings := m.rings.map (fun rg => rg.tick k) }

/-- The method `Machine::shiftRing` on `Ring.shift32`. -/
def Machine.shiftRing32 (m : Machine) (r : Int) (d : Dir) (k : Int) : Machine × Option Exn :=
  match m.ring r with
  | .error e => (m, some e)
  | .ok rg => ({ rings := m.rings.set r.toNat (rg.shift32 d k) }, none)

/-- The method `Machine::tickAll` on `Ring.tick32`. -/
def Machine.tickAll32 (m : Machine) (k : Int) : Machine :=
  { rings := m.rings.map (fun rg => rg.tick32 k) }

/-- The method `Machine::capacityString`. The exponent `bits` is computed as in the source;
the text of the `double` value `log10approx`, printed with two decimals, is not computed by
the model and is passed in as `log10text`. -/
def Machine.capacityString (m : Machine) (twoBitsPerGearCell : Bool) (log10text : String) :
    String :=
  let bits : Int := m.ringCount * m.gearsPerRing * (if twoBitsPerGearCell = true then 2 else 1)
  "Capacity: 2^" ++ toString bits ++ " integers (≈ 10^" ++ log10text ++ ")" ++
    " ; range = [0 .. 2^" ++ toString bits ++ " - 1]"

/-! ## wa_word.hpp -/

/-- The enumeration `WordSize { W64 = 64, W360 = 360, W720 = 720 }`. -/
inductive WordSize where
  | W64
  | W360
  | W720
deriving DecidableEq, Repr

/-- A word view `WordRef`: width, the one or two backing rings, and the base index. -/
structure WordRef where
  size : WordSize
  ringA : Int
  ringB : Int
  baseIndex : Int
deriving DecidableEq, Repr

/-- The factory `WordRef::w64(ring, base)`. -/
def WordRef.w64 (ring base : Int) : WordRef :=
  { size := WordSize.W64, ringA := ring, ringB := -1, baseIndex := base }

/-- The factory `WordRef::w360(ring)`. -/
def WordRef.w360 (ring : Int) : WordRef :=
  { size := WordSize.W360, ringA := ring, ringB := -1, baseIndex := 0 }

/-- The factory `WordRef::w720(ring0, ring1)`. -/
def WordRef.w720 (ring0 ring1 : Int) : WordRef :=
  { size := WordSize.W720, ringA := ring0, ringB := ring1, baseIndex := 0 }

/-- The function `word_bits`: the underlying value of the enumerator. -/
def word_bits (ws : WordSize) : Int :=
  match ws with
  | WordSize.W64 => 64
  | WordSize.W360 => 360
  | WordSize.W720 => 720

/-- The function `get_word_bit`. -/
def get_word_bit (m : Machine) (w : WordRef) (bit : Int) : Except Exn Nat :=
  let n := word_bits w.size
  if bit < 0 ∨ bit ≥ n then .error .get_word_bit
  else if w.size = WordSize.W64 then m.getBit w.ringA (w.baseIndex + bit)
  else if w.size = WordSize.W360 then m.getBit w.ringA bit
  else if bit < 360 then m.getBit w.ringA bit
  else m.getBit w.ringB (bit - 360)

/-- The function `set_word_bit`. -/
def set_word_bit (m : Machine) (w : WordRef) (bit : Int) (v : Nat) : Machine × Option Exn :=
  let n := word_bits w.size
  if bit < 0 ∨ bit ≥ n then (m, some .set_word_bit)
  else
    let v1 := v % 2
    if w.size = WordSize.W64 then m.setBit w.ringA (w.baseIndex + bit) v1
    else if w.size = WordSize.W360 then m.setBit w.ringA bit v1
    else if bit < 360 then m.setBit w.ringA bit v1
    else m.setBit w.ringB (bit - 360) v1

/-! ## wa_alu.hpp -/

/-- The loop `for (int i = 0; i < n; i++) body` started at index `i` with `count` rounds
left; a throw in the body ends the loop and keeps the state reached. -/
def forLoop {σ : Type} (body : Int → σ → σ × Option Exn) : Nat → Int → σ → σ × Option Exn
  | 0, _, s => (s, none)
  | count + 1, i, s =>
    match body i s with
    | (s1, some e) => (s1, some e)
    | (s1, none) => forLoop body count (i + 1) s1

/-- Loop body of `alu_xor`. -/
def alu_xor_body (a b out : WordRef) (i : Int) (m : Machine) : Machine × Option Exn :=
  match get_word_bit m a i with
  | .error e => (m, some e)
  | .ok x =>
    match get_word_bit m b i with
    | .error e => (m, some e)
    | .ok y => set_word_bit m out i ((x ^^^ y) % 256)

/-- The function `alu_xor`. -/
def alu_xor (m : Machine) (a b out : WordRef) : Machine × Option Exn :=
  forLoop (alu_xor_body a b out) (word_bits a.size).toNat 0 m

/-- Loop body of `alu_and`. -/
def alu_and_body (a b out : WordRef) (i : Int) (m : Machine) : Machine × Option Exn :=
  match get_word_bit m a i with
  | .error e => (m, some e)
  | .ok x =>
    match get_word_bit m b i with
    | .error e => (m, some e)
    | .ok y => set_word_bit m out i ((x &&& y) % 256)

/-- The function `alu_and`. -/
def alu_and (m : Machine) (a b out : WordRef) : Machine × Option Exn :=
  forLoop (alu_and_body a b out) (word_bits a.size).toNat 0 m

/-- Loop body of `alu_or`. -/
def alu_or_body (a b out : WordRef) (i : Int) (m : Machine) : Machine × Option Exn :=
  match get_word_bit m a i with
  | .error e => (m, some e)
  | .ok x =>
    match get_word_bit m b i with
    | .error e => (m, some e)
    | .ok y => set_word_bit m out i ((x ||| y) % 256)

/-- The function `alu_or`. -/
def alu_or (m : Machine) (a b out : WordRef) : Machine × Option Exn :=
  forLoop (alu_or_body a b out) (word_bits a.size).toNat 0 m

/-- Loop body of `alu_add`; the loop state is the machine and the local `carry`. -/
def alu_add_body (a b out : WordRef) (i : Int) (s : Machine × Nat) :
    (Machine × Nat) × Option Exn :=
  match get_word_bit s.1 a i with
  | .error e => (s, some e)
  | .ok x =>
    match get_word_bit s.1 b i with
    | .error e => (s, some e)
    | .ok y =>
      let sum := (x ^^^ y ^^^ s.2) % 256
      let carry := ((x &&& y) ||| (x &&& s.2) ||| (y &&& s.2)) % 256
      (((set_word_bit s.1 out i sum).1, carry), (set_word_bit s.1 out i sum).2)

/-- The function `alu_add`: the machine it leaves and the returned carry. -/
def alu_add (m : Machine) (a b out : WordRef) : Machine × Except Exn Nat :=
  match forLoop (alu_add_body a b out) (word_bits a.size).toNat 0 (m, 0) with
  | (s, some e) => (s.1, .error e)
  | (s, none) => (s.1, .ok s.2)

/-! ## wa_zodiac.hpp -/

/-- The constant `ZODIAC_COUNT`. -/
def ZODIAC_COUNT : Int := 13

/-- The function `glyphAtIndex`; a `Zodiac13` value is represented by its index `0..12`. -/
def glyphAtIndex (gearIndex gearCount : Int) : Int :=
  if gearCount ≤ 0 then 0
  else
    let gi1 := if gearIndex < 0 then 0 else gearIndex
    let gi2 := if gi1 ≥ gearCount then gearCount - 1 else gi1
    let g := (wrapInt (gi2 * ZODIAC_COUNT)).tdiv gearCount
    let g1 := if g < 0 then 0 else g
    if g1 ≥ ZODIAC_COUNT then ZODIAC_COUNT - 1 else g1

/-- The function `activeGlyphFromOffset`. -/
def activeGlyphFromOffset (offset gearCount : Int) : Except Exn Int :=
  if gearCount = 0 then .error .division_by_zero
  else
    let idx := offset.tmod gearCount
    let idx1 := if idx < 0 then idx + gearCount else idx
    .ok (glyphAtIndex idx1 gearCount)

/-! ## wa_cpu.hpp, wa_cpu.cpp -/

/-- The opcodes `enum class Op`. -/
inductive Op where
  | NOP
  | MOV
  | XOR
  | AND
  | OR
  | ADD
  | SHIFT_RING
  | TICK_ALL
  | HALT
deriving DecidableEq, Repr

/-- An instruction `Instr`. -/
structure Instr where
  op : Op
  a : Int
  b : Int
  c : Int
  imm : Int
  dir : Dir
deriving DecidableEq, Repr

/-- The configuration `CpuConfig`. -/
structure CpuConfig where
  wordSize : WordSize
  regs : Int
  useZodiac : Bool
  soundEvents : Bool
deriving DecidableEq, Repr

/-- The class `CpuBase`; the referenced machine `m_` is carried in the state. -/
structure CpuBase where
  m : Machine
  cfg : CpuConfig
  R : List WordRef
  prog : List Instr
  ip : Nat
  halted : Bool
deriving DecidableEq, Repr

/-- The static function `makeReg`. -/
def makeReg (ws : WordSize) (regIndex : Int) : WordRef :=
  if ws = WordSize.W64 then WordRef.w64 regIndex 0
  else if ws = WordSize.W360 then WordRef.w360 regIndex
  else WordRef.w720 (regIndex * 2) (regIndex * 2 + 1)

/-- The constructor `CpuBase(m, cfg)`. -/
def CpuBase.new (m : Machine) (cfg : CpuConfig) : Except Exn CpuBase :=
  if cfg.regs < 0 then .error .length_error
  else .ok { m := m, cfg := cfg,
             R := (List.range cfg.regs.toNat).map (fun (i : Nat) => makeReg cfg.wordSize (i : Int)),
             prog := [], ip := 0, halted := false }

/-- The constructor `CPU64(m)`. -/
def CPU64 (m : Machine) : Except Exn CpuBase :=
  CpuBase.new m { wordSize := WordSize.W64, regs := 8, useZodiac := true, soundEvents := true }

/-- The constructor `CPU360(m)`. -/
def CPU360 (m : Machine) : Except Exn CpuBase :=
  CpuBase.new m { wordSize := WordSize.W360, regs := 8, useZodiac := true, soundEvents := true }

/-- The constructor `CPU720(m)`. -/
def CPU720 (m : Machine) : Except Exn CpuBase :=
  CpuBase.new m { wordSize := WordSize.W720, regs := 8, useZodiac := true, soundEvents := true }

/-- The method `CpuBase::loadProgram`. -/
def CpuBase.loadProgram (c : CpuBase) (p : List Instr) : CpuBase :=
  { c with prog := p, ip := 0, halted := false }

/-- The expression `R_[i]`: `std::vector::operator[]`, which checks nothing. -/
def CpuBase.reg (c : CpuBase) (i : Int) : Except Exn WordRef :=
  if i < 0 then .error .unchecked_index
  else
    match c.R[i.toNat]? with
    | some w => .ok w
    | none => .error .unchecked_index

/-- Loop body of the `MOV` case of `CpuBase::exec`. -/
def mov_body (dst src : WordRef) (i : Int) (m : Machine) : Machine × Option Exn :=
  match get_word_bit m src i with
  | .error e => (m, some e)
  | .ok x => set_word_bit m dst i x

/-- The method `CpuBase::exec`. -/
def CpuBase.exec (c : CpuBase) (ins : Instr) : CpuBase × Option Exn :=
  match ins.op with
  | Op.NOP => (c, none)
  | Op.MOV =>
    match c.reg ins.a, c.reg ins.b with
    | .ok ra, .ok rb =>
      let res := forLoop (mov_body ra rb) (word_bits c.cfg.wordSize).toNat 0 c.m
      ({ c with m := res.1 }, res.2)
    | .error e, _ => (c, some e)
    | _, .error e => (c, some e)
  | Op.XOR =>
    match c.reg ins.b, c.reg ins.c, c.reg ins.a with
    | .ok rb, .ok rc, .ok ra =>
      let res := alu_xor c.m rb rc ra
      ({ c with m := res.1 }, res.2)
    | .error e, _, _ => (c, some e)
    | _, .error e, _ => (c, some e)
    | _, _, .error e => (c, some e)
  | Op.AND =>
    match c.reg ins.b, c.reg ins.c, c.reg ins.a with
    | .ok rb, .ok rc, .ok ra =>
      let res := alu_and c.m rb rc ra
      ({ c with m := res.1 }, res.2)
    | .error e, _, _ => (c, some e)
    | _, .error e, _ => (c, some e)
    | _, _, .error e => (c, some e)
  | Op.OR =>
    match c.reg ins.b, c.reg ins.c, c.reg ins.a with
    | .ok rb, .ok rc, .ok ra =>
      let res := alu_or c.m rb rc ra
      ({ c with m := res.1 }, res.2)
    | .error e, _, _ => (c, some e)
    | _, .error e, _ => (c, some e)
    | _, _, .error e => (c, some e)
  | Op.ADD =>
    match c.reg ins.b, c.reg ins.c, c.reg ins.a with
    | .ok rb, .ok rc, .ok ra =>
      match alu_add c.m rb rc ra with
      | (m1, .error e) => ({ c with m := m1 }, some e)
      | (m1, .ok _) => ({ c with m := m1 }, none)
    | .error e, _, _ => (c, some e)
    | _, .error e, _ => (c, some e)
    | _, _, .error e => (c, some e)
  | Op.SHIFT_RING =>
    let res := c.m.shiftRing ins.imm ins.dir ins.a
    ({ c with m := res.1 }, res.2)
  | Op.TICK_ALL => ({ c with m := c.m.tickAll ins.imm }, none)
  | Op.HALT => ({ c with halted := true }, none)

/-- The glyph hook of `CpuBase::step`: the machine after the optional extra tick. -/
def zodiacHook (c : CpuBase) : Machine × Option Exn :=
  if c.cfg.useZodiac = true ∧ c.m.ringCount > 0 then
    match c.m.ring 0 with
    | .error e => (c.m, some e)
    | .ok r0 =>
      match activeGlyphFromOffset r0.offset c.m.gearsPerRing with
      | .error e => (c.m, some e)
      | .ok g => if g = 12 then (c.m.tickAll 1, none) else (c.m, none)
  else (c.m, none)

/-- The method `CpuBase::step`. -/
def CpuBase.step (c : CpuBase) : CpuBase × Option Exn :=
  if c.halted = true then (c, none)
  else if c.ip ≥ c.prog.length then ({ c with halted := true }, none)
  else
    match zodiacHook c with
    | (m1, some e) => ({ c with m := m1 }, some e)
    | (m1, none) =>
      match c.prog[c.ip]? with
      | none => ({ c with m := m1 }, some .unchecked_index)
      | some ins =>
        match CpuBase.exec { c with m := m1 } ins with
        | (c1, some e) => (c1, some e)
        | (c1, none) => ({ c1 with ip := c1.ip + 1, m := c1.m.tickAll 1 }, none)

/-- The inner loop of `CpuBase::regDump`, started at bit `i` with `count` rounds left: it
appends the digit of each bit read to the text written so far. -/
def regDumpBits (m : Machine) (w : WordRef) : Nat → Int → String → Except Exn String
  | 0, _, acc => .ok acc
  | count + 1, i, acc =>
    match get_word_bit m w i with
    | .error e => .error e
    | .ok b => regDumpBits m w count (i + 1) (acc ++ toString b)

/-- The outer loop of `CpuBase::regDump`, started at register `r` with `count` rounds left;
`c` is the number of bits printed per register. -/
def regDumpRegs (cpu : CpuBase) (c : Int) : Nat → Int → String → Except Exn String
  | 0, _, acc => .ok acc
  | count + 1, r, acc =>
    match cpu.reg r with
    | .error e => .error e
    | .ok w =>
      match regDumpBits cpu.m w c.toNat 0 (acc ++ "R" ++ toString r ++ ": ") with
      | .error e => .error e
      | .ok acc1 => regDumpRegs cpu c count (r + 1) (acc1 ++ "\n")

/-- The method `CpuBase::regDump`. -/
def CpuBase.regDump (cpu : CpuBase) (countBits : Int) : Except Exn String :=
  let n := word_bits cpu.cfg.wordSize
  let c := if countBits > n then n else countBits
  regDumpRegs cpu c cpu.R.length 0 ""

/-! ### The register bank read without a bounds check

`R_[i]` is `std::vector::operator[]`. `CpuBase.reg` stops at a marker when `i` is outside
the bank; the definitions below go on as the compiled code does, with whatever the memory
outside the vector holds. That memory is not part of the program state: it is the parameter
`past`, which gives for each index outside the bank the four `int` fields read there. -/

/-- The four fields `R_[i]` reads, seen as a `WordRef` whose `size` may hold any `int`. -/
structure RawWord where
  size : Int
  ringA : Int
  ringB : Int
  baseIndex : Int
deriving DecidableEq, Repr

/-- The fields of a word of the bank. -/
def WordRef.raw (w : WordRef) : RawWord :=
  { size := word_bits w.size, ringA := w.ringA, ringB := w.ringB, baseIndex := w.baseIndex }

/-- The function `get_word_bit` on the fields read by `R_[i]`. -/
def get_word_bit_raw (m : Machine) (w : RawWord) (bit : Int) : Except Exn Nat :=
  let n := w.size
  if bit < 0 ∨ bit ≥ n then .error .get_word_bit
  else if w.size = 64 then m.getBit w.ringA (wrapInt (w.baseIndex + bit))
  else if w.size = 360 then m.getBit w.ringA bit
  else if bit < 360 then m.getBit w.ringA bit
  else m.getBit w.ringB (bit - 360)

/-- The function `set_word_bit` on the fields read by `R_[i]`. -/
def set_word_bit_raw (m : Machine) (w : RawWord) (bit : Int) (v : Nat) :
    Machine × Option Exn :=
  let n := w.size
  if bit < 0 ∨ bit ≥ n then (m, some .set_word_bit)
  else
    let v1 := v % 2
    if w.size = 64 then m.setBit w.ringA (wrapInt (w.baseIndex + bit)) v1
    else if w.size = 360 then m.setBit w.ringA bit v1
    else if bit < 360 then m.setBit w.ringA bit v1
    else m.setBit w.ringB (bit - 360) v1

/-- Loop body of `alu_xor`, `alu_and` and `alu_or` on raw words; `f` is the operator with
its cast to `u8`. -/
def alu_bitwise_raw_body (f : Nat → Nat → Nat) (a b out : RawWord) (i : Int) (m : Machine) :
    Machine × Option Exn :=
  match get_word_bit_raw m a i with
  | .error e => (m, some e)
  | .ok x =>
    match get_word_bit_raw m b i with
    | .error e => (m, some e)
    | .ok y => set_word_bit_raw m out i (f x y)

/-- The function `alu_xor` on raw words. -/
def alu_xor_raw (m : Machine) (a b out : RawWord) : Machine × Option Exn :=
  forLoop (alu_bitwise_raw_body (fun x y => (x ^^^ y) % 256) a b out) a.size.toNat 0 m

/-- The function `alu_and` on raw words. -/
def alu_and_raw (m : Machine) (a b out : RawWord) : Machine × Option Exn :=
  forLoop (alu_bitwise_raw_body (fun x y => (x &&& y) % 256) a b out) a.size.toNat 0 m

/-- The function `alu_or` on raw words. -/
def alu_or_raw (m : Machine) (a b out : RawWord) : Machine × Option Exn :=
  forLoop (alu_bitwise_raw_body (fun x y => (x ||| y) % 256) a b out) a.size.toNat 0 m

/-- Loop body of `alu_add` on raw words. -/
def alu_add_raw_body (a b out : RawWord) (i : Int) (s : Machine × Nat) :
    (Machine × Nat) × Option Exn :=
  match get_word_bit_raw s.1 a i with
  | .error e => (s, some e)
  | .ok x =>
    match get_word_bit_raw s.1 b i with
    | .error e => (s, some e)
    | .ok y =>
      let sum := (x ^^^ y ^^^ s.2) % 256
      let carry := ((x &&& y) ||| (x &&& s.2) ||| (y &&& s.2)) % 256
      (((set_word_bit_raw s.1 out i sum).1, carry), (set_word_bit_raw s.1 out i sum).2)

/-- The function `alu_add` on raw words. -/
def alu_add_raw (m : Machine) (a b out : RawWord) : Machine × Except Exn Nat :=
  match forLoop (alu_add_raw_body a b out) a.size.toNat 0 (m, 0) with
  | (s, some e) => (s.1, .error e)
  | (s, none) => (s.1, .ok s.2)

/-- Loop body of the `MOV` case on raw words. -/
def mov_raw_body (dst src : RawWord) (i : Int) (m : Machine) : Machine × Option Exn :=
  match get_word_bit_raw m src i with
  | .error e => (m, some e)
  | .ok x => set_word_bit_raw m dst i x

/-- The expression `R_[i]` as compiled: the word of the bank for an index inside it, and the
fields `past i` found in memory for an index outside it. -/
def CpuBase.regRaw (c : CpuBase) (past : Int → RawWord) (i : Int) : RawWord :=
  if i < 0 then past i
  else
    match c.R[i.toNat]? with
    | some w => w.raw
    | none => past i

/-- The method `CpuBase::exec` with `R_[i]` read by `CpuBase.regRaw`. -/
def CpuBase.execRaw (c : CpuBase) (past : Int → RawWord) (ins : Instr) :
    CpuBase × Option Exn :=
  match ins.op with
  | Op.NOP => (c, none)
  | Op.MOV =>
    let res := forLoop (mov_raw_body (c.regRaw past ins.a) (c.regRaw past ins.b))
      (word_bits c.cfg.wordSize).toNat 0 c.m
    ({ c with m := res.1 }, res.2)
  | Op.XOR =>
    let res := alu_xor_raw c.m (c.regRaw past ins.b) (c.regRaw past ins.c)
      (c.regRaw past ins.a)
    ({ c with m := res.1 }, res.2)
  | Op.AND =>
    let res := alu_and_raw c.m (c.regRaw past ins.b) (c.regRaw past ins.c)
      (c.regRaw past ins.a)
    ({ c with m := res.1 }, res.2)
  | Op.OR =>
    let res := alu_or_raw c.m (c.regRaw past ins.b) (c.regRaw past ins.c)
      (c.regRaw past ins.a)
    ({ c with m := res.1 }, res.2)
  | Op.ADD =>
    match alu_add_raw c.m (c.regRaw past ins.b) (c.regRaw past ins.c)
      (c.regRaw past ins.a) with
    | (m1, .error e) => ({ c with m := m1 }, some e)
    | (m1, .ok _) => ({ c with m := m1 }, none)
  | Op.SHIFT_RING =>
    let res := c.m.shiftRing ins.imm ins.dir ins.a
    ({ c with m := res.1 }, res.2)
  | Op.TICK_ALL => ({ c with m := c.m.tickAll ins.imm }, none)
  | Op.HALT => ({ c with halted := true }, none)

/-- The method `CpuBase::step` with `R_[i]` read by `CpuBase.regRaw`. -/
def CpuBase.stepRaw (c : CpuBase) (past : Int → RawWord) : CpuBase × Option Exn :=
  if c.halted = true then (c, none)
  else if c.ip ≥ c.prog.length then ({ c with halted := true }, none)
  else
    match zodiacHook c with
    | (m1, some e) => ({ c with m := m1 }, some e)
    | (m1, none) =>
      match c.prog[c.ip]? with
      | none => ({ c with m := m1 }, some .unchecked_index)
      | some ins =>
        match CpuBase.execRaw { c with m := m1 } past ins with
        | (c1, some e) => (c1, some e)
        | (c1, none) => ({ c1 with ip := c1.ip + 1, m := c1.m.tickAll 1 }, none)

/-! ## wa_math.hpp -/

namespace math

/-- The function `math::normalize_mod`. -/
def normalize_mod (value mod : Int) : Except Exn Int :=
  if mod ≤ 0 then .error .invalid_argument
  else
    let out := value.tmod mod
    .ok (if out < 0 then out + mod else out)

/-- The function `math::rotate_bits_left`. -/
def rotate_bits_left (bits : List Nat) (steps : Int) : Except Exn (List Nat) :=
  if bits.isEmpty then .ok bits
  else
    let n : Int := bits.length
    match normalize_mod steps n with
    | .error e => .error e
    | .ok k =>
      (List.range bits.length).mapM (fun (i : Nat) =>
        match normalize_mod (wrapInt ((i : Int) + k)) n with
        | .error e => .error e
        | .ok j =>
          match bits[j.toNat]? with
          | some b => .ok (b % 2)
          | none => .error .unchecked_index)

/-- The function `math::rotate_bits_right`. -/
def rotate_bits_right (bits : List Nat) (steps : Int) : Except Exn (List Nat) :=
  rotate_bits_left bits (wrapInt (-steps))

/-- The function `math::logical_to_physical_index`. -/
def logical_to_physical_index (logicalIndex offset gearCount : Int) : Except Exn Int :=
  if gearCount ≤ 0 then .error .invalid_argument
  else normalize_mod (wrapInt (logicalIndex + offset)) gearCount

/-- The function `math::physical_to_logical_index`. -/
def physical_to_logical_index (physicalIndex offset gearCount : Int) : Except Exn Int :=
  if gearCount ≤ 0 then .error .invalid_argument
  else normalize_mod (wrapInt (physicalIndex - offset)) gearCount

/-- The function `math::apply_shift_offset`. -/
def apply_shift_offset (offset : Int) (d : Dir) (steps gearCount : Int) : Except Exn Int :=
  if gearCount ≤ 0 then .error .invalid_argument
  else
    match normalize_mod steps gearCount with
    | .error e => .error e
    | .ok k =>
      if d = Dir.Right then normalize_mod (wrapInt (offset - k)) gearCount
      else normalize_mod (wrapInt (offset + k)) gearCount

end math

/-! ## wa_io.cpp -/

/-- The loop of `Console::dialRingToGlyph` with `count` rounds left; `target` is the index
`0..12` of the target glyph. -/
def dialLoop (ring target : Int) : Nat → Machine → Machine × Option Exn
  | 0, m => (m, none)
  | count + 1, m =>
    match m.ring ring with
    | .error e => (m, some e)
    | .ok rg =>
      match activeGlyphFromOffset rg.offset m.gearsPerRing with
      | .error e => (m, some e)
      | .ok cur =>
        if cur = target then (m, none)
        else if target - cur = 0 then (m, none)
        else
          match (if target - cur > 0 then m.shiftRing32 ring Dir.Left 1
                 else m.shiftRing32 ring Dir.Right 1) with
          | (m1, some e) => (m1, some e)
          | (m1, none) => dialLoop ring target count m1

/-- The method `Console::dialRingToGlyph`, on the console's machine `m_`. -/
def Console.dialRingToGlyph (m : Machine) (ring target : Int) : Machine × Option Exn :=
  dialLoop ring target (wrapInt (m.gearsPerRing * 2)).toNat m

/-! ## wa_components.hpp, wa_components.cpp

The flat word-bank computer. A `u64` is a natural number below `2^64`; conversions to it
are taken modulo `2^64`. The clock frequency is a `double` that no computation of `step`
uses and is left out. `GearCPUCore` holds references to the components owned by
`MechanicalComputer`, so one state record carries the components together with the
program, the instruction pointer and the halted flag. -/

/-- Exceptions thrown by the components, plus two markers for undefined behaviour. -/
inductive CompExn where
  /-- Thrown as `std::invalid_argument`. -/
  | invalid_argument
  /-- Thrown as `std::out_of_range` by `checkAddr` and `checkReg`. -/
  | out_of_range
  /-- Thrown as `std::length_error` by a `vector` constructor given a negative `int`. -/
  | length_error
  /-- Marker, not an exception: `std::vector::operator[]` outside the vector. -/
  | unchecked_index
  /-- Marker, not an exception: `%` with a zero divisor. -/
  | division_by_zero
deriving DecidableEq, Repr

/-- The helper `u64ToBits(v, width)`. -/
def u64ToBits (v : Nat) (width : Int) : Except CompExn (List Nat) :=
  if width < 0 then .error .invalid_argument
  else
    let n : Int := if width < 64 then width else 64
    .ok ((List.range n.toNat).foldl (fun out (i : Nat) => out.set i ((v >>> i) % 2))
      (List.replicate width.toNat 0))

/-- The helper `bitsToU64(bits)`. -/
def bitsToU64 (bits : List Nat) : Nat :=
  let n : Nat := if bits.length < 64 then bits.length else 64
  (List.range n).foldl (fun v (i : Nat) => v ||| (((bits[i]?.getD 0) % 2) <<< i)) 0

/-- The helper `bitwise(a, b, op)`. -/
def bitwise (a b : List Nat) (op : Char) : Except CompExn (List Nat) :=
  if a.length ≠ b.length then .error .invalid_argument
  else
    .ok ((List.range a.length).foldl (fun out (i : Nat) =>
        let x := a[i]?.getD 0
        let y := b[i]?.getD 0
        if op = '&' then out.set i ((x &&& y) % 2)
        else if op = '|' then out.set i ((x ||| y) % 2)
        else out.set i ((x ^^^ y) % 2))
      (List.replicate a.length 0))

/-- The helper `addWords(a, b)`; the loop state is the vector `out` and the local `carry`. -/
def addWords (a b : List Nat) : Except CompExn (List Nat) :=
  if a.length ≠ b.length then .error .invalid_argument
  else
    .ok ((List.range a.length).foldl (fun (s : List Nat × Nat) (i : Nat) =>
        let x := (a[i]?.getD 0) % 2
        let y := (b[i]?.getD 0) % 2
        (s.1.set i ((x ^^^ y ^^^ s.2) % 256),
          ((x &&& y) ||| (x &&& s.2) ||| (y &&& s.2)) % 256))
      (List.replicate a.length 0, 0)).1

/-- The class `MechanicalClock`. -/
structure MechanicalClock where
  running : Bool
  ticks : Nat
deriving DecidableEq, Repr

/-- The method `MechanicalClock::tick`. -/
def MechanicalClock.tick (c : MechanicalClock) (n : Nat) : MechanicalClock :=
  if c.running = true then { c with ticks := (c.ticks + n) % 2 ^ 64 } else c

/-- The class `GearBus`. -/
structure GearBus where
  widthBits : Int
  bits : List Nat
deriving DecidableEq, Repr

/-- The constructor `GearBus(widthBits)`: the vector is built before the width is checked. -/
def GearBus.new (widthBits : Int) : Except CompExn GearBus :=
  if widthBits < 0 then .error .length_error
  else if widthBits ≤ 0 then .error .invalid_argument
  else .ok { widthBits := widthBits, bits := List.replicate widthBits.toNat 0 }

/-- The method `GearBus::writeBits`. -/
def GearBus.writeBits (b : GearBus) (bits : List Nat) : GearBus × Option CompExn :=
  if (bits.length : Int) ≠ b.widthBits then (b, some .invalid_argument)
  else ({ b with bits := bits.map (fun x => x % 2) }, none)

/-- The method `GearBus::readBits`. -/
def GearBus.readBits (b : GearBus) : List Nat := b.bits

/-- The class `GearMemory`, base of `GearRAM` and `GearStorage`. -/
structure GearMemory where
  words : Int
  wordBits : Int
  cells : List (List Nat)
deriving DecidableEq, Repr

/-- The constructor `GearMemory(words, wordBits)`. -/
def GearMemory.new (words wordBits : Int) : Except CompExn GearMemory :=
  if words ≤ 0 ∨ wordBits ≤ 0 then .error .invalid_argument
  else .ok { words := words, wordBits := wordBits,
             cells := List.replicate words.toNat (List.replicate wordBits.toNat 0) }

/-- The check `GearMemory::checkAddr`. -/
def GearMemory.checkAddr (g : GearMemory) (addr : Int) : Except CompExn Unit :=
  if addr < 0 ∨ addr ≥ g.words then .error .out_of_range else .ok ()

/-- The method `GearMemory::readWord`. -/
def GearMemory.readWord (g : GearMemory) (addr : Int) : Except CompExn (List Nat) :=
  match g.checkAddr addr with
  | .error e => .error e
  | .ok _ =>
    match g.cells[addr.toNat]? with
    | some w => .ok w
    | none => .error .unchecked_index

/-- The method `GearMemory::writeWord`. -/
def GearMemory.writeWord (g : GearMemory) (addr : Int) (bits : List Nat) :
    GearMemory × Option CompExn :=
  match g.checkAddr addr with
  | .error e => (g, some e)
  | .ok _ =>
    if (bits.length : Int) ≠ g.wordBits then (g, some .invalid_argument)
    else if addr.toNat < g.cells.length then
      ({ g with cells := g.cells.set addr.toNat (bits.map (fun x => x % 2)) }, none)
    else (g, some .unchecked_index)

/-- The class `GearStorage`: a `GearMemory` with a head position. -/
structure GearStorage where
  mem : GearMemory
  head : Int
deriving DecidableEq, Repr

/-- The class `GearRegisterBank`. -/
structure GearRegisterBank where
  count : Int
  wordBits : Int
  regs : List (List Nat)
deriving DecidableEq, Repr

/-- The constructor `GearRegisterBank(count, wordBits)`. -/
def GearRegisterBank.new (count wordBits : Int) : Except CompExn GearRegisterBank :=
  if count ≤ 0 ∨ wordBits ≤ 0 then .error .invalid_argument
  else .ok { count := count, wordBits := wordBits,
             regs := List.replicate count.toNat (List.replicate wordBits.toNat 0) }

/-- The check `GearRegisterBank::checkReg`. -/
def GearRegisterBank.checkReg (g : GearRegisterBank) (r : Int) : Except CompExn Unit :=
  if r < 0 ∨ r ≥ g.count then .error .out_of_range else .ok ()

/-- The method `GearRegisterBank::getU64`. -/
def GearRegisterBank.getU64 (g : GearRegisterBank) (r : Int) : Except CompExn Nat :=
  match g.checkReg r with
  | .error e => .error e
  | .ok _ =>
    match g.regs[r.toNat]? with
    | some w => .ok (bitsToU64 w)
    | none => .error .unchecked_index

/-- The method `GearRegisterBank::setU64`. -/
def GearRegisterBank.setU64 (g : GearRegisterBank) (r : Int) (value : Nat) :
    GearRegisterBank × Option CompExn :=
  match g.checkReg r with
  | .error e => (g, some e)
  | .ok _ =>
    match u64ToBits value g.wordBits with
    | .error e => (g, some e)
    | .ok w =>
      if r.toNat < g.regs.length then ({ g with regs := g.regs.set r.toNat w }, none)
      else (g, some .unchecked_index)

/-- The opcodes `enum class GearOp`. -/
inductive GearOp where
  | NOP
  | MOVI
  | MOV
  | LOAD
  | STORE
  | ADD
  | AND
  | OR
  | XOR
  | JMP
  | JZ
  | HALT
deriving DecidableEq, Repr

/-- An instruction `GearInstr`. -/
structure GearInstr where
  op : GearOp
  a : Int
  b : Int
  c : Int
  imm : Int
deriving DecidableEq, Repr

/-- The configuration `MechanicalConfig`, without the clock frequency. -/
structure MechanicalConfig where
  wordBits : Int
  registers : Int
  ramWords : Int
  storageWords : Int
deriving DecidableEq, Repr

/-- The class `MechanicalComputer` together with the state of its `GearCPUCore`. -/
structure MechanicalComputer where
  clock : MechanicalClock
  bus : GearBus
  regs : GearRegisterBank
  ram : GearMemory
  storage : GearStorage
  program : List GearInstr
  ip : Nat
  halted : Bool
deriving DecidableEq, Repr

/-- The constructor `MechanicalComputer(cfg)`: the members are built in declaration order. -/
def MechanicalComputer.new (cfg : MechanicalConfig) : Except CompExn MechanicalComputer :=
  match GearBus.new cfg.wordBits with
  | .error e => .error e
  | .ok bus =>
    match GearRegisterBank.new cfg.registers cfg.wordBits with
    | .error e => .error e
    | .ok regs =>
      match GearMemory.new cfg.ramWords cfg.wordBits with
      | .error e => .error e
      | .ok ram =>
        match GearMemory.new cfg.storageWords cfg.wordBits with
        | .error e => .error e
        | .ok st =>
          .ok { clock := { running := true, ticks := 0 }, bus := bus, regs := regs, ram := ram,
                storage := { mem := st, head := 0 }, program := [], ip := 0, halted := false }

/-- The method `GearCPUCore::loadProgram`. -/
def GearCPUCore.loadProgram (s : MechanicalComputer) (program : List GearInstr) :
    MechanicalComputer :=
  { s with program := program, ip := 0, halted := false }

/-- The conversion `static_cast<int>(u64)`: the low 32 bits read as a signed number. -/
def u64ToInt (v : Nat) : Int :=
  let w : Int := ((v % 2 ^ 32 : Nat) : Int)
  if w < 2 ^ 31 then w else w - 2 ^ 32

/-- The conversions `static_cast<u64>(int)` and `static_cast<std::size_t>(int)`. -/
def intToU64 (i : Int) : Nat := (i % 2 ^ 64).toNat

/-- The address computation `static_cast<int>(regs_.getU64(r)) % ram_.words()` of `LOAD`
and `STORE`. -/
def ramAddr (s : MechanicalComputer) (r : Int) : Except CompExn Int :=
  match s.regs.getU64 r with
  | .error e => .error e
  | .ok v => if s.ram.words = 0 then .error .division_by_zero else .ok ((u64ToInt v).tmod s.ram.words)

/-- The end of `GearCPUCore::step` after a `break`: `ip_++; clock_.tick(1)`. -/
def GearCPUCore.advance (s : MechanicalComputer) : MechanicalComputer :=
  { s with ip := s.ip + 1, clock := s.clock.tick 1 }

/-- The cases `ADD`, `AND`, `OR`, `XOR` of `GearCPUCore::step` up to the `break`; `f` is
`addWords` or `bitwise` with its operator. -/
def GearCPUCore.binop (s : MechanicalComputer) (ins : GearInstr)
    (f : List Nat → List Nat → Except CompExn (List Nat)) :
    MechanicalComputer × Option CompExn :=
  match s.regs.getU64 ins.b with
  | .error e => (s, some e)
  | .ok vb =>
    match u64ToBits vb s.bus.widthBits with
    | .error e => (s, some e)
    | .ok bitsA =>
      match s.regs.getU64 ins.c with
      | .error e => (s, some e)
      | .ok vc =>
        match u64ToBits vc s.bus.widthBits with
        | .error e => (s, some e)
        | .ok bitsB =>
          match f bitsA bitsB with
          | .error e => (s, some e)
          | .ok bitsS =>
            match s.bus.writeBits bitsS with
            | (bus1, some e) => ({ s with bus := bus1 }, some e)
            | (bus1, none) =>
              match s.regs.setU64 ins.a (bitsToU64 bus1.readBits) with
              | (regs1, some e) => ({ s with bus := bus1, regs := regs1 }, some e)
              | (regs1, none) => ({ s with bus := bus1, regs := regs1 }, none)

/-- The `switch` of `GearCPUCore::step`: the state it leaves, the error if it threw, and
whether it left by `return` (a taken jump) instead of `break`. -/
def GearCPUCore.dispatch (s : MechanicalComputer) (ins : GearInstr) :
    MechanicalComputer × Option CompExn × Bool :=
  match ins.op with
  | GearOp.NOP => (s, none, false)
  | GearOp.MOVI =>
    let res := s.regs.setU64 ins.a (intToU64 ins.imm)
    ({ s with regs := res.1 }, res.2, false)
  | GearOp.MOV =>
    match s.regs.getU64 ins.b with
    | .error e => (s, some e, false)
    | .ok v =>
      let res := s.regs.setU64 ins.a v
      ({ s with regs := res.1 }, res.2, false)
  | GearOp.LOAD =>
    match ramAddr s ins.b with
    | .error e => (s, some e, false)
    | .ok addr =>
      match s.ram.readWord addr with
      | .error e => (s, some e, false)
      | .ok w =>
        match s.bus.writeBits w with
        | (bus1, some e) => ({ s with bus := bus1 }, some e, false)
        | (bus1, none) =>
          let res := s.regs.setU64 ins.a (bitsToU64 bus1.readBits)
          ({ s with bus := bus1, regs := res.1 }, res.2, false)
  | GearOp.STORE =>
    match ramAddr s ins.b with
    | .error e => (s, some e, false)
    | .ok addr =>
      match s.regs.getU64 ins.a with
      | .error e => (s, some e, false)
      | .ok v =>
        match u64ToBits v s.bus.widthBits with
        | .error e => (s, some e, false)
        | .ok bits =>
          match s.bus.writeBits bits with
          | (bus1, some e) => ({ s with bus := bus1 }, some e, false)
          | (bus1, none) =>
            let res := s.ram.writeWord addr bus1.readBits
            ({ s with bus := bus1, ram := res.1 }, res.2, false)
  | GearOp.ADD =>
    let res := GearCPUCore.binop s ins addWords
    (res.1, res.2, false)
  | GearOp.AND =>
    let res := GearCPUCore.binop s ins (fun x y => bitwise x y '&')
    (res.1, res.2, false)
  | GearOp.OR =>
    let res := GearCPUCore.binop s ins (fun x y => bitwise x y '|')
    (res.1, res.2, false)
  | GearOp.XOR =>
    let res := GearCPUCore.binop s ins (fun x y => bitwise x y '^')
    (res.1, res.2, false)
  | GearOp.JMP =>
    ({ s with ip := intToU64 ins.imm, clock := s.clock.tick 1 }, none, true)
  | GearOp.JZ =>
    match s.regs.getU64 ins.a with
    | .error e => (s, some e, false)
    | .ok v =>
      if v = 0 then ({ s with ip := intToU64 ins.imm, clock := s.clock.tick 1 }, none, true)
      else (s, none, false)
  | GearOp.HALT => ({ s with halted := true }, none, false)

/-- The method `GearCPUCore::step`. -/
def GearCPUCore.step (s : MechanicalComputer) : MechanicalComputer × Option CompExn :=
  if s.halted = true then (s, none)
  else if s.ip ≥ s.program.length then ({ s with halted := true }, none)
  else
    match s.program[s.ip]? with
    | none => (s, some .unchecked_index)
    | some ins =>
      match GearCPUCore.dispatch s ins with
      | (s1, some e, _) => (s1, some e)
      | (s1, none, true) => (s1, none)
      | (s1, none, false) => (GearCPUCore.advance s1, none)

/-! ## Observations used to state the properties -/

/-- The logical bit sequence of a ring, `getBit(0), getBit(1), ...`, as `dumpRing` prints it. -/
def Ring.logicalBits (r : Ring) : Except Exn (List Nat) :=
  (List.range r.gears.length).mapM (fun (i : Nat) => r.getBit (i : Int))

/-- The logical bit sequence of a ring read through `Ring.getBit32`. -/
def Ring.logicalBits32 (r : Ring) : Except Exn (List Nat) :=
  (List.range r.gears.length).mapM (fun (i : Nat) => r.getBit32 (i : Int))

/-- The bits of a word read through its view, bit 0 first, as `regDump` prints them. -/
def readWord (m : Machine) (w : WordRef) : Except Exn (List Nat) :=
  (List.range (word_bits w.size).toNat).mapM (fun (i : Nat) => get_word_bit m w (i : Int))

/-- The bit held by the physical cell `p` of a ring (the value `gears_[p].bit & 1u`). -/
def Ring.physBit (r : Ring) (p : Nat) : Nat :=
  match r.gears[p]? with
  | some g => g.bit % 2
  | none => 0

/-- One rotation call made on a ring: `shift(direction, steps)` or `tick(steps)`. -/
inductive RingCall where
  | shift (d : Dir) (steps : Int)
  | tick (steps : Int)
deriving DecidableEq, Repr

/-- The ring after one rotation call. -/
def Ring.call (r : Ring) (c : RingCall) : Ring :=
  match c with
  | RingCall.shift d steps => r.shift d steps
  | RingCall.tick steps => r.tick steps

/-- The ring after a sequence of rotation calls, made in order. -/
def Ring.calls (r : Ring) (cs : List RingCall) : Ring := cs.foldl Ring.call r

/-- What rotation and addressing see of a machine: per ring the gear count, the offset and
the direction. Bit writes leave it unchanged. -/
def Machine.shape (m : Machine) : List (Nat × Int × Dir) :=
  m.rings.map (fun rg => (rg.gears.length, rg.offset, rg.dir))

/-- The gear count of ring `r` of a machine (0 when there is no such ring). -/
def Machine.gearsOf (m : Machine) (r : Int) : Int :=
  match m.rings[r.toNat]? with
  | some rg => rg.gearCount
  | none => 0

/-- The offset of ring `r` of a machine (0 when there is no such ring). -/
def Machine.offsetOf (m : Machine) (r : Int) : Int :=
  match m.rings[r.toNat]? with
  | some rg => rg.offset
  | none => 0

/-- The cell `(ring, logical index)` behind bit `i` of a word. -/
def WordRef.cell (w : WordRef) (i : Int) : Int × Int :=
  match w.size with
  | WordSize.W64 => (w.ringA, w.baseIndex + i)
  | WordSize.W360 => (w.ringA, i)
  | WordSize.W720 => if i < 360 then (w.ringA, i) else (w.ringB, i - 360)

/-- The ring segments `(ring, first logical index, one past the last)` that back a word. -/
def WordRef.segments (w : WordRef) : List (Int × Int × Int) :=
  match w.size with
  | WordSize.W64 => [(w.ringA, w.baseIndex, w.baseIndex + 64)]
  | WordSize.W360 => [(w.ringA, 0, 360)]
  | WordSize.W720 => [(w.ringA, 0, 360), (w.ringB, 0, 360)]

/-- A word is valid on a machine when each of its segments lies inside an existing ring and
its bits are backed by distinct cells (the two rings of a 720-bit word differ). -/
def WordRef.valid (m : Machine) (w : WordRef) : Prop :=
  (∀ s ∈ w.segments, 0 ≤ s.1 ∧ s.1 < m.ringCount ∧ 0 ≤ s.2.1 ∧ s.2.2 ≤ m.gearsOf s.1) ∧
  (w.size = WordSize.W720 → w.ringA ≠ w.ringB)

/-- Two words do not overlap when no segment of one meets a segment of the other. -/
def WordRef.disjoint (w1 w2 : WordRef) : Prop :=
  ∀ s ∈ w1.segments, ∀ t ∈ w2.segments, s.1 ≠ t.1 ∨ s.2.2 ≤ t.2.1 ∨ t.2.2 ≤ s.2.1

instance (m : Machine) (w : WordRef) : Decidable (w.valid m) := by
  unfold WordRef.valid
  exact inferInstance

instance (w1 w2 : WordRef) : Decidable (w1.disjoint w2) := by
  unfold WordRef.disjoint
  exact inferInstance

/-- The value `sum of f i * 2^i for i < n` of a bit sequence, bit 0 least significant. -/
def bitsValue (f : Nat → Nat) : Nat → Nat
  | 0 => 0
  | n + 1 => bitsValue f n + f n * 2 ^ n

/-- Bit `i` of a word as a number, 0 when the read fails. -/
def wordBit (m : Machine) (w : WordRef) (i : Nat) : Nat :=
  match get_word_bit m w (i : Int) with
  | .ok b => b
  | .error _ => 0

/-- The unsigned value held in a word. -/
def wordValue (m : Machine) (w : WordRef) : Nat :=
  bitsValue (wordBit m w) (word_bits w.size).toNat

/-- The carry into bit position `i` of the schoolbook binary addition of two bit sequences. -/
def carryAt (a b : Nat → Nat) : Nat → Nat
  | 0 => 0
  | i + 1 => (a i + b i + carryAt a b i) / 2

/-- Bit `i` of the schoolbook binary sum of two bit sequences. -/
def sumBit (a b : Nat → Nat) (i : Nat) : Nat := (a i + b i + carryAt a b i) % 2

/-- Whether the glyph hook of `CpuBase::step` fires in a state: the hook is enabled, there is
a ring 0, and the active glyph computed from its offset is `Z12`. -/
def CpuBase.hookFires (c : CpuBase) : Bool :=
  c.cfg.useZodiac && decide (c.m.ringCount > 0) &&
    (match c.m.ring 0 with
     | .error _ => false
     | .ok r0 =>
       match activeGlyphFromOffset r0.offset c.m.gearsPerRing with
       | .error _ => false
       | .ok g => decide (g = 12))

/-- The part of `CpuBase::step` that follows the glyph hook, run on the machine `m1` the hook
left: dispatch of the instruction, `ip_++`, and the end-of-step `tickAll(1)`. -/
def CpuBase.dispatchAndTick (c : CpuBase) (m1 : Machine) (ins : Instr) : CpuBase × Option Exn :=
  match CpuBase.exec { c with m := m1 } ins with
  | (c1, some e) => (c1, some e)
  | (c1, none) => ({ c1 with ip := c1.ip + 1, m := c1.m.tickAll 1 }, none)

/-- The register bank the constructor `CpuBase(m, cfg)` builds for a configuration. -/
def registerBank (cfg : CpuConfig) : List WordRef :=
  (List.range cfg.regs.toNat).map (fun (i : Nat) => makeReg cfg.wordSize (i : Int))

/-- The state after `n` calls of `step()` in a row, each of which returned normally; `none`
when one of them throws. -/
def CpuBase.steps : Nat → CpuBase → Option CpuBase
  | 0, c => some c
  | n + 1, c =>
    match c.step with
    | (c1, none) => CpuBase.steps n c1
    | (_, some _) => none

/-! ## Concrete inputs -/

/-- A ring of five gears whose cells hold `1,0,1,1,0`, rotated to offset 2. -/
def ring5 : Ring :=
  { gears := [⟨1, 20⟩, ⟨0, 20⟩, ⟨1, 20⟩, ⟨1, 20⟩, ⟨0, 20⟩], dir := Dir.Right, offset := 2 }

/-- Three rotation calls with a negative, an oversized and a zero step count. -/
def calls3 : List RingCall :=
  [RingCall.shift Dir.Right (-7), RingCall.tick 12, RingCall.shift Dir.Left 0]

/-- The machine built by `Machine(10, 360)`: ten rings of 360 gears, all bits 0, every ring at
offset 0 with direction `Right`. -/
def machine10 : Machine :=
  { rings := List.replicate 10
      { gears := List.replicate 360 { bit := 0, teeth := 20 }, dir := Dir.Right, offset := 0 } }

/-- The machine `machine10` after `setBit(1, 0, 1)`, `setBit(1, 2, 1)` and `setBit(2, 0, 1)`:
the 64-bit word on ring 1 holds 5 and the one on ring 2 holds 1. -/
def machine10set : Machine :=
  (((machine10.setBit 1 0 1).1.setBit 1 2 1).1.setBit 2 0 1).1

/-- The CPU built by `CPU64(m)` on `machine10`: eight 64-bit registers, register `i` on ring
`i` at base 0, glyph hook enabled, no program loaded. -/
def cpu64 : CpuBase :=
  { m := machine10,
    cfg := { wordSize := WordSize.W64, regs := 8, useZodiac := true, soundEvents := true },
    R := [WordRef.w64 0 0, WordRef.w64 1 0, WordRef.w64 2 0, WordRef.w64 3 0,
          WordRef.w64 4 0, WordRef.w64 5 0, WordRef.w64 6 0, WordRef.w64 7 0],
    prog := [], ip := 0, halted := false }

/-- The instruction `ADD 0, 1, 2`. -/
def insAdd012 : Instr :=
  { op := Op.ADD, a := 0, b := 1, c := 2, imm := 0, dir := Dir.Right }

/-- The instruction `SHIFT_RING` with `a = 2`, `imm = 5`, `dir = Left`. -/
def insShift : Instr :=
  { op := Op.SHIFT_RING, a := 2, b := 0, c := 0, imm := 5, dir := Dir.Left }

/-- The CPU `cpu64` bound to `machine10set` (register 1 holds 5, register 2 holds 1) after
`loadProgram` of the one-instruction program `ADD 0, 1, 2`. -/
def cpuAdd : CpuBase :=
  ({ cpu64 with m := machine10set }).loadProgram [insAdd012]

/-- The instruction `HALT`. -/
def insHalt : Instr :=
  { op := Op.HALT, a := 0, b := 0, c := 0, imm := 0, dir := Dir.Right }

/-- The instruction `TICK_ALL` with `imm = -3`. -/
def insTick : Instr :=
  { op := Op.TICK_ALL, a := 0, b := 0, c := 0, imm := -3, dir := Dir.Right }

/-- The instruction `MOV 0, 1`. -/
def insMov01 : Instr :=
  { op := Op.MOV, a := 0, b := 1, c := 0, imm := 0, dir := Dir.Right }

/-- The CPU `cpu64` bound to `machine10set` with the program `[HALT]` loaded. -/
def cpuHalt : CpuBase :=
  ({ cpu64 with m := machine10set }).loadProgram [insHalt]

/-- The CPU `cpu64` bound to `machine10set` with the program `[TICK_ALL -3]` loaded. -/
def cpuTick : CpuBase :=
  ({ cpu64 with m := machine10set }).loadProgram [insTick]

/-- The state `cpuHalt` with the halted flag set. -/
def cpuHalted : CpuBase :=
  { cpuHalt with halted := true }

/-- The state `cpuAdd` after one `step()`: every ring is at offset 359, where ring 0 shows
glyph `Z12`, and the instruction pointer is at the end of the program. -/
def cpuAddStepped : CpuBase := cpuAdd.step.1

/-- The instruction `ADD 8, 1, 2`: register index 8 is outside the bank of eight registers. -/
def insAddBad : Instr :=
  { op := Op.ADD, a := 8, b := 1, c := 2, imm := 0, dir := Dir.Right }

/-- The CPU `cpu64` bound to `machine10set` with the program `[ADD 8, 1, 2]` loaded. -/
def cpuBad : CpuBase :=
  ({ cpu64 with m := machine10set }).loadProgram [insAddBad]

/-- The configuration of `CPU64` with the register count set to 0. -/
def cfgNoRegs : CpuConfig :=
  { wordSize := WordSize.W64, regs := 0, useZodiac := true, soundEvents := true }

/-- The instruction `NOP`. -/
def insNop : Instr :=
  { op := Op.NOP, a := 0, b := 0, c := 0, imm := 0, dir := Dir.Right }

/-- The CPU built by `CPU720(m)` on `machine10`: eight 720-bit registers, register `i` on
rings `2i` and `2i+1`, so that registers 5, 6 and 7 name rings 10 to 15, which the
ten-ring machine does not have. -/
def cpu720 : CpuBase :=
  { m := machine10,
    cfg := { wordSize := WordSize.W720, regs := 8, useZodiac := true, soundEvents := true },
    R := [WordRef.w720 0 1, WordRef.w720 2 3, WordRef.w720 4 5, WordRef.w720 6 7,
          WordRef.w720 8 9, WordRef.w720 10 11, WordRef.w720 12 13, WordRef.w720 14 15],
    prog := [], ip := 0, halted := false }

/-- The instruction `MOV 0, 5`. -/
def insMov05 : Instr :=
  { op := Op.MOV, a := 0, b := 5, c := 0, imm := 0, dir := Dir.Right }

/-- The CPU `cpu720` with the program `[MOV 0, 5]` loaded. -/
def cpuMovBad : CpuBase := cpu720.loadProgram [insMov05]

/-- The flat computer `MechanicalComputer({64, 3, 2, 2})` (64-bit words, 3 registers, 2 RAM
words, 2 storage words) after `setU64(1, 2^64 - 1)`, `setU64(2, 2)` and `loadProgram` of
`[ADD 0, 1, 2]`. -/
def mechAdd : MechanicalComputer :=
  { clock := { running := true, ticks := 0 },
    bus := { widthBits := 64, bits := List.replicate 64 0 },
    regs := { count := 3, wordBits := 64,
              regs := [List.replicate 64 0, List.replicate 64 1,
                       [0, 1] ++ List.replicate 62 0] },
    ram := { words := 2, wordBits := 64, cells := List.replicate 2 (List.replicate 64 0) },
    storage := { mem := { words := 2, wordBits := 64,
                          cells := List.replicate 2 (List.replicate 64 0) },
                 head := 0 },
    program := [{ op := GearOp.ADD, a := 0, b := 1, c := 2, imm := 0 }],
    ip := 0, halted := false }

/-- A ring of `2^30 + 1000` gears, all bits 0, at offset `2^30 + 500`, direction `Right`. -/
def ringHuge : Ring :=
  { gears := List.replicate 1073742824 { bit := 0, teeth := 20 }, dir := Dir.Right,
    offset := 1073742324 }

/-- A ring of `2^30 + 1000` gears, all bits 0, at offset `2^30 + 900`, direction `Left`. -/
def ringHugeLeft : Ring :=
  { gears := List.replicate 1073742824 { bit := 0, teeth := 20 }, dir := Dir.Left,
    offset := 1073742724 }

/-- A ring of `2^30 + 1000` gears at offset 0, direction `Right`, whose physical cell
`1073742822` holds bit 1 and every other cell bit 0. -/
def ringHugeBit : Ring :=
  { gears := (List.replicate 1073742824 { bit := 0, teeth := 20 }).set 1073742822
      { bit := 1, teeth := 20 },
    dir := Dir.Right, offset := 0 }

/-- A ring of three gears whose cell 1 holds the byte 2, as a client can store through the
non-const accessor `gearAtLogical`. -/
def ringByte2 : Ring :=
  { gears := [⟨0, 20⟩, ⟨2, 20⟩, ⟨1, 20⟩], dir := Dir.Right, offset := 0 }

/-- The machine built by `Machine(10, 0)`: ten rings without gears. -/
def machineGearless : Machine :=
  { rings := List.replicate 10 { gears := [], dir := Dir.Right, offset := 0 } }

/-- The CPU built by `CPU64(m)` on `machineGearless` with the program `[HALT]` loaded. -/
def cpuGearless : CpuBase :=
  ({ cpu64 with m := machineGearless }).loadProgram [insHalt]

/-- The instruction `ADD 0, 8, 2`: the first operand index 8 is outside the bank. -/
def insAddOperandBad : Instr :=
  { op := Op.ADD, a := 0, b := 8, c := 2, imm := 0, dir := Dir.Right }

/-- The CPU `cpu64` bound to `machine10set` with the program `[ADD 0, 8, 2]` loaded. -/
def cpuOperandBad : CpuBase :=
  ({ cpu64 with m := machine10set }).loadProgram [insAddOperandBad]

/-- Memory outside the register bank that reads as zero in every field. -/
def pastZero : Int → RawWord :=
  fun _ => { size := 0, ringA := 0, ringB := 0, baseIndex := 0 }

/-- A machine of one ring of 200,000,000 gears at offset 0. -/
def machineWide : Machine :=
  { rings := [{ gears := List.replicate 200000000 { bit := 0, teeth := 20 },
                dir := Dir.Right, offset := 0 }] }

end wa

/-! # Proofs -/

set_option maxRecDepth 20000

namespace wa

/-! ## 32-bit `int` results -/

theorem wrapInt_eq (x : Int) (h0 : -2147483648 ≤ x) (h1 : x < 2147483648) : wrapInt x = x := by
  unfold wrapInt
  omega

/-! ## Integer arithmetic of the C++ remainder -/

theorem neg_lt_tmod (x n : Int) (hn : 0 < n) : -n < x.tmod n := by
  rcases le_or_lt 0 x with hx | hx
  · have := Int.tmod_nonneg n hx; omega
  · obtain ⟨k, rfl⟩ := Int.eq_negSucc_of_lt_zero hx
    obtain ⟨m, rfl⟩ := Int.eq_ofNat_of_zero_le hn.le
    have hm : 0 < m := by exact_mod_cast hn
    have h : (Int.negSucc k).tmod (m : Int) = -(((k + 1) % m : Nat) : Int) := rfl
    rw [h]
    have := Nat.mod_lt (k + 1) hm
    omega

/-- The idiom `x %= n; if (x < 0) x += n;` computes the non-negative remainder. -/
theorem norm_eq_emod (x n : Int) (hn : 0 < n) :
    (if x.tmod n < 0 then x.tmod n + n else x.tmod n) = x % n := by
  have h1 := Int.tmod_add_tdiv x n
  have h2 : x % n = (x.tmod n) % n := by
    conv_lhs => rw [← h1]
    exact Int.add_mul_emod_self_left _ _ _
  have h3 : x.tmod n < n := Int.tmod_lt_of_pos x hn
  have h4 : -n < x.tmod n := neg_lt_tmod x n hn
  rw [h2]
  split
  · have e : x.tmod n % n = (x.tmod n + n * 1) % n := (Int.add_mul_emod_self_left _ _ _).symm
    rw [e, Int.emod_eq_of_lt] <;> omega
  · rw [Int.emod_eq_of_lt] <;> omega

/-! ## Ring rotation -/

theorem Ring.shift_gears (r : Ring) (d : Dir) (k : Int) : (r.shift d k).gears = r.gears := by
  unfold Ring.shift
  dsimp only
  split <;> rfl

theorem Ring.shift_gearCount (r : Ring) (d : Dir) (k : Int) :
    (r.shift d k).gearCount = r.gearCount := by
  unfold Ring.gearCount
  rw [Ring.shift_gears]

theorem Ring.shift_dir (r : Ring) (d : Dir) (k : Int) (hn : 0 < r.gearCount) :
    (r.shift d k).dir = d := by
  unfold Ring.shift
  dsimp only
  rw [if_neg (by omega)]

theorem Ring.shift_offset (r : Ring) (d : Dir) (k : Int) (hn : 0 < r.gearCount) :
    (r.shift d k).offset =
      (if d = Dir.Right then r.offset - k else r.offset + k) % r.gearCount := by
  unfold Ring.shift
  dsimp only
  rw [if_neg (by omega)]
  dsimp only
  rw [norm_eq_emod k _ hn]
  by_cases hd : d = Dir.Right
  · rw [if_pos hd, if_pos hd, norm_eq_emod _ _ hn, Int.sub_emod, Int.emod_emod, ← Int.sub_emod]
  · rw [if_neg hd, if_neg hd, norm_eq_emod _ _ hn, Int.add_emod, Int.emod_emod, ← Int.add_emod]

theorem Ring.shift_offset_range (r : Ring) (d : Dir) (k : Int) (hn : 0 < r.gearCount) :
    0 ≤ (r.shift d k).offset ∧ (r.shift d k).offset < r.gearCount := by
  rw [Ring.shift_offset r d k hn]
  exact ⟨Int.emod_nonneg _ (by omega), Int.emod_lt_of_pos _ hn⟩

theorem Ring.call_gearCount (r : Ring) (c : RingCall) : (r.call c).gearCount = r.gearCount := by
  cases c <;> simp [Ring.call, Ring.tick, Ring.shift_gearCount]

theorem Ring.call_offset_range (r : Ring) (c : RingCall) (hn : 0 < r.gearCount) :
    0 ≤ (r.call c).offset ∧ (r.call c).offset < r.gearCount := by
  cases c with
  | shift d k => exact Ring.shift_offset_range r d k hn
  | tick k => exact Ring.shift_offset_range r r.dir k hn

theorem Ring.calls_gearCount (cs : List RingCall) :
    ∀ r : Ring, (r.calls cs).gearCount = r.gearCount := by
  induction cs with
  | nil => intro r; rfl
  | cons c cs ih =>
    intro r
    show ((r.call c).calls cs).gearCount = r.gearCount
    rw [ih, Ring.call_gearCount]

theorem Ring.calls_append_one (r : Ring) (cs : List RingCall) (c : RingCall) :
    r.calls (cs ++ [c]) = (r.calls cs).call c := by
  simp [Ring.calls, List.foldl_append]

/-- C5. For a ring with `gearCount > 0` and any finite sequence of `shift`/`tick` calls with
arbitrary integer step counts, the offset lies in `[0, gearCount)` after every call, that is
after each non-empty initial part of the sequence. -/
theorem Ring.offset_in_range_after_every_call (r : Ring) (cs : List RingCall) (j : Nat)
    (hn : 0 < r.gearCount) (h1 : 1 ≤ j) (h2 : j ≤ cs.length) :
    0 ≤ (r.calls (cs.take j)).offset ∧ (r.calls (cs.take j)).offset < r.gearCount := by
  obtain ⟨i, rfl⟩ : ∃ i, j = i + 1 := ⟨j - 1, by omega⟩
  have hi : i < cs.length := by omega
  rw [List.take_succ, List.getElem?_eq_getElem hi]
  simp only [Option.toList_some]
  rw [Ring.calls_append_one]
  have hc := Ring.calls_gearCount (cs.take i) r
  have := Ring.call_offset_range (r.calls (cs.take i)) cs[i] (by omega)
  omega

theorem Ring.offset_in_range_after_every_call_witness :
    0 < ring5.gearCount ∧ 0 ≤ (ring5.calls (calls3.take 2)).offset ∧
      (ring5.calls (calls3.take 2)).offset < ring5.gearCount :=
  ⟨by decide,
    Ring.offset_in_range_after_every_call ring5 calls3 2 (by decide) (by decide) (by decide)⟩

end wa
namespace wa

/-! ## Logical to physical index -/

theorem Ring.mapIndex_eq (r : Ring) (i : Int) (h0 : 0 ≤ i) (h1 : i < r.gearCount) :
    r.mapIndex i = .ok ((i + r.offset) % r.gearCount) := by
  unfold Ring.mapIndex
  dsimp only
  rw [if_neg (by omega), norm_eq_emod _ _ (by omega)]

theorem Ring.mapIndex_err (r : Ring) (i : Int) (h : i < 0 ∨ r.gearCount ≤ i) :
    r.mapIndex i = .error .ring_gear_index := by
  unfold Ring.mapIndex
  dsimp only
  rw [if_pos (by omega)]

theorem emod_add_inj (i j o n : Int) (hi0 : 0 ≤ i) (hi : i < n) (hj0 : 0 ≤ j) (hj : j < n)
    (h : (i + o) % n = (j + o) % n) : i = j := by
  have h1 : (i + o - (j + o)) % n = 0 := Int.emod_eq_emod_iff_emod_sub_eq_zero.mp h
  have h2 : i + o - (j + o) = i - j := by ring
  rw [h2] at h1
  rcases le_or_lt j i with hle | hlt
  · rw [Int.emod_eq_of_lt (by omega) (by omega)] at h1
    omega
  · have h3 : (j - i) % n = 0 := by
      have : n ∣ i - j := Int.dvd_of_emod_eq_zero h1
      have : n ∣ j - i := by
        have e : j - i = -(i - j) := by ring
        rw [e]; exact (Int.dvd_neg).mpr this
      exact Int.emod_eq_zero_of_dvd this
    rw [Int.emod_eq_of_lt (by omega) (by omega)] at h3
    omega

theorem emod_sub_add_cancel (a b n : Int) (h0 : 0 ≤ a) (h1 : a < n) :
    ((a - b) % n + b) % n = a := by
  rw [Int.emod_add_emod, Int.sub_add_cancel, Int.emod_eq_of_lt h0 h1]

/-- Exact-integer reading: for any offset, `Ring.mapIndex` restricted to the logical indices
`[0, gearCount)` is a bijection onto `[0, gearCount)`. -/
theorem Ring.mapIndex_bijective_exact (r : Ring) :
    (∀ i : Int, 0 ≤ i → i < r.gearCount →
        ∃ p : Int, r.mapIndex i = .ok p ∧ 0 ≤ p ∧ p < r.gearCount) ∧
    (∀ i j p : Int, 0 ≤ i → i < r.gearCount → 0 ≤ j → j < r.gearCount →
        r.mapIndex i = .ok p → r.mapIndex j = .ok p → i = j) ∧
    (∀ p : Int, 0 ≤ p → p < r.gearCount →
        ∃ i : Int, 0 ≤ i ∧ i < r.gearCount ∧ r.mapIndex i = .ok p) := by
  refine ⟨?_, ?_, ?_⟩
  · intro i h0 h1
    exact ⟨_, Ring.mapIndex_eq r i h0 h1, Int.emod_nonneg _ (by omega),
      Int.emod_lt_of_pos _ (by omega)⟩
  · intro i j p hi0 hi hj0 hj ei ej
    rw [Ring.mapIndex_eq r i hi0 hi] at ei
    rw [Ring.mapIndex_eq r j hj0 hj] at ej
    have ei1 : (i + r.offset) % r.gearCount = p := by injection ei
    have ej1 : (j + r.offset) % r.gearCount = p := by injection ej
    exact emod_add_inj i j r.offset r.gearCount hi0 hi hj0 hj (by rw [ei1, ej1])
  · intro p hp0 hp
    have hn : 0 < r.gearCount := by omega
    refine ⟨(p - r.offset) % r.gearCount, Int.emod_nonneg _ (by omega),
      Int.emod_lt_of_pos _ hn, ?_⟩
    rw [Ring.mapIndex_eq r _ (Int.emod_nonneg _ (by omega)) (Int.emod_lt_of_pos _ hn)]
    congr 1
    exact emod_sub_add_cancel _ _ _ hp0 hp

/-- Exact-integer reading: for a ring with `gearCount > 0`, any starting offset in
`[0, gearCount)` and any integer `k`, `Ring.shift` to the right by `k` and then to the left by
`k` restores the offset. -/
theorem Ring.shift_right_then_left_exact (r : Ring) (k : Int) (hn : 0 < r.gearCount)
    (h0 : 0 ≤ r.offset) (h1 : r.offset < r.gearCount) :
    ((r.shift Dir.Right k).shift Dir.Left k).offset = r.offset := by
  rw [Ring.shift_offset _ _ _ (by rw [Ring.shift_gearCount]; exact hn),
    Ring.shift_offset _ _ _ hn, Ring.shift_gearCount]
  simp only [if_true, if_neg (show ¬ (Dir.Left = Dir.Right) by decide)]
  exact emod_sub_add_cancel _ _ _ h0 h1

end wa
namespace wa

theorem mapM_ok {α β : Type} (f : α → Except Exn β) (g : α → β) (l : List α)
    (h : ∀ x ∈ l, f x = .ok (g x)) : l.mapM f = .ok (l.map g) := by
  induction l with
  | nil => rfl
  | cons a l ih =>
    rw [List.mapM_cons, h a (List.mem_cons_self a l), ih (fun x hx => h x (List.mem_cons_of_mem a hx))]
    rfl

theorem Ring.physBit_lt_two (r : Ring) (p : Nat) : r.physBit p < 2 := by
  unfold Ring.physBit
  split
  · exact Nat.mod_lt _ (by decide)
  · decide

theorem Ring.getBit_eq_physBit (r : Ring) (i : Int) (h0 : 0 ≤ i) (h1 : i < r.gearCount) :
    r.getBit i = .ok (r.physBit ((i + r.offset) % r.gearCount).toNat) := by
  have hp0 : 0 ≤ (i + r.offset) % r.gearCount := Int.emod_nonneg _ (by omega)
  have hp1 : (i + r.offset) % r.gearCount < r.gearCount := Int.emod_lt_of_pos _ (by omega)
  have hlt : ((i + r.offset) % r.gearCount).toNat < r.gears.length := by
    unfold Ring.gearCount at hp1 hp0 ⊢
    omega
  unfold Ring.getBit Ring.physBit
  rw [Ring.mapIndex_eq r i h0 h1]
  dsimp only
  rw [List.getElem?_eq_getElem hlt]

theorem Ring.getBit_err (r : Ring) (i : Int) (h : i < 0 ∨ r.gearCount ≤ i) :
    r.getBit i = .error .ring_gear_index := by
  unfold Ring.getBit
  rw [Ring.mapIndex_err r i h]

theorem Ring.shift_physBit (r : Ring) (d : Dir) (k : Int) (p : Nat) :
    (r.shift d k).physBit p = r.physBit p := by
  unfold Ring.physBit
  rw [Ring.shift_gears]

theorem Ring.logicalBits_eq (r : Ring) :
    r.logicalBits = .ok ((List.range r.gears.length).map
      (fun (i : Nat) => r.physBit (((i : Int) + r.offset) % r.gearCount).toNat)) := by
  unfold Ring.logicalBits
  refine mapM_ok (fun i : Nat => r.getBit (i : Int)) _ _ ?_
  intro i hi
  rw [List.mem_range] at hi
  exact Ring.getBit_eq_physBit r i (by omega) (by unfold Ring.gearCount; omega)

theorem Ring.getBit_shift_left (r : Ring) (k i : Int) (h0 : 0 ≤ i) (h1 : i < r.gearCount) :
    (r.shift Dir.Left k).getBit i = r.getBit ((i + k) % r.gearCount) := by
  have hn : 0 < r.gearCount := by omega
  rw [Ring.getBit_eq_physBit _ i h0 (by rw [Ring.shift_gearCount]; exact h1),
    Ring.getBit_eq_physBit r _ (Int.emod_nonneg _ (by omega)) (Int.emod_lt_of_pos _ hn),
    Ring.shift_physBit, Ring.shift_offset _ _ _ hn, Ring.shift_gearCount]
  simp only [if_neg (show ¬ (Dir.Left = Dir.Right) by decide)]
  congr 3
  rw [Int.add_emod_emod, Int.emod_add_emod]
  congr 1
  ring

theorem Ring.getBit_shift_right (r : Ring) (k i : Int) (h0 : 0 ≤ i) (h1 : i < r.gearCount) :
    (r.shift Dir.Right k).getBit i = r.getBit ((i - k) % r.gearCount) := by
  have hn : 0 < r.gearCount := by omega
  rw [Ring.getBit_eq_physBit _ i h0 (by rw [Ring.shift_gearCount]; exact h1),
    Ring.getBit_eq_physBit r _ (Int.emod_nonneg _ (by omega)) (Int.emod_lt_of_pos _ hn),
    Ring.shift_physBit, Ring.shift_offset _ _ _ hn, Ring.shift_gearCount]
  simp only [if_true]
  congr 3
  rw [Int.add_emod_emod, Int.emod_add_emod]
  congr 1
  ring

end wa
namespace wa

theorem math.normalize_mod_eq (v n : Int) (hn : 0 < n) :
    math.normalize_mod v n = .ok (v % n) := by
  unfold math.normalize_mod
  dsimp only
  rw [if_neg (by omega), norm_eq_emod v n hn]

theorem math.rotate_bits_left_eq (g : Nat → Nat) (len : Nat) (k : Int) (hg : ∀ p, g p < 2)
    (hlen : len ≤ 1073741824) :
    math.rotate_bits_left ((List.range len).map g) k =
      .ok ((List.range len).map (fun (i : Nat) => g ((((i : Int) + k) % (len : Int)).toNat))) := by
  unfold math.rotate_bits_left
  rcases Nat.eq_zero_or_pos len with h0 | hpos
  · subst h0; rfl
  · have hne : ((List.range len).map g).isEmpty = false := by
      cases len with
      | zero => omega
      | succ l => simp [List.range_succ]
    have hn : (0 : Int) < (len : Int) := by exact_mod_cast hpos
    rw [hne]
    simp only [Bool.false_eq_true, if_false, List.length_map, List.length_range]
    rw [math.normalize_mod_eq k _ hn]
    dsimp only
    refine mapM_ok _ _ _ ?_
    intro i hi
    rw [List.mem_range] at hi
    have hk0 : 0 ≤ k % (len : Int) := Int.emod_nonneg _ (by omega)
    have hk1 : k % (len : Int) < len := Int.emod_lt_of_pos _ hn
    rw [wrapInt_eq _ (by omega) (by omega), math.normalize_mod_eq _ _ hn]
    dsimp only
    have hj0 : 0 ≤ ((i : Int) + k % len) % len := Int.emod_nonneg _ (by omega)
    have hj1 : ((i : Int) + k % len) % len < len := Int.emod_lt_of_pos _ hn
    have hlt : (((i : Int) + k % len) % len).toNat < len := by omega
    rw [List.getElem?_map, List.getElem?_range hlt]
    simp only [Option.map_some']
    rw [Int.add_emod_emod, Nat.mod_eq_of_lt (hg _)]

/-- Exact-integer reading: after `Ring.shift` to the left by `k`, `getBit(i)` returns the bit
that `getBit((i + k) mod gearCount)` returned before, after a shift to the right the bit that
`getBit((i - k) mod gearCount)` returned before; and on a ring of at most `2^30` gears the
logical bit sequence after the shift to the left is `math::rotate_bits_left` of the previous
one. -/
theorem Ring.shift_rotates_logical_bits_exact (r : Ring) (k : Int)
    (hb : r.gearCount ≤ 1073741824) :
    (∀ i : Int, 0 ≤ i → i < r.gearCount →
      (∃ v, r.getBit ((i + k) % r.gearCount) = .ok v ∧ (r.shift Dir.Left k).getBit i = .ok v) ∧
      (∃ v, r.getBit ((i - k) % r.gearCount) = .ok v ∧ (r.shift Dir.Right k).getBit i = .ok v)) ∧
    (∃ bs bs1 : List Nat, r.logicalBits = .ok bs ∧ (r.shift Dir.Left k).logicalBits = .ok bs1 ∧
      math.rotate_bits_left bs k = .ok bs1) := by
  constructor
  · intro i h0 h1
    have hn : 0 < r.gearCount := by omega
    constructor
    · refine ⟨_, Ring.getBit_eq_physBit r _ (Int.emod_nonneg _ (by omega))
        (Int.emod_lt_of_pos _ hn), ?_⟩
      rw [Ring.getBit_shift_left r k i h0 h1]
      exact Ring.getBit_eq_physBit r _ (Int.emod_nonneg _ (by omega)) (Int.emod_lt_of_pos _ hn)
    · refine ⟨_, Ring.getBit_eq_physBit r _ (Int.emod_nonneg _ (by omega))
        (Int.emod_lt_of_pos _ hn), ?_⟩
      rw [Ring.getBit_shift_right r k i h0 h1]
      exact Ring.getBit_eq_physBit r _ (Int.emod_nonneg _ (by omega)) (Int.emod_lt_of_pos _ hn)
  · refine ⟨_, _, Ring.logicalBits_eq r, Ring.logicalBits_eq _, ?_⟩
    rw [math.rotate_bits_left_eq (fun (i : Nat) => r.physBit (((i : Int) + r.offset) % r.gearCount).toNat)
      r.gears.length k (fun p => Ring.physBit_lt_two r _)
      (by unfold Ring.gearCount at hb; omega)]
    congr 1
    rw [Ring.shift_gears]
    apply List.map_congr_left
    intro i hi
    rw [List.mem_range] at hi
    rw [Ring.shift_physBit, Ring.shift_gearCount]
    have hn : 0 < r.gearCount := by unfold Ring.gearCount; omega
    rw [Ring.shift_offset _ _ _ hn]
    simp only [if_neg (show ¬ (Dir.Left = Dir.Right) by decide)]
    have hj0 : 0 ≤ ((i : Int) + k) % (r.gears.length : Int) := Int.emod_nonneg _ (by omega)
    rw [Int.toNat_of_nonneg hj0]
    show r.physBit ((((i : Int) + k) % r.gearCount + r.offset) % r.gearCount).toNat = _
    congr 2
    rw [Int.emod_add_emod, Int.add_emod_emod]
    congr 1
    ring

end wa
namespace wa

/-! ## Writing one cell -/

theorem Ring.getBit_after_set (r r1 : Ring) (i : Int) (g : Gear) (h0 : 0 ≤ i)
    (h1 : i < r.gearCount)
    (hg : r1.gears = r.gears.set ((i + r.offset) % r.gearCount).toNat g)
    (ho : r1.offset = r.offset) (j : Int) :
    r1.getBit j = if j = i then .ok (g.bit % 2) else r.getBit j := by
  have hn : 0 < r.gearCount := by omega
  have hp0 : 0 ≤ (i + r.offset) % r.gearCount := Int.emod_nonneg _ (by omega)
  have hp1 : (i + r.offset) % r.gearCount < r.gearCount := Int.emod_lt_of_pos _ hn
  have hlt : ((i + r.offset) % r.gearCount).toNat < r.gears.length := by
    unfold Ring.gearCount at hp1 hp0 ⊢
    omega
  have hc : r1.gearCount = r.gearCount := by
    unfold Ring.gearCount; rw [hg]; simp
  by_cases hj : 0 ≤ j ∧ j < r.gearCount
  · rw [Ring.getBit_eq_physBit r1 j hj.1 (by rw [hc]; exact hj.2), ho, hc]
    have hq0 : 0 ≤ (j + r.offset) % r.gearCount := Int.emod_nonneg _ (by omega)
    have hq1 : (j + r.offset) % r.gearCount < r.gearCount := Int.emod_lt_of_pos _ hn
    by_cases hji : j = i
    · subst hji
      rw [if_pos rfl]
      unfold Ring.physBit
      rw [hg, List.getElem?_set_self hlt]
    · rw [if_neg hji, Ring.getBit_eq_physBit r j hj.1 hj.2]
      unfold Ring.physBit
      have hne : ((i + r.offset) % r.gearCount).toNat ≠ ((j + r.offset) % r.gearCount).toNat := by
        intro he
        have he1 : (i + r.offset) % r.gearCount = (j + r.offset) % r.gearCount := by omega
        exact hji (emod_add_inj i j r.offset r.gearCount h0 h1 hj.1 hj.2 he1).symm
      rw [hg, List.getElem?_set_ne hne]
  · have hji : j ≠ i := by intro h; subst h; exact hj ⟨h0, h1⟩
    rw [if_neg hji, Ring.getBit_err r1 j (by rw [hc]; omega), Ring.getBit_err r j (by omega)]

theorem Ring.setBit_frame (r : Ring) (i : Int) (v : Nat) (h0 : 0 ≤ i) (h1 : i < r.gearCount) :
    ∃ r1 : Ring, r.setBit i v = (r1, none) ∧ r1.offset = r.offset ∧ r1.dir = r.dir ∧
      r1.gears.length = r.gears.length ∧
      ∀ j : Int, r1.getBit j = if j = i then .ok (v % 2) else r.getBit j := by
  have hn : 0 < r.gearCount := by omega
  have hp0 : 0 ≤ (i + r.offset) % r.gearCount := Int.emod_nonneg _ (by omega)
  have hp1 : (i + r.offset) % r.gearCount < r.gearCount := Int.emod_lt_of_pos _ hn
  have hlt : ((i + r.offset) % r.gearCount).toNat < r.gears.length := by
    unfold Ring.gearCount at hp1 hp0 ⊢
    omega
  unfold Ring.setBit
  rw [Ring.mapIndex_eq r i h0 h1]
  dsimp only
  rw [List.getElem?_eq_getElem hlt]
  dsimp only
  refine ⟨_, rfl, rfl, rfl, by simp, ?_⟩
  intro j
  have h := Ring.getBit_after_set r
    ⟨r.gears.set ((i + r.offset) % r.gearCount).toNat
      ⟨v % 2, (r.gears[((i + r.offset) % r.gearCount).toNat]).teeth⟩, r.dir, r.offset⟩
    i ⟨v % 2, (r.gears[((i + r.offset) % r.gearCount).toNat]).teeth⟩ h0 h1 rfl rfl j
  simp only [Nat.mod_mod] at h
  exact h

theorem Ring.setBit_err (r : Ring) (i : Int) (v : Nat) (h : i < 0 ∨ r.gearCount ≤ i) :
    r.setBit i v = (r, some .ring_gear_index) := by
  unfold Ring.setBit
  rw [Ring.mapIndex_err r i h]

theorem Machine.ring_ok (m : Machine) (r : Int) (h0 : 0 ≤ r) (h1 : r < m.ringCount) :
    ∃ rg, m.rings[r.toNat]? = some rg ∧ m.ring r = .ok rg := by
  have hlt : r.toNat < m.rings.length := by unfold Machine.ringCount at h1; omega
  refine ⟨m.rings[r.toNat], List.getElem?_eq_getElem hlt, ?_⟩
  unfold Machine.ring Machine.checkRing
  rw [if_neg (by omega)]
  dsimp only
  rw [List.getElem?_eq_getElem hlt]

theorem Machine.ring_err (m : Machine) (r : Int) (h : r < 0 ∨ m.ringCount ≤ r) :
    m.ring r = .error .ring_out_of_range := by
  unfold Machine.ring Machine.checkRing
  rw [if_pos (by omega)]

theorem Machine.ringCount_of_shape {m1 m2 : Machine} (h : m1.shape = m2.shape) :
    m1.ringCount = m2.ringCount := by
  have := congrArg List.length h
  unfold Machine.shape at this
  simp only [List.length_map] at this
  unfold Machine.ringCount
  omega

theorem Machine.gearsOf_of_shape {m1 m2 : Machine} (h : m1.shape = m2.shape) (r : Int) :
    m1.gearsOf r = m2.gearsOf r := by
  have h1 : m1.shape[r.toNat]? = m2.shape[r.toNat]? := by rw [h]
  unfold Machine.shape at h1
  simp only [List.getElem?_map] at h1
  unfold Machine.gearsOf Ring.gearCount
  cases ha : m1.rings[r.toNat]? <;> cases hb : m2.rings[r.toNat]? <;>
    simp [ha, hb] at h1 ⊢
  omega

theorem Machine.setBit_ok (m : Machine) (r i : Int) (v : Nat) (hr0 : 0 ≤ r)
    (hr1 : r < m.ringCount) (hi0 : 0 ≤ i) (hi1 : i < m.gearsOf r) :
    ∃ m1 : Machine, m.setBit r i v = (m1, none) ∧ m1.shape = m.shape ∧
      ∀ (q j : Int), m1.getBit q j = if q = r ∧ j = i then .ok (v % 2) else m.getBit q j := by
  obtain ⟨rg, hrg, hring⟩ := Machine.ring_ok m r hr0 hr1
  have hlt : r.toNat < m.rings.length := by unfold Machine.ringCount at hr1; omega
  have hgc : m.gearsOf r = rg.gearCount := by unfold Machine.gearsOf; rw [hrg]
  obtain ⟨r1, hset, hoff, hdir, hlen, hget⟩ := Ring.setBit_frame rg i v hi0 (by omega)
  unfold Machine.setBit
  rw [hring]
  dsimp only
  rw [hset]
  refine ⟨_, rfl, ?_, ?_⟩
  · unfold Machine.shape
    dsimp only
    rw [List.map_set]
    apply List.ext_getElem?
    intro k
    rw [List.getElem?_set]
    split
    · next hk =>
      subst hk
      simp only [List.length_map, hlt, if_true, List.getElem?_map, hrg, Option.map_some',
        hoff, hdir, hlen]
    · rfl
  · intro q j
    have hcnt : ({ rings := m.rings.set r.toNat r1 } : Machine).ringCount = m.ringCount := by
      unfold Machine.ringCount; simp
    by_cases hq : 0 ≤ q ∧ q < m.ringCount
    · obtain ⟨rq, hrq, hringq⟩ := Machine.ring_ok m q hq.1 hq.2
      obtain ⟨rq1, hrq1, hringq1⟩ := Machine.ring_ok ({ rings := m.rings.set r.toNat r1 } : Machine)
        q hq.1 (by rw [hcnt]; exact hq.2)
      unfold Machine.getBit
      rw [hringq, hringq1]
      dsimp only at hrq1 ⊢
      by_cases hqr : q = r
      · subst hqr
        rw [List.getElem?_set_self hlt] at hrq1
        have e1 : rq1 = r1 := by injection hrq1 with h; exact h.symm
        have e2 : rq = rg := by rw [hrg] at hrq; injection hrq with h; exact h.symm
        rw [e1, e2, hget j]
        by_cases hji : j = i
        · rw [if_pos hji, if_pos ⟨rfl, hji⟩]
        · rw [if_neg hji, if_neg (fun h => hji h.2)]
      · have hne : r.toNat ≠ q.toNat := by omega
        rw [List.getElem?_set_ne hne, hrq] at hrq1
        have e1 : rq1 = rq := by injection hrq1 with h; exact h.symm
        rw [e1, if_neg (fun h => hqr h.1)]
    · have hqr : q ≠ r := by intro h; subst h; exact hq ⟨hr0, hr1⟩
      unfold Machine.getBit
      rw [Machine.ring_err _ q (by rw [hcnt]; omega), Machine.ring_err m q (by omega),
        if_neg (fun h => hqr h.1)]

end wa
namespace wa

/-! ## Words as views onto cells -/

theorem word_bits_pos (ws : WordSize) : 0 < word_bits ws := by
  cases ws <;> decide

theorem Machine.getBit_ok (m : Machine) (r i : Int) (hr0 : 0 ≤ r) (hr1 : r < m.ringCount)
    (hi0 : 0 ≤ i) (hi1 : i < m.gearsOf r) : ∃ b : Nat, b < 2 ∧ m.getBit r i = .ok b := by
  obtain ⟨rg, hrg, hring⟩ := Machine.ring_ok m r hr0 hr1
  have hgc : m.gearsOf r = rg.gearCount := by unfold Machine.gearsOf; rw [hrg]
  refine ⟨rg.physBit ((i + rg.offset) % rg.gearCount).toNat, Ring.physBit_lt_two rg _, ?_⟩
  unfold Machine.getBit
  rw [hring]
  exact Ring.getBit_eq_physBit rg i hi0 (by omega)

theorem get_word_bit_eq (m : Machine) (w : WordRef) (i : Int) (h0 : 0 ≤ i)
    (h1 : i < word_bits w.size) :
    get_word_bit m w i = m.getBit (w.cell i).1 (w.cell i).2 := by
  unfold get_word_bit WordRef.cell
  dsimp only
  rw [if_neg (by omega)]
  cases hs : w.size <;> simp
  split <;> rfl

theorem set_word_bit_eq (m : Machine) (w : WordRef) (i : Int) (v : Nat) (h0 : 0 ≤ i)
    (h1 : i < word_bits w.size) :
    set_word_bit m w i v = m.setBit (w.cell i).1 (w.cell i).2 (v % 2) := by
  unfold set_word_bit WordRef.cell
  dsimp only
  rw [if_neg (by omega)]
  cases hs : w.size <;> simp
  split <;> rfl

theorem WordRef.valid_cell (m : Machine) (w : WordRef) (hv : w.valid m) (i : Int) (h0 : 0 ≤ i)
    (h1 : i < word_bits w.size) :
    0 ≤ (w.cell i).1 ∧ (w.cell i).1 < m.ringCount ∧ 0 ≤ (w.cell i).2 ∧
      (w.cell i).2 < m.gearsOf (w.cell i).1 := by
  obtain ⟨hseg, -⟩ := hv
  unfold WordRef.segments at hseg
  unfold WordRef.cell
  cases hs : w.size <;> rw [hs] at hseg h1 <;> simp only [word_bits] at h1 <;> dsimp only at hseg ⊢
  · have := hseg _ (List.mem_singleton_self _)
    dsimp only at this
    omega
  · have := hseg _ (List.mem_singleton_self _)
    dsimp only at this
    omega
  · have ha := hseg (w.ringA, 0, 360) (by simp)
    have hb := hseg (w.ringB, 0, 360) (by simp)
    dsimp only at ha hb
    split <;> dsimp only <;> omega

theorem WordRef.cell_inj (m : Machine) (w : WordRef) (hv : w.valid m) (i j : Int)
    (h : w.cell i = w.cell j) : i = j := by
  obtain ⟨-, hab⟩ := hv
  unfold WordRef.cell at h
  cases hs : w.size <;> rw [hs] at h <;> dsimp only at h
  · have := congrArg Prod.snd h
    dsimp only at this
    omega
  · exact congrArg Prod.snd h
  · have hne := hab hs
    split at h <;> split at h
    · exact congrArg Prod.snd h
    · exact absurd (congrArg Prod.fst h) hne
    · exact absurd (congrArg Prod.fst h).symm hne
    · have := congrArg Prod.snd h
      dsimp only at this
      omega

theorem WordRef.cell_in_segment (w : WordRef) (i : Int) (h0 : 0 ≤ i)
    (h1 : i < word_bits w.size) :
    ∃ s ∈ w.segments, (w.cell i).1 = s.1 ∧ s.2.1 ≤ (w.cell i).2 ∧ (w.cell i).2 < s.2.2 := by
  unfold WordRef.segments WordRef.cell
  cases hs : w.size <;> rw [hs] at h1 <;> simp only [word_bits] at h1 <;> dsimp only
  · exact ⟨_, List.mem_singleton_self _, rfl, by dsimp only; omega, by dsimp only; omega⟩
  · exact ⟨_, List.mem_singleton_self _, rfl, by dsimp only; omega, by dsimp only; omega⟩
  · by_cases hi : i < 360
    · rw [if_pos hi]
      exact ⟨(w.ringA, 0, 360), by simp, rfl, by dsimp only; omega, by dsimp only; omega⟩
    · rw [if_neg hi]
      exact ⟨(w.ringB, 0, 360), by simp, rfl, by dsimp only; omega, by dsimp only; omega⟩

theorem WordRef.disjoint_cell (w1 w2 : WordRef) (hd : w1.disjoint w2) (i j : Int) (hi0 : 0 ≤ i)
    (hi1 : i < word_bits w1.size) (hj0 : 0 ≤ j) (hj1 : j < word_bits w2.size) :
    w1.cell i ≠ w2.cell j := by
  obtain ⟨s, hs, e1, l1, u1⟩ := WordRef.cell_in_segment w1 i hi0 hi1
  obtain ⟨t, ht, e2, l2, u2⟩ := WordRef.cell_in_segment w2 j hj0 hj1
  intro h
  have hf := congrArg Prod.fst h
  have hsn := congrArg Prod.snd h
  rcases hd s hs t ht with h3 | h3 | h3 <;> omega

theorem WordRef.valid_of_shape {m1 m2 : Machine} (h : m1.shape = m2.shape) (w : WordRef)
    (hv : w.valid m2) : w.valid m1 := by
  obtain ⟨hseg, hab⟩ := hv
  refine ⟨fun s hs => ?_, hab⟩
  have := hseg s hs
  rw [Machine.ringCount_of_shape h, Machine.gearsOf_of_shape h]
  exact this

theorem get_word_bit_ok (m : Machine) (w : WordRef) (hv : w.valid m) (i : Nat)
    (h1 : (i : Int) < word_bits w.size) :
    wordBit m w i < 2 ∧ get_word_bit m w (i : Int) = .ok (wordBit m w i) := by
  obtain ⟨c0, c1, c2, c3⟩ := WordRef.valid_cell m w hv i (by omega) h1
  obtain ⟨b, hb, hget⟩ := Machine.getBit_ok m _ _ c0 c1 c2 c3
  rw [← get_word_bit_eq m w i (by omega) h1] at hget
  unfold wordBit
  rw [hget]
  exact ⟨hb, rfl⟩

theorem set_word_bit_ok (m : Machine) (w : WordRef) (hv : w.valid m) (i : Int) (v : Nat)
    (h0 : 0 ≤ i) (h1 : i < word_bits w.size) :
    ∃ m1 : Machine, set_word_bit m w i v = (m1, none) ∧ m1.shape = m.shape ∧
      ∀ (q j : Int), m1.getBit q j =
        if q = (w.cell i).1 ∧ j = (w.cell i).2 then .ok (v % 2) else m.getBit q j := by
  obtain ⟨c0, c1, c2, c3⟩ := WordRef.valid_cell m w hv i h0 h1
  obtain ⟨m1, hset, hshape, hget⟩ := Machine.setBit_ok m _ _ (v % 2) c0 c1 c2 c3
  refine ⟨m1, ?_, hshape, ?_⟩
  · rw [set_word_bit_eq m w i v h0 h1, hset]
  · intro q j
    rw [hget q j, Nat.mod_mod]

end wa
namespace wa

/-! ## The loop and its two elementary steps -/

theorem forLoop_inv {σ : Type} (body : Int → σ → σ × Option Exn) (P : Nat → σ → Prop) (n : Nat)
    (hstep : ∀ (i : Nat) (s : σ), i < n → P i s →
      ∃ s1, body (i : Int) s = (s1, none) ∧ P (i + 1) s1) :
    ∀ (k i : Nat) (s : σ), i + k = n → P i s →
      ∃ s1, forLoop body k (i : Int) s = (s1, none) ∧ P n s1 := by
  intro k
  induction k with
  | zero =>
    intro i s hik hP
    have : i = n := by omega
    subst this
    exact ⟨s, rfl, hP⟩
  | succ k ih =>
    intro i s hik hP
    obtain ⟨s1, hb, hP1⟩ := hstep i s (by omega) hP
    obtain ⟨s2, hl, hP2⟩ := ih (i + 1) s1 (by omega) hP1
    refine ⟨s2, ?_, hP2⟩
    unfold forLoop
    rw [hb]
    dsimp only
    rw [← hl]
    congr 1

theorem read_step (m m1 : Machine) (a out : WordRef) (i : Nat) (ha : a.valid m)
    (hi : (i : Int) < word_bits a.size)
    (hca : ∀ k : Nat, k < i → out.cell (k : Int) ≠ a.cell (i : Int))
    (hframe : ∀ (q j : Int), (∀ k : Nat, k < i → out.cell (k : Int) ≠ (q, j)) →
      m1.getBit q j = m.getBit q j) :
    get_word_bit m1 a (i : Int) = .ok (wordBit m a i) ∧ wordBit m a i < 2 := by
  obtain ⟨hlt, hget⟩ := get_word_bit_ok m a ha i hi
  refine ⟨?_, hlt⟩
  have hf := hframe (a.cell (i : Int)).1 (a.cell (i : Int)).2 (fun k hk => hca k hk)
  rw [get_word_bit_eq m1 a i (by omega) hi, hf, ← get_word_bit_eq m a i (by omega) hi, hget]

theorem write_step (m m1 : Machine) (out : WordRef) (g : Nat → Nat) (i v : Nat)
    (ho : out.valid m) (hi : (i : Int) < word_bits out.size) (hv : v % 2 = g i)
    (hshape : m1.shape = m.shape)
    (hframe : ∀ (q j : Int), (∀ k : Nat, k < i → out.cell (k : Int) ≠ (q, j)) →
      m1.getBit q j = m.getBit q j)
    (hout : ∀ k : Nat, k < i → get_word_bit m1 out (k : Int) = .ok (g k)) :
    ∃ m2 : Machine, set_word_bit m1 out (i : Int) v = (m2, none) ∧ m2.shape = m.shape ∧
      (∀ (q j : Int), (∀ k : Nat, k < i + 1 → out.cell (k : Int) ≠ (q, j)) →
        m2.getBit q j = m.getBit q j) ∧
      (∀ k : Nat, k < i + 1 → get_word_bit m2 out (k : Int) = .ok (g k)) := by
  have ho1 : out.valid m1 := WordRef.valid_of_shape hshape out ho
  obtain ⟨m2, hset, hsh, hget⟩ := set_word_bit_ok m1 out ho1 i v (by omega) hi
  refine ⟨m2, hset, hsh.trans hshape, ?_, ?_⟩
  · intro q j hq
    have hne : ¬ (q = (out.cell (i : Int)).1 ∧ j = (out.cell (i : Int)).2) := by
      intro h
      exact hq i (by omega) (Prod.ext h.1.symm h.2.symm)
    rw [hget q j, if_neg hne]
    exact hframe q j (fun k hk => hq k (by omega))
  · intro k hk
    have hki : (k : Int) < word_bits out.size := by omega
    rw [get_word_bit_eq m2 out k (by omega) hki, hget]
    by_cases hkeq : k = i
    · subst hkeq
      rw [if_pos ⟨rfl, rfl⟩, hv]
    · have hne : ¬ ((out.cell (k : Int)).1 = (out.cell (i : Int)).1 ∧
          (out.cell (k : Int)).2 = (out.cell (i : Int)).2) := by
        intro h
        have := WordRef.cell_inj m out ho k i (Prod.ext h.1 h.2)
        omega
      rw [if_neg hne, ← get_word_bit_eq m1 out k (by omega) hki]
      exact hout k (by omega)

end wa
namespace wa

/-! ## The bitwise ALU functions -/

theorem bitwise_loop (f : Nat → Nat → Nat) (body : Int → Machine → Machine × Option Exn)
    (a b out : WordRef) (m : Machine)
    (hbody : ∀ (i : Int) (s : Machine), body i s =
      match get_word_bit s a i with
      | .error e => (s, some e)
      | .ok x =>
        match get_word_bit s b i with
        | .error e => (s, some e)
        | .ok y => set_word_bit s out i (f x y))
    (ha : a.valid m) (hb : b.valid m) (ho : out.valid m)
    (hsb : word_bits a.size ≤ word_bits b.size) (hso : word_bits a.size ≤ word_bits out.size)
    (hca : ∀ k i : Nat, k < i → (i : Int) < word_bits a.size →
      out.cell (k : Int) ≠ a.cell (i : Int))
    (hcb : ∀ k i : Nat, k < i → (i : Int) < word_bits a.size →
      out.cell (k : Int) ≠ b.cell (i : Int)) :
    ∃ m1 : Machine, forLoop body (word_bits a.size).toNat 0 m = (m1, none) ∧
      m1.shape = m.shape ∧
      (∀ (q j : Int), (∀ k : Nat, k < (word_bits a.size).toNat → out.cell (k : Int) ≠ (q, j)) →
        m1.getBit q j = m.getBit q j) ∧
      (∀ k : Nat, k < (word_bits a.size).toNat →
        get_word_bit m1 out (k : Int) = .ok (f (wordBit m a k) (wordBit m b k) % 2)) := by
  have hpos := word_bits_pos a.size
  have key := forLoop_inv body
    (fun i s => s.shape = m.shape ∧
      (∀ (q j : Int), (∀ k : Nat, k < i → out.cell (k : Int) ≠ (q, j)) →
        s.getBit q j = m.getBit q j) ∧
      (∀ k : Nat, k < i →
        get_word_bit s out (k : Int) = .ok (f (wordBit m a k) (wordBit m b k) % 2)))
    (word_bits a.size).toNat ?_ (word_bits a.size).toNat 0 m (by omega)
    ⟨rfl, fun _ _ _ => rfl, fun k hk => absurd hk (by omega)⟩
  · exact key
  · intro i s hi ⟨h1, h2, h3⟩
    have hia : (i : Int) < word_bits a.size := by omega
    obtain ⟨hra, -⟩ := read_step m s a out i ha hia (fun k hk => hca k i hk hia) h2
    obtain ⟨hrb, -⟩ := read_step m s b out i hb (by omega)
      (fun k hk => hcb k i hk hia) h2
    obtain ⟨m2, hset, hw⟩ := write_step m s out
      (fun k => f (wordBit m a k) (wordBit m b k) % 2) i
      (f (wordBit m a i) (wordBit m b i)) ho (by omega) rfl h1 h2 h3
    refine ⟨m2, ?_, hw⟩
    rw [hbody, hra]
    dsimp only
    rw [hrb]
    dsimp only
    exact hset

theorem bit_ops (x y : Nat) (hx : x < 2) (hy : y < 2) :
    (x ^^^ y) % 256 % 2 = x ^^^ y ∧ (x &&& y) % 256 % 2 = x &&& y ∧
      (x ||| y) % 256 % 2 = x ||| y := by
  interval_cases x <;> interval_cases y <;> decide

theorem disjoint_no_clobber (out a : WordRef) (hd : out.disjoint a) (hso : out.size = a.size)
    (k i : Nat) (hki : k < i) (hi : (i : Int) < word_bits a.size) :
    out.cell (k : Int) ≠ a.cell (i : Int) :=
  WordRef.disjoint_cell out a hd k i (by omega) (by rw [hso]; omega) (by omega) hi

theorem bitwise_disjoint (f : Nat → Nat → Nat) (body : Int → Machine → Machine × Option Exn)
    (a b out : WordRef) (m : Machine)
    (hbody : ∀ (i : Int) (s : Machine), body i s =
      match get_word_bit s a i with
      | .error e => (s, some e)
      | .ok x =>
        match get_word_bit s b i with
        | .error e => (s, some e)
        | .ok y => set_word_bit s out i (f x y))
    (ha : a.valid m) (hb : b.valid m) (ho : out.valid m)
    (hsb : b.size = a.size) (hso : out.size = a.size)
    (hda : out.disjoint a) (hdb : out.disjoint b) :
    ∃ m1 : Machine, forLoop body (word_bits a.size).toNat 0 m = (m1, none) ∧
      ∀ i : Int, 0 ≤ i → i < word_bits a.size →
        ∃ x y : Nat, get_word_bit m a i = .ok x ∧ get_word_bit m b i = .ok y ∧
          x < 2 ∧ y < 2 ∧
          get_word_bit m1 out i = .ok (f x y % 2) ∧
          get_word_bit m1 a i = .ok x ∧ get_word_bit m1 b i = .ok y := by
  obtain ⟨m1, hrun, -, hframe, hout⟩ := bitwise_loop f body a b out m hbody ha hb ho
    (le_of_eq (congrArg word_bits hsb.symm)) (le_of_eq (congrArg word_bits hso.symm))
    (disjoint_no_clobber out a hda hso)
    (fun k i hki hi => disjoint_no_clobber out b hdb (hso.trans hsb.symm) k i hki
      (by rw [hsb]; exact hi))
  refine ⟨m1, hrun, ?_⟩
  intro i h0 h1
  obtain ⟨n, rfl⟩ := Int.eq_ofNat_of_zero_le h0
  have h1b : (n : Int) < word_bits b.size := by rw [hsb]; exact h1
  obtain ⟨hxl, hx⟩ := get_word_bit_ok m a ha n h1
  obtain ⟨hyl, hy⟩ := get_word_bit_ok m b hb n h1b
  refine ⟨_, _, hx, hy, hxl, hyl, hout n (by omega), ?_, ?_⟩
  · rw [get_word_bit_eq m1 a n h0 h1, hframe, ← get_word_bit_eq m a n h0 h1, hx]
    intro k hk
    exact WordRef.disjoint_cell out a hda k n (by omega) (by rw [hso]; omega) h0 h1
  · rw [get_word_bit_eq m1 b n h0 h1b, hframe, ← get_word_bit_eq m b n h0 h1b, hy]
    intro k hk
    exact WordRef.disjoint_cell out b hdb k n (by omega) (by rw [hso]; omega) h0 h1b

end wa
namespace wa

/-- C10. For every valid word `a` and every valid output word `out` of the same width, whether
or not `out` overlaps `a` or is `a` itself, `alu_xor(m, a, a, out)` returns normally and leaves
every bit of `out` equal to 0. -/
theorem alu_xor_self_zero (m : Machine) (a out : WordRef) (ha : a.valid m) (ho : out.valid m)
    (hso : out.size = a.size) :
    ∃ m1 : Machine, alu_xor m a a out = (m1, none) ∧
      ∀ i : Int, 0 ≤ i → i < word_bits out.size → get_word_bit m1 out i = .ok 0 := by
  have key := forLoop_inv (alu_xor_body a a out)
    (fun i s => s.shape = m.shape ∧
      (∀ k : Nat, k < i → get_word_bit s out (k : Int) = .ok 0))
    (word_bits a.size).toNat ?_ (word_bits a.size).toNat 0 m (by omega)
    ⟨rfl, fun k hk => absurd hk (by omega)⟩
  · obtain ⟨m1, hrun, -, hz⟩ := key
    refine ⟨m1, hrun, fun i h0 h1 => ?_⟩
    obtain ⟨n, rfl⟩ := Int.eq_ofNat_of_zero_le h0
    exact hz n (by rw [hso] at h1; omega)
  · intro i s hi ⟨h1, h2⟩
    have hia : (i : Int) < word_bits a.size := by omega
    have hio : (i : Int) < word_bits out.size := by rw [hso]; exact hia
    have ha1 : a.valid s := WordRef.valid_of_shape h1 a ha
    have ho1 : out.valid s := WordRef.valid_of_shape h1 out ho
    obtain ⟨-, hra⟩ := get_word_bit_ok s a ha1 i hia
    obtain ⟨m2, hset, hsh, hget⟩ := set_word_bit_ok s out ho1 i
      ((wordBit s a i ^^^ wordBit s a i) % 256) (by omega) hio
    refine ⟨m2, ?_, hsh.trans h1, ?_⟩
    · unfold alu_xor_body
      rw [hra]
      dsimp only
      exact hset
    · intro k hk
      have hko : (k : Int) < word_bits out.size := by omega
      rw [get_word_bit_eq m2 out k (by omega) hko, hget]
      split
      · simp [Nat.xor_self]
      · rw [← get_word_bit_eq s out k (by omega) hko]
        by_cases hki : k = i
        · subst hki
          rename_i hne
          exact absurd ⟨rfl, rfl⟩ hne
        · exact h2 k (by omega)

theorem alu_xor_self_zero_witness :
    (WordRef.w64 1 0).valid machine10set ∧ (WordRef.w64 1 1).valid machine10set ∧
    ∃ m1 : Machine,
      alu_xor machine10set (WordRef.w64 1 0) (WordRef.w64 1 0) (WordRef.w64 1 1) = (m1, none) ∧
      ∀ i : Int, 0 ≤ i → i < word_bits (WordRef.w64 1 1).size →
        get_word_bit m1 (WordRef.w64 1 1) i = .ok 0 :=
  ⟨by decide, by decide,
    alu_xor_self_zero machine10set (WordRef.w64 1 0) (WordRef.w64 1 1) (by decide) (by decide) rfl⟩

end wa
namespace wa

/-! ## Ripple-carry addition -/

theorem adder_value (a b : Nat → Nat) (n : Nat) :
    bitsValue (sumBit a b) n + carryAt a b n * 2 ^ n = bitsValue a n + bitsValue b n := by
  induction n with
  | zero => simp [bitsValue, carryAt]
  | succ n ih =>
    simp only [bitsValue, carryAt, sumBit]
    have h := Nat.div_add_mod (a n + b n + carryAt a b n) 2
    generalize (a n + b n + carryAt a b n) / 2 = q at h ⊢
    generalize (a n + b n + carryAt a b n) % 2 = r at h ⊢
    have h2 : (2 * q + r) * 2 ^ n = (a n + b n + carryAt a b n) * 2 ^ n := by rw [h]
    rw [pow_succ]
    nlinarith [h2, ih]

theorem bitsValue_lt (f : Nat → Nat) (n : Nat) (hf : ∀ i, i < n → f i < 2) :
    bitsValue f n < 2 ^ n := by
  induction n with
  | zero => simp [bitsValue]
  | succ n ih =>
    simp only [bitsValue]
    have h1 := ih (fun i hi => hf i (by omega))
    have h2 := hf n (by omega)
    have h3 : f n * 2 ^ n ≤ 1 * 2 ^ n := Nat.mul_le_mul_right _ (by omega)
    rw [pow_succ]
    omega

theorem bitsValue_congr (f g : Nat → Nat) (n : Nat) (h : ∀ i, i < n → f i = g i) :
    bitsValue f n = bitsValue g n := by
  induction n with
  | zero => rfl
  | succ n ih =>
    simp only [bitsValue]
    rw [ih (fun i hi => h i (by omega)), h n (by omega)]

theorem carryAt_lt (a b : Nat → Nat) (n : Nat) (ha : ∀ i, i < n → a i < 2)
    (hb : ∀ i, i < n → b i < 2) : carryAt a b n < 2 := by
  induction n with
  | zero => simp [carryAt]
  | succ n ih =>
    simp only [carryAt]
    have h1 := ih (fun i hi => ha i (by omega)) (fun i hi => hb i (by omega))
    have h2 := ha n (by omega)
    have h3 := hb n (by omega)
    omega

theorem full_adder_bits (x y c : Nat) (hx : x < 2) (hy : y < 2) (hc : c < 2) :
    (x ^^^ y ^^^ c) % 256 % 2 = (x + y + c) % 2 ∧
      ((x &&& y) ||| (x &&& c) ||| (y &&& c)) % 256 = (x + y + c) / 2 := by
  interval_cases x <;> interval_cases y <;> interval_cases c <;> decide

theorem add_loop (a b out : WordRef) (m : Machine)
    (ha : a.valid m) (hb : b.valid m) (ho : out.valid m)
    (hsb : word_bits a.size ≤ word_bits b.size) (hso : word_bits a.size ≤ word_bits out.size)
    (hca : ∀ k i : Nat, k < i → (i : Int) < word_bits a.size →
      out.cell (k : Int) ≠ a.cell (i : Int))
    (hcb : ∀ k i : Nat, k < i → (i : Int) < word_bits a.size →
      out.cell (k : Int) ≠ b.cell (i : Int)) :
    ∃ m1 : Machine,
      alu_add m a b out =
        (m1, .ok (carryAt (wordBit m a) (wordBit m b) (word_bits a.size).toNat)) ∧
      m1.shape = m.shape ∧
      (∀ (q j : Int), (∀ k : Nat, k < (word_bits a.size).toNat → out.cell (k : Int) ≠ (q, j)) →
        m1.getBit q j = m.getBit q j) ∧
      (∀ k : Nat, k < (word_bits a.size).toNat →
        get_word_bit m1 out (k : Int) = .ok (sumBit (wordBit m a) (wordBit m b) k)) := by
  have hpos := word_bits_pos a.size
  have hbits_a : ∀ i, i < (word_bits a.size).toNat → wordBit m a i < 2 :=
    fun i hi => (get_word_bit_ok m a ha i (by omega)).1
  have hbits_b : ∀ i, i < (word_bits a.size).toNat → wordBit m b i < 2 :=
    fun i hi => (get_word_bit_ok m b hb i (by omega)).1
  have key := forLoop_inv (alu_add_body a b out)
    (fun i s => s.1.shape = m.shape ∧
      (∀ (q j : Int), (∀ k : Nat, k < i → out.cell (k : Int) ≠ (q, j)) →
        s.1.getBit q j = m.getBit q j) ∧
      (∀ k : Nat, k < i →
        get_word_bit s.1 out (k : Int) = .ok (sumBit (wordBit m a) (wordBit m b) k)) ∧
      s.2 = carryAt (wordBit m a) (wordBit m b) i)
    (word_bits a.size).toNat ?_ (word_bits a.size).toNat 0 (m, 0) (by omega)
    ⟨rfl, fun _ _ _ => rfl, fun k hk => absurd hk (by omega), rfl⟩
  · obtain ⟨s1, hrun, h1, h2, h3, h4⟩ := key
    refine ⟨s1.1, ?_, h1, h2, h3⟩
    unfold alu_add
    have hrun1 : forLoop (alu_add_body a b out) (word_bits a.size).toNat 0 (m, 0) = (s1, none) :=
      hrun
    rw [hrun1]
    dsimp only
    rw [h4]
  · intro i s hi ⟨h1, h2, h3, h4⟩
    have hia : (i : Int) < word_bits a.size := by omega
    obtain ⟨hra, hxl⟩ := read_step m s.1 a out i ha hia (fun k hk => hca k i hk hia) h2
    obtain ⟨hrb, hyl⟩ := read_step m s.1 b out i hb (by omega)
      (fun k hk => hcb k i hk hia) h2
    have hcl : s.2 < 2 := by
      rw [h4]
      exact carryAt_lt _ _ i (fun k hk => hbits_a k (by omega)) (fun k hk => hbits_b k (by omega))
    obtain ⟨hsum, hcarry⟩ := full_adder_bits _ _ _ hxl hyl hcl
    obtain ⟨m2, hset, hw1, hw2, hw3⟩ := write_step m s.1 out
      (sumBit (wordBit m a) (wordBit m b)) i
      ((wordBit m a i ^^^ wordBit m b i ^^^ s.2) % 256) ho (by omega)
      (by rw [hsum, h4]; rfl) h1 h2 h3
    refine ⟨(m2, (wordBit m a i + wordBit m b i + s.2) / 2), ?_, hw1, hw2, hw3, ?_⟩
    · unfold alu_add_body
      rw [hra]
      dsimp only
      rw [hrb]
      dsimp only
      rw [hset, hcarry]
    · show _ = carryAt (wordBit m a) (wordBit m b) (i + 1)
      simp only [carryAt]
      rw [h4]

end wa
namespace wa

theorem value_split (s c t n : Nat) (h : s + c * 2 ^ n = t) (hs : s < 2 ^ n) :
    t % 2 ^ n = s ∧ t / 2 ^ n = c := by
  subst h
  have hp : 0 < 2 ^ n := Nat.pow_pos (by decide)
  constructor
  · rw [Nat.add_mul_mod_self_right, Nat.mod_eq_of_lt hs]
  · rw [Nat.add_mul_div_right _ _ hp, Nat.div_eq_of_lt hs, Nat.zero_add]

theorem add_result (a b out : WordRef) (m m1 : Machine) (hsb : b.size = a.size)
    (hso : out.size = a.size)
    (hout : ∀ k : Nat, k < (word_bits a.size).toNat →
      get_word_bit m1 out (k : Int) = .ok (sumBit (wordBit m a) (wordBit m b) k)) :
    wordValue m1 out = (wordValue m a + wordValue m b) % 2 ^ (word_bits a.size).toNat ∧
    carryAt (wordBit m a) (wordBit m b) (word_bits a.size).toNat =
      (wordValue m a + wordValue m b) / 2 ^ (word_bits a.size).toNat := by
  have h1 : wordValue m1 out =
      bitsValue (sumBit (wordBit m a) (wordBit m b)) (word_bits a.size).toNat := by
    unfold wordValue
    rw [hso]
    apply bitsValue_congr
    intro k hk
    show (match get_word_bit m1 out (k : Int) with
      | .ok b => b
      | .error _ => 0) = _
    rw [hout k hk]
  have h2 := adder_value (wordBit m a) (wordBit m b) (word_bits a.size).toNat
  have h3 : bitsValue (sumBit (wordBit m a) (wordBit m b)) (word_bits a.size).toNat <
      2 ^ (word_bits a.size).toNat :=
    bitsValue_lt _ _ (fun i _ => Nat.mod_lt _ (by decide))
  have h4 : wordValue m a + wordValue m b =
      bitsValue (wordBit m a) (word_bits a.size).toNat +
        bitsValue (wordBit m b) (word_bits a.size).toNat := by
    unfold wordValue
    rw [hsb]
  obtain ⟨e1, e2⟩ := value_split _ _ _ _ h2 h3
  rw [h1, h4, e1, e2]
  exact ⟨rfl, rfl⟩

end wa
namespace wa

/-! ## Bit writes never touch the rotation state -/

theorem Ring.setBit_keeps_rotation (r : Ring) (i : Int) (v : Nat) :
    (r.setBit i v).1.gears.length = r.gears.length ∧ (r.setBit i v).1.offset = r.offset ∧
      (r.setBit i v).1.dir = r.dir := by
  unfold Ring.setBit
  split
  · exact ⟨rfl, rfl, rfl⟩
  · split
    · exact ⟨by simp, rfl, rfl⟩
    · exact ⟨rfl, rfl, rfl⟩

theorem Machine.ring_some (m : Machine) (r : Int) (rg : Ring) (h : m.ring r = .ok rg) :
    m.rings[r.toNat]? = some rg := by
  unfold Machine.ring at h
  split at h
  · cases h
  · split at h
    · next rg1 h1 =>
      injection h with h2
      rw [h1, h2]
    · cases h

theorem Machine.set_shape (m : Machine) (k : Nat) (rg rg1 : Ring) (h : m.rings[k]? = some rg)
    (h1 : rg1.gears.length = rg.gears.length) (h2 : rg1.offset = rg.offset)
    (h3 : rg1.dir = rg.dir) :
    ({ rings := m.rings.set k rg1 } : Machine).shape = m.shape := by
  unfold Machine.shape
  dsimp only
  rw [List.map_set]
  apply List.ext_getElem?
  intro j
  rw [List.getElem?_set]
  split
  · next hk =>
    subst hk
    have hlt : k < m.rings.length := by
      by_contra hc
      rw [List.getElem?_eq_none (by omega)] at h
      cases h
    simp only [List.length_map, hlt, if_true, List.getElem?_map, h, Option.map_some', h1, h2, h3]
  · rfl

theorem Machine.setBit_shape (m : Machine) (r i : Int) (v : Nat) :
    (m.setBit r i v).1.shape = m.shape := by
  unfold Machine.setBit
  split
  · rfl
  · next rg hrg =>
    obtain ⟨h1, h2, h3⟩ := Ring.setBit_keeps_rotation rg i v
    exact Machine.set_shape m _ rg _ (Machine.ring_some m r rg hrg) h1 h2 h3

theorem set_word_bit_shape (m : Machine) (w : WordRef) (i : Int) (v : Nat) :
    (set_word_bit m w i v).1.shape = m.shape := by
  unfold set_word_bit
  dsimp only
  split
  · rfl
  · split
    · exact Machine.setBit_shape _ _ _ _
    · split
      · exact Machine.setBit_shape _ _ _ _
      · split <;> exact Machine.setBit_shape _ _ _ _

theorem forLoop_preserves {σ : Type} (Q : σ → Prop) (body : Int → σ → σ × Option Exn)
    (h : ∀ (i : Int) (s : σ), Q s → Q (body i s).1) :
    ∀ (k : Nat) (i : Int) (s : σ), Q s → Q (forLoop body k i s).1 := by
  intro k
  induction k with
  | zero => intro i s hs; exact hs
  | succ k ih =>
    intro i s hs
    unfold forLoop
    have hb := h i s hs
    rcases hbody : body i s with ⟨s1, _ | e⟩
    · rw [hbody] at hb
      exact ih (i + 1) s1 hb
    · rw [hbody] at hb
      exact hb

theorem alu_xor_shape (m : Machine) (a b out : WordRef) :
    (alu_xor m a b out).1.shape = m.shape := by
  unfold alu_xor
  refine forLoop_preserves (fun s : Machine => s.shape = m.shape) _ ?_ _ _ _ rfl
  intro i s hs
  unfold alu_xor_body
  split
  · exact hs
  · split
    · exact hs
    · rw [set_word_bit_shape]; exact hs

theorem alu_and_shape (m : Machine) (a b out : WordRef) :
    (alu_and m a b out).1.shape = m.shape := by
  unfold alu_and
  refine forLoop_preserves (fun s : Machine => s.shape = m.shape) _ ?_ _ _ _ rfl
  intro i s hs
  unfold alu_and_body
  split
  · exact hs
  · split
    · exact hs
    · rw [set_word_bit_shape]; exact hs

theorem alu_or_shape (m : Machine) (a b out : WordRef) :
    (alu_or m a b out).1.shape = m.shape := by
  unfold alu_or
  refine forLoop_preserves (fun s : Machine => s.shape = m.shape) _ ?_ _ _ _ rfl
  intro i s hs
  unfold alu_or_body
  split
  · exact hs
  · split
    · exact hs
    · rw [set_word_bit_shape]; exact hs

theorem alu_add_shape (m : Machine) (a b out : WordRef) :
    (alu_add m a b out).1.shape = m.shape := by
  have h := forLoop_preserves (fun s : Machine × Nat => s.1.shape = m.shape)
    (alu_add_body a b out) ?_ (word_bits a.size).toNat 0 (m, 0) rfl
  · unfold alu_add
    split
    · next s e hs => rw [hs] at h; exact h
    · next s hs => rw [hs] at h; exact h
  · intro i s hs
    unfold alu_add_body
    split
    · exact hs
    · split
      · exact hs
      · dsimp only
        rw [set_word_bit_shape]; exact hs

theorem mov_shape (m : Machine) (dst src : WordRef) (n : Nat) :
    (forLoop (mov_body dst src) n 0 m).1.shape = m.shape := by
  refine forLoop_preserves (fun s : Machine => s.shape = m.shape) _ ?_ _ _ _ rfl
  intro i s hs
  unfold mov_body
  split
  · exact hs
  · rw [set_word_bit_shape]; exact hs

theorem CpuBase.exec_shape (c : CpuBase) (ins : Instr) (h1 : ins.op ≠ Op.SHIFT_RING)
    (h2 : ins.op ≠ Op.TICK_ALL) : (c.exec ins).1.m.shape = c.m.shape := by
  unfold CpuBase.exec
  cases hop : ins.op
  · rfl
  · dsimp only
    split
    · exact mov_shape _ _ _ _
    · rfl
    · rfl
  · dsimp only
    split
    · exact alu_xor_shape _ _ _ _
    · rfl
    · rfl
    · rfl
  · dsimp only
    split
    · exact alu_and_shape _ _ _ _
    · rfl
    · rfl
    · rfl
  · dsimp only
    split
    · exact alu_or_shape _ _ _ _
    · rfl
    · rfl
    · rfl
  · dsimp only
    split
    · next rb rc ra _ _ _ =>
      have h := alu_add_shape c.m rb rc ra
      split
      · next m1 e he => rw [he] at h; exact h
      · next m1 v he => rw [he] at h; exact h
    · rfl
    · rfl
    · rfl
  · exact absurd hop h1
  · exact absurd hop h2
  · rfl

end wa
namespace wa

/-! ## One step of the CPU -/

theorem Ring.tick_dir (r : Ring) (k : Int) : (r.tick k).dir = r.dir := by
  unfold Ring.tick Ring.shift
  dsimp only
  split <;> rfl

theorem Machine.shape_getElem {m1 m2 : Machine} (h : m1.shape = m2.shape) (k : Nat) (rg : Ring)
    (hk : m2.rings[k]? = some rg) :
    ∃ rg1 : Ring, m1.rings[k]? = some rg1 ∧ rg1.gears.length = rg.gears.length ∧
      rg1.offset = rg.offset ∧ rg1.dir = rg.dir := by
  have h1 : m1.shape[k]? = m2.shape[k]? := by rw [h]
  unfold Machine.shape at h1
  simp only [List.getElem?_map, hk, Option.map_some'] at h1
  cases ha : m1.rings[k]? with
  | none => rw [ha] at h1; cases h1
  | some rg1 =>
    rw [ha] at h1
    simp only [Option.map_some', Option.some.injEq, Prod.mk.injEq] at h1
    exact ⟨rg1, rfl, h1.1, h1.2.1, h1.2.2⟩

theorem zodiacHook_not_fired (c : CpuBase) (h : c.hookFires = false) :
    (zodiacHook c).1 = c.m := by
  unfold zodiacHook
  unfold CpuBase.hookFires at h
  split
  · next hc =>
    split
    · rfl
    · next r0 hr0 =>
      rw [hr0] at h
      dsimp only at h
      split
      · rfl
      · next g hg =>
        rw [hg] at h
        dsimp only at h
        have hg12 : g ≠ 12 := by
          intro he
          simp [hc.1, hc.2, he] at h
        rw [if_neg hg12]
  · rfl

theorem CpuBase.step_dispatch (c c1 : CpuBase) (ins : Instr) (hh : c.halted = false)
    (hins : c.prog[c.ip]? = some ins) (hs : c.step = (c1, none)) :
    ∃ c2 : CpuBase, zodiacHook c = ((zodiacHook c).1, none) ∧
      CpuBase.exec { c with m := (zodiacHook c).1 } ins = (c2, none) ∧
      c1 = { c2 with ip := c2.ip + 1, m := c2.m.tickAll 1 } := by
  have hip : ¬ c.ip ≥ c.prog.length := by
    intro hge
    rw [List.getElem?_eq_none hge] at hins
    cases hins
  unfold CpuBase.step at hs
  rw [if_neg (by rw [hh]; decide), if_neg hip] at hs
  rcases hz : zodiacHook c with ⟨m1, _ | e⟩
  · rw [hz] at hs
    dsimp only at hs
    rw [hins] at hs
    dsimp only at hs
    rcases he : CpuBase.exec { c with m := m1 } ins with ⟨c2, _ | e⟩
    · rw [he] at hs
      dsimp only at hs
      injection hs with hs1 _
      exact ⟨c2, rfl, rfl, hs1.symm⟩
    · rw [he] at hs
      dsimp only at hs
      injection hs with _ hs2
      cases hs2
  · rw [hz] at hs
    dsimp only at hs
    injection hs with _ hs2
    cases hs2

/-- C3. Per-instruction tick. In a state that is not halted, whose current instruction is
neither `SHIFT_RING` nor `TICK_ALL`, and in which the glyph hook does not fire, a `step()` that
returns normally keeps the number of rings, and for every ring keeps the gear count and the
direction and moves the offset by exactly 1 modulo the gear count in the ring's recorded
direction (down for `Right`, up for `Left`). -/
theorem CpuBase.step_ticks_once (c c1 : CpuBase) (ins : Instr) (hh : c.halted = false)
    (hins : c.prog[c.ip]? = some ins) (h1 : ins.op ≠ Op.SHIFT_RING) (h2 : ins.op ≠ Op.TICK_ALL)
    (hk : c.hookFires = false) (hs : c.step = (c1, none)) :
    c1.m.rings.length = c.m.rings.length ∧
    ∀ (k : Nat) (rg : Ring), c.m.rings[k]? = some rg →
      ∃ rg1 : Ring, c1.m.rings[k]? = some rg1 ∧ rg1.dir = rg.dir ∧
        rg1.gearCount = rg.gearCount ∧
        (0 < rg.gearCount → rg1.offset =
          (if rg.dir = Dir.Right then rg.offset - 1 else rg.offset + 1) % rg.gearCount) := by
  obtain ⟨c2, -, hexec, hc1⟩ := CpuBase.step_dispatch c c1 ins hh hins hs
  rw [zodiacHook_not_fired c hk] at hexec
  have hshape : c2.m.shape = c.m.shape := by
    have := CpuBase.exec_shape { c with m := c.m } ins h1 h2
    rw [hexec] at this
    exact this
  have hrings : c1.m.rings = c2.m.rings.map (fun rg => rg.tick 1) := by rw [hc1]; rfl
  constructor
  · have := Machine.ringCount_of_shape hshape
    unfold Machine.ringCount at this
    rw [hrings, List.length_map]
    omega
  · intro k rg hrg
    obtain ⟨rg2, hrg2, hl, ho, hd⟩ := Machine.shape_getElem hshape k rg hrg
    have hgc : rg2.gearCount = rg.gearCount := by unfold Ring.gearCount; rw [hl]
    refine ⟨rg2.tick 1, ?_, ?_, ?_, ?_⟩
    · rw [hrings, List.getElem?_map, hrg2]
      rfl
    · rw [Ring.tick_dir, hd]
    · unfold Ring.tick
      rw [Ring.shift_gearCount, hgc]
    · intro hn
      unfold Ring.tick
      rw [Ring.shift_offset _ _ _ (by rw [hgc]; exact hn), hgc, ho, hd]

theorem CpuBase.step_ticks_once_witness :
    cpuAdd.step = (cpuAdd.step.1, none) ∧
      cpuAdd.step.1.m.rings.length = cpuAdd.m.rings.length :=
  ⟨Prod.ext rfl (by decide),
    (CpuBase.step_ticks_once cpuAdd cpuAdd.step.1 insAdd012
      (by decide) (by decide) (by decide) (by decide) (by decide)
      (Prod.ext rfl (by decide))).1⟩

end wa
namespace wa

/-! ## Registers -/

theorem makeReg_size (ws : WordSize) (i : Int) : (makeReg ws i).size = ws := by
  unfold makeReg
  cases ws <;> simp [WordRef.w64, WordRef.w360, WordRef.w720]

theorem makeReg_disjoint (ws : WordSize) (i j : Int) (h : i ≠ j) :
    (makeReg ws i).disjoint (makeReg ws j) := by
  unfold WordRef.disjoint WordRef.segments makeReg
  cases ws <;> simp [WordRef.w64, WordRef.w360, WordRef.w720] <;> omega

theorem CpuBase.new_eq (m : Machine) (cfg : CpuConfig) (c0 : CpuBase)
    (h : CpuBase.new m cfg = .ok c0) :
    c0.m = m ∧ c0.cfg = cfg ∧
      c0.R = (List.range cfg.regs.toNat).map (fun (i : Nat) => makeReg cfg.wordSize (i : Int)) := by
  unfold CpuBase.new at h
  split at h
  · cases h
  · injection h with h1
    rw [← h1]
    exact ⟨rfl, rfl, rfl⟩

theorem CpuBase.new_reg (m : Machine) (cfg : CpuConfig) (c0 : CpuBase)
    (h : CpuBase.new m cfg = .ok c0) (p : List Instr) (i : Int) (h0 : 0 ≤ i)
    (h1 : i < cfg.regs) : (c0.loadProgram p).reg i = .ok (makeReg cfg.wordSize i) := by
  obtain ⟨-, -, hR⟩ := CpuBase.new_eq m cfg c0 h
  unfold CpuBase.reg CpuBase.loadProgram
  dsimp only
  rw [if_neg (by omega), hR, List.getElem?_map, List.getElem?_range (by omega)]
  simp only [Option.map_some']
  rw [Int.toNat_of_nonneg h0]

theorem same_or_disjoint_no_clobber (m : Machine) (out a : WordRef) (ho : out.valid m)
    (hso : out.size = a.size) (h : out = a ∨ out.disjoint a) (k i : Nat) (hki : k < i)
    (hi : (i : Int) < word_bits a.size) : out.cell (k : Int) ≠ a.cell (i : Int) := by
  rcases h with h | h
  · subst h
    intro he
    have := WordRef.cell_inj m out ho k i he
    omega
  · exact disjoint_no_clobber out a h hso k i hki hi

/-! ## Reading a bit back from a value -/

theorem bitsValue_bit (f : Nat → Nat) (n : Nat) (hf : ∀ i, i < n → f i < 2) (i : Nat)
    (hi : i < n) : bitsValue f n / 2 ^ i % 2 = f i := by
  induction n with
  | zero => omega
  | succ n ih =>
    simp only [bitsValue]
    have hlt := bitsValue_lt f n (fun k hk => hf k (by omega))
    rcases Nat.lt_or_ge i n with h | h
    · have e : 2 ^ n = 2 ^ i * (2 * 2 ^ (n - i - 1)) := by
        rw [← pow_succ', ← pow_add]
        congr 1
        omega
      have hp : 0 < 2 ^ i := Nat.pow_pos (by decide)
      rw [e, ← Nat.mul_assoc, Nat.mul_comm (f n), Nat.mul_assoc, Nat.add_mul_div_left _ _ hp,
        Nat.mul_comm (f n), Nat.mul_assoc, Nat.add_mul_mod_self_left]
      exact ih (fun k hk => hf k (by omega)) h
    · have hin : i = n := by omega
      subst hin
      have hp : 0 < 2 ^ i := Nat.pow_pos (by decide)
      rw [Nat.add_mul_div_right _ _ hp, Nat.div_eq_of_lt hlt, Nat.zero_add]
      exact Nat.mod_eq_of_lt (hf i (by omega))

theorem sumBit_eq_value_bit (a b : WordRef) (m : Machine) (hsb : b.size = a.size) (k : Nat)
    (hk : k < (word_bits a.size).toNat) :
    sumBit (wordBit m a) (wordBit m b) k =
      (wordValue m a + wordValue m b) % 2 ^ (word_bits a.size).toNat / 2 ^ k % 2 := by
  have h2 := adder_value (wordBit m a) (wordBit m b) (word_bits a.size).toNat
  have h3 : bitsValue (sumBit (wordBit m a) (wordBit m b)) (word_bits a.size).toNat <
      2 ^ (word_bits a.size).toNat :=
    bitsValue_lt _ _ (fun i _ => Nat.mod_lt _ (by decide))
  have h4 : wordValue m a + wordValue m b =
      bitsValue (wordBit m a) (word_bits a.size).toNat +
        bitsValue (wordBit m b) (word_bits a.size).toNat := by
    unfold wordValue
    rw [hsb]
  obtain ⟨e1, -⟩ := value_split _ _ _ _ h2 h3
  rw [h4, e1, bitsValue_bit (sumBit (wordBit m a) (wordBit m b)) _
    (fun i _ => Nat.mod_lt _ (by decide)) k hk]

/-! ## The end-of-step tick seen through a cell -/

theorem Machine.tickAll_getBit_right (m : Machine) (q j : Int) (rg : Ring) (hq0 : 0 ≤ q)
    (hrg : m.rings[q.toNat]? = some rg) (hd : rg.dir = Dir.Right) (hj0 : 0 ≤ j)
    (hj1 : j < rg.gearCount) :
    (m.tickAll 1).getBit q ((j + 1) % rg.gearCount) = m.getBit q j := by
  have hn : 0 < rg.gearCount := by omega
  have hlt : q.toNat < m.rings.length := by
    by_contra hc
    rw [List.getElem?_eq_none (by omega)] at hrg
    cases hrg
  have hq1 : q < m.ringCount := by unfold Machine.ringCount; omega
  obtain ⟨rg0, hrg0, hring⟩ := Machine.ring_ok m q hq0 hq1
  have hq1t : q < (m.tickAll 1).ringCount := by
    unfold Machine.ringCount Machine.tickAll
    simp only [List.length_map]
    omega
  obtain ⟨rg1, hrg1, hring1⟩ := Machine.ring_ok (m.tickAll 1) q hq0 hq1t
  have e0 : rg0 = rg := by rw [hrg] at hrg0; injection hrg0 with h; exact h.symm
  have e1 : rg1 = rg.tick 1 := by
    unfold Machine.tickAll at hrg1
    dsimp only at hrg1
    rw [List.getElem?_map, hrg] at hrg1
    injection hrg1 with h
    exact h.symm
  unfold Machine.getBit
  rw [hring, hring1, e0, e1]
  dsimp only
  unfold Ring.tick
  rw [hd, Ring.getBit_shift_right rg 1 _ (Int.emod_nonneg _ (by omega)) (Int.emod_lt_of_pos _ hn)]
  congr 1
  have e : ((j + 1) % rg.gearCount - 1) % rg.gearCount = (j + 1 - 1) % rg.gearCount := by
    rw [Int.sub_emod, Int.emod_emod, ← Int.sub_emod]
  rw [e, Int.add_sub_cancel, Int.emod_eq_of_lt hj0 hj1]

end wa
namespace wa

theorem zodiacHook_none (c : CpuBase) (h : c.hookFires = false) (hg : c.m.gearsPerRing ≠ 0) :
    zodiacHook c = (c.m, none) := by
  unfold zodiacHook
  split
  · next hc =>
    obtain ⟨r0, -, hr0⟩ := Machine.ring_ok c.m 0 (by omega) hc.2
    rw [hr0]
    dsimp only
    have hg1 : ∃ v, activeGlyphFromOffset r0.offset c.m.gearsPerRing = .ok v := by
      unfold activeGlyphFromOffset
      rw [if_neg hg]
      exact ⟨_, rfl⟩
    obtain ⟨v, hv⟩ := hg1
    rw [hv]
    dsimp only
    have h12 : v ≠ 12 := by
      intro h12
      unfold CpuBase.hookFires at h
      rw [hr0] at h
      dsimp only at h
      rw [hv] at h
      simp [hc.1, hc.2, h12] at h
    rw [if_neg h12]
  · rfl

theorem CpuBase.exec_add (c : CpuBase) (ins : Instr) (hop : ins.op = Op.ADD)
    (ra rb rc : WordRef) (hra : c.reg ins.a = .ok ra) (hrb : c.reg ins.b = .ok rb)
    (hrc : c.reg ins.c = .ok rc) (m1 : Machine) (carry : Nat)
    (hadd : alu_add c.m rb rc ra = (m1, .ok carry)) :
    c.exec ins = ({ c with m := m1 }, none) := by
  unfold CpuBase.exec
  rw [hop]
  dsimp only
  rw [hra, hrb, hrc]
  dsimp only
  rw [hadd]

theorem CpuBase.step_of_exec (c c2 : CpuBase) (ins : Instr) (hh : c.halted = false)
    (hins : c.prog[c.ip]? = some ins) (hz : zodiacHook c = (c.m, none))
    (he : c.exec ins = (c2, none)) :
    c.step = ({ c2 with ip := c2.ip + 1, m := c2.m.tickAll 1 }, none) := by
  have hip : ¬ c.ip ≥ c.prog.length := by
    intro hge
    rw [List.getElem?_eq_none hge] at hins
    cases hins
  have hc : ({ c with m := c.m } : CpuBase) = c := rfl
  unfold CpuBase.step
  rw [if_neg (by rw [hh]; decide), if_neg hip, hz]
  dsimp only
  rw [hins]
  dsimp only
  rw [hc, he]

end wa
namespace wa

/-- C4, the code at a failing input. `CPU64` on `Machine(10, 360)` dispatching `SHIFT_RING`
with `a = 2`, `imm = 5`, `dir = Left`: the call returns normally, ring 5 (the index in `imm`)
is rotated `Left` by 2 steps (the count in `a`) to offset 2, and ring 2 stays at offset 0 with
direction `Right`; the claim asks for ring 2 to be rotated by 5 steps. -/
theorem CpuBase.exec_shift_ring_uses_imm_as_ring :
    (cpu64.exec insShift).2 = none ∧
    (cpu64.exec insShift).1.m.rings.map (fun rg => (rg.offset, rg.dir)) =
      [(0, Dir.Right), (0, Dir.Right), (0, Dir.Right), (0, Dir.Right), (0, Dir.Right),
       (2, Dir.Left), (0, Dir.Right), (0, Dir.Right), (0, Dir.Right), (0, Dir.Right)] ∧
    (machine10.shiftRing insShift.a insShift.dir insShift.imm).1.rings.map
        (fun rg => (rg.offset, rg.dir)) =
      [(0, Dir.Right), (0, Dir.Right), (5, Dir.Left), (0, Dir.Right), (0, Dir.Right),
       (0, Dir.Right), (0, Dir.Right), (0, Dir.Right), (0, Dir.Right), (0, Dir.Right)] := by
  decide

end wa
namespace wa

/-! ## The glyph classifier -/

theorem glyphAtIndex_eq (i g : Int) (hg : 0 < g) (hb : g ≤ 165191050) (h0 : 0 ≤ i)
    (h1 : i < g) :
    glyphAtIndex i g = (i * 13) / g ∧ 0 ≤ (i * 13) / g ∧ (i * 13) / g ≤ 12 := by
  have hq0 : 0 ≤ (i * 13) / g := Int.ediv_nonneg (by omega) (by omega)
  have hq1 : (i * 13) / g < 13 := Int.ediv_lt_of_lt_mul hg (by nlinarith)
  refine ⟨?_, hq0, by omega⟩
  unfold glyphAtIndex ZODIAC_COUNT
  have a1 : ¬ i < 0 := by omega
  have a2 : ¬ i ≥ g := by omega
  rw [if_neg (by omega)]
  simp only [if_neg a1, if_neg a2]
  rw [wrapInt_eq _ (by omega) (by omega), Int.tdiv_eq_ediv (by omega) (by omega),
    if_neg (by omega), if_neg (by omega)]

theorem activeGlyphFromOffset_eq (offset g : Int) (hg : 0 < g) :
    activeGlyphFromOffset offset g = .ok (glyphAtIndex (offset % g) g) := by
  unfold activeGlyphFromOffset
  rw [if_neg (by omega)]
  dsimp only
  rw [norm_eq_emod offset g hg]

/-- C11, as the code has it. For every gear count from 1 to 165,191,050 (the largest for
which the `int` product `gearIndex * 13` cannot overflow) and every integer offset, negative
or beyond the gear count included, `activeGlyphFromOffset(offset, gearCount)` returns
`floor(((offset mod gearCount) * 13) / gearCount)` with the non-negative remainder, a value in
`[0, 12]`; for `gearCount = 360` it gives glyph 0 at offset 0 and glyph 12 at offset 359. -/
theorem activeGlyphFromOffset_formula (offset gearCount : Int) (hg : 0 < gearCount)
    (hb : gearCount ≤ 165191050) :
    activeGlyphFromOffset offset gearCount = .ok (((offset % gearCount) * 13) / gearCount) ∧
    0 ≤ offset % gearCount ∧ offset % gearCount < gearCount ∧
    0 ≤ ((offset % gearCount) * 13) / gearCount ∧
    ((offset % gearCount) * 13) / gearCount ≤ 12 ∧
    activeGlyphFromOffset 0 360 = .ok 0 ∧ activeGlyphFromOffset 359 360 = .ok 12 := by
  have h0 : 0 ≤ offset % gearCount := Int.emod_nonneg _ (by omega)
  have h1 : offset % gearCount < gearCount := Int.emod_lt_of_pos _ hg
  obtain ⟨e, b0, b1⟩ := glyphAtIndex_eq (offset % gearCount) gearCount hg hb h0 h1
  refine ⟨?_, h0, h1, b0, b1, rfl, rfl⟩
  rw [activeGlyphFromOffset_eq offset gearCount hg, e]

/-- Witness for C11 at the largest gear count covered, with a negative offset. -/
theorem activeGlyphFromOffset_formula_witness :
    (0 : Int) < 165191050 ∧ (165191050 : Int) ≤ 165191050 ∧
    activeGlyphFromOffset (-1) 165191050 = .ok ((((-1) % 165191050) * 13) / 165191050) ∧
    activeGlyphFromOffset (-1) 165191050 = .ok 12 :=
  ⟨by decide, by decide,
    (activeGlyphFromOffset_formula (-1) 165191050 (by decide) (by decide)).1, rfl⟩

/-- C11, counterexample to the claim as stated for every gear count: with 2,000,000,000
gears and offset 170,000,000 the product `170000000 * 13 = 2210000000` is above `INT_MAX`,
the `int` holds `-2084967296`, the quotient is negative and is clamped to glyph 0, while
`floor(offset * 13 / gearCount)` is 1. -/
theorem activeGlyphFromOffset_overflow :
    activeGlyphFromOffset 170000000 2000000000 = .ok 0 ∧
    ((170000000 % 2000000000) * 13) / 2000000000 = (1 : Int) ∧
    (2147483647 : Int) < 170000000 * 13 ∧ wrapInt (170000000 * 13) = -2084967296 :=
  ⟨rfl, by decide, by decide, by decide⟩

/-- C12, as the code has it. For every gear count from 1 to 165,191,050 and all offsets
`0 <= x <= y <= gearCount - 1`, the glyph index of `x` is at most the glyph index of `y`, for
`glyphAtIndex` and for `activeGlyphFromOffset`, which returns the same index on these
offsets. -/
theorem glyph_monotone (x y gearCount : Int) (hg : 0 < gearCount)
    (hb : gearCount ≤ 165191050) (hx : 0 ≤ x) (hxy : x ≤ y) (hy : y ≤ gearCount - 1) :
    glyphAtIndex x gearCount ≤ glyphAtIndex y gearCount ∧
    activeGlyphFromOffset x gearCount = .ok (glyphAtIndex x gearCount) ∧
    activeGlyphFromOffset y gearCount = .ok (glyphAtIndex y gearCount) := by
  obtain ⟨ex, -, -⟩ := glyphAtIndex_eq x gearCount hg hb hx (by omega)
  obtain ⟨ey, -, -⟩ := glyphAtIndex_eq y gearCount hg hb (by omega) (by omega)
  refine ⟨?_, ?_, ?_⟩
  · rw [ex, ey]
    exact Int.ediv_le_ediv hg (by omega)
  · rw [activeGlyphFromOffset_eq x gearCount hg, Int.emod_eq_of_lt hx (by omega)]
  · rw [activeGlyphFromOffset_eq y gearCount hg, Int.emod_eq_of_lt (by omega) (by omega)]

/-- Witness for C12 at the largest gear count covered, across the last glyph boundary. -/
theorem glyph_monotone_witness :
    (0 : Int) < 165191050 ∧ (165191050 : Int) ≤ 165191050 ∧
    glyphAtIndex 152484045 165191050 ≤ glyphAtIndex 165191049 165191050 :=
  ⟨by decide, by decide,
    (glyph_monotone 152484045 165191049 165191050 (by decide) (by decide) (by decide)
      (by decide) (by decide)).1⟩

/-- C12, counterexample to the claim as stated for every gear count: with 2,000,000,000
gears the offsets `160000000 <= 170000000` have glyph indices 1 and 0, because the product
`170000000 * 13` overflows `int`. -/
theorem glyph_not_monotone_overflow :
    (0 : Int) ≤ 160000000 ∧ (160000000 : Int) ≤ 170000000 ∧
    (170000000 : Int) ≤ 2000000000 - 1 ∧
    glyphAtIndex 160000000 2000000000 = 1 ∧ glyphAtIndex 170000000 2000000000 = 0 ∧
    activeGlyphFromOffset 160000000 2000000000 = .ok 1 ∧
    activeGlyphFromOffset 170000000 2000000000 = .ok 0 :=
  ⟨by decide, by decide, by decide, by decide, by decide, rfl, rfl⟩

end wa
namespace wa

/-! ## Step: end of program, halted state, program load -/

/-- C13. In a state that is not halted and whose instruction pointer is at (or past) the end
of the program, the empty program included, `step()` returns normally, sets `halted`, and
changes nothing else: the instruction pointer, the program and the whole machine (every
ring's cells, offset and direction) are as before, whatever the glyph hook would see. -/
theorem CpuBase.step_at_program_end (c : CpuBase) (hh : c.halted = false)
    (hip : c.prog.length ≤ c.ip) :
    c.step = ({ c with halted := true }, none) ∧
    c.step.1.halted = true ∧ c.step.1.ip = c.ip ∧ c.step.1.m = c.m ∧
    c.step.1.prog = c.prog := by
  have h : c.step = ({ c with halted := true }, none) := by
    unfold CpuBase.step
    rw [if_neg (by rw [hh]; decide), if_pos hip]
  rw [h]
  exact ⟨rfl, rfl, rfl, rfl, rfl⟩

theorem CpuBase.step_at_program_end_witness :
    cpuAddStepped.halted = false ∧ cpuAddStepped.prog.length ≤ cpuAddStepped.ip ∧
    cpuAddStepped.hookFires = true ∧ cpuAddStepped.step.1.m = cpuAddStepped.m :=
  ⟨by decide, by decide, by decide,
    (CpuBase.step_at_program_end cpuAddStepped (by decide) (by decide)).2.2.2.1⟩

/-- C15. In a state with `halted = true`, `step()` returns normally and changes nothing:
instruction pointer, halted flag, program and machine are identical before and after. -/
theorem CpuBase.step_when_halted (c : CpuBase) (hh : c.halted = true) : c.step = (c, none) := by
  unfold CpuBase.step
  rw [if_pos hh]

theorem CpuBase.step_when_halted_witness :
    cpuHalted.halted = true ∧ cpuHalted.step = (cpuHalted, none) :=
  ⟨rfl, CpuBase.step_when_halted cpuHalted rfl⟩

/-- C16. For every CPU state and every instruction list `p`, `loadProgram(p)` leaves the
instruction pointer at 0, `halted` false and the program equal to `p`, and changes neither
the machine nor the configuration nor the register bank. -/
theorem CpuBase.loadProgram_resets (c : CpuBase) (p : List Instr) :
    (c.loadProgram p).ip = 0 ∧ (c.loadProgram p).halted = false ∧
    (c.loadProgram p).prog = p ∧ (c.loadProgram p).m = c.m ∧
    (c.loadProgram p).cfg = c.cfg ∧ (c.loadProgram p).R = c.R :=
  ⟨rfl, rfl, rfl, rfl, rfl, rfl⟩

/-! ## Step: the glyph hook -/

theorem CpuBase.hookFires_iff (c : CpuBase) :
    c.hookFires = true ↔ c.cfg.useZodiac = true ∧
      ∃ r0 : Ring, c.m.ring 0 = .ok r0 ∧
        activeGlyphFromOffset r0.offset c.m.gearsPerRing = .ok 12 := by
  unfold CpuBase.hookFires
  constructor
  · intro h
    simp only [Bool.and_eq_true, decide_eq_true_eq] at h
    obtain ⟨⟨hz, -⟩, h3⟩ := h
    refine ⟨hz, ?_⟩
    cases hr : c.m.ring 0 with
    | error e => rw [hr] at h3; cases h3
    | ok r0 =>
      rw [hr] at h3
      dsimp only at h3
      cases hg : activeGlyphFromOffset r0.offset c.m.gearsPerRing with
      | error e => rw [hg] at h3; cases h3
      | ok g =>
        rw [hg] at h3
        simp only [decide_eq_true_eq] at h3
        exact ⟨r0, rfl, by rw [hg, h3]⟩
  · rintro ⟨hz, r0, hr, hg⟩
    have hcnt : c.m.ringCount > 0 := by
      by_contra hc
      rw [Machine.ring_err c.m 0 (by omega)] at hr
      cases hr
    rw [hr]
    dsimp only
    rw [hg]
    simp [hz, hcnt]

theorem zodiacHook_fired (c : CpuBase) (h : c.hookFires = true) :
    zodiacHook c = (c.m.tickAll 1, none) := by
  obtain ⟨hz, r0, hr, hg⟩ := (CpuBase.hookFires_iff c).mp h
  have hcnt : c.m.ringCount > 0 := by
    by_contra hc
    rw [Machine.ring_err c.m 0 (by omega)] at hr
    cases hr
  unfold zodiacHook
  rw [if_pos ⟨hz, hcnt⟩, hr]
  dsimp only
  rw [hg]
  rfl

theorem zodiacHook_disabled (c : CpuBase) (h : c.cfg.useZodiac = false) :
    zodiacHook c = (c.m, none) := by
  unfold zodiacHook
  rw [if_neg (by rw [h]; simp)]

theorem CpuBase.step_eq_dispatch (c : CpuBase) (ins : Instr) (m1 : Machine)
    (hh : c.halted = false) (hins : c.prog[c.ip]? = some ins)
    (hz : zodiacHook c = (m1, none)) : c.step = c.dispatchAndTick m1 ins := by
  have hip : ¬ c.ip ≥ c.prog.length := by
    intro hge
    rw [List.getElem?_eq_none hge] at hins
    cases hins
  unfold CpuBase.step CpuBase.dispatchAndTick
  rw [if_neg (by rw [hh]; decide), if_neg hip, hz]
  dsimp only
  rw [hins]

/-- C17. Glyph hook. In a non-halted state with an instruction to dispatch, the hook fires
exactly when it is enabled and the active glyph of ring 0, computed from its offset at entry,
is index 12; when it fires, `step()` is one `tickAll(1)` followed by dispatch, `ip_++` and the
end-of-step tick; when it does not fire (ring 0 having at least one gear), `step()` is
dispatch, `ip_++` and the end-of-step tick on the machine as it was; with the hook disabled no
extra tick occurs in any state. -/
theorem CpuBase.step_glyph_hook (c : CpuBase) (ins : Instr) (hh : c.halted = false)
    (hins : c.prog[c.ip]? = some ins) :
    (c.hookFires = true ↔ c.cfg.useZodiac = true ∧
      ∃ r0 : Ring, c.m.ring 0 = .ok r0 ∧
        activeGlyphFromOffset r0.offset c.m.gearsPerRing = .ok 12) ∧
    (c.hookFires = true → c.step = c.dispatchAndTick (c.m.tickAll 1) ins) ∧
    (c.hookFires = false → c.m.gearsPerRing ≠ 0 → c.step = c.dispatchAndTick c.m ins) ∧
    (c.cfg.useZodiac = false → c.step = c.dispatchAndTick c.m ins) :=
  ⟨CpuBase.hookFires_iff c,
    fun h => CpuBase.step_eq_dispatch c ins _ hh hins (zodiacHook_fired c h),
    fun h hg => CpuBase.step_eq_dispatch c ins _ hh hins (zodiacHook_none c h hg),
    fun h => CpuBase.step_eq_dispatch c ins _ hh hins (zodiacHook_disabled c h)⟩

theorem CpuBase.step_glyph_hook_witness :
    cpuHalt.halted = false ∧ cpuHalt.prog[cpuHalt.ip]? = some insHalt ∧
    cpuHalt.hookFires = false ∧ cpuHalt.m.gearsPerRing ≠ 0 ∧
    cpuHalt.step = cpuHalt.dispatchAndTick cpuHalt.m insHalt :=
  ⟨rfl, rfl, by decide, by decide,
    (CpuBase.step_glyph_hook cpuHalt insHalt rfl rfl).2.2.1 (by decide) (by decide)⟩

end wa
namespace wa

/-! ## Step: HALT and TICK_ALL -/

theorem Ring.tick_gears (r : Ring) (k : Int) : (r.tick k).gears = r.gears := by
  unfold Ring.tick
  exact Ring.shift_gears r r.dir k

theorem Ring.tick_offset (r : Ring) (k : Int) (hn : 0 < r.gearCount) :
    (r.tick k).offset =
      (if r.dir = Dir.Right then r.offset - k else r.offset + k) % r.gearCount := by
  unfold Ring.tick
  exact Ring.shift_offset r r.dir k hn

theorem Ring.tick_tick_offset (r : Ring) (k : Int) (hn : 0 < r.gearCount) :
    ((r.tick k).tick 1).offset =
      (if r.dir = Dir.Right then r.offset - (k + 1) else r.offset + (k + 1)) % r.gearCount := by
  have hgc : (r.tick k).gearCount = r.gearCount := by
    unfold Ring.gearCount
    rw [Ring.tick_gears]
  rw [Ring.tick_offset (r.tick k) 1 (by rw [hgc]; exact hn), Ring.tick_dir, hgc,
    Ring.tick_offset r k hn]
  by_cases hd : r.dir = Dir.Right
  · simp only [if_pos hd]
    rw [Int.sub_emod, Int.emod_emod, ← Int.sub_emod]
    congr 1
    ring
  · simp only [if_neg hd]
    rw [Int.add_emod, Int.emod_emod, ← Int.add_emod]
    congr 1
    ring

theorem CpuBase.dispatch_halt (c : CpuBase) (m1 : Machine) (ins : Instr)
    (hop : ins.op = Op.HALT) :
    c.dispatchAndTick m1 ins =
      ({ c with halted := true, ip := c.ip + 1, m := m1.tickAll 1 }, none) := by
  unfold CpuBase.dispatchAndTick CpuBase.exec
  rw [hop]

theorem CpuBase.dispatch_tick_all (c : CpuBase) (m1 : Machine) (ins : Instr)
    (hop : ins.op = Op.TICK_ALL) :
    c.dispatchAndTick m1 ins =
      ({ c with ip := c.ip + 1, m := (m1.tickAll ins.imm).tickAll 1 }, none) := by
  unfold CpuBase.dispatchAndTick CpuBase.exec
  rw [hop]

end wa
namespace wa

/-! ## Word bit resolution -/

theorem Machine.setBit_none_inv (m m1 : Machine) (r i : Int) (v : Nat)
    (h : m.setBit r i v = (m1, none)) :
    0 ≤ r ∧ r < m.ringCount ∧ 0 ≤ i ∧ i < m.gearsOf r := by
  have hr : 0 ≤ r ∧ r < m.ringCount := by
    by_contra hc
    unfold Machine.setBit at h
    rw [Machine.ring_err m r (by omega)] at h
    injection h with _ h2
    cases h2
  obtain ⟨rg, hrg, hring⟩ := Machine.ring_ok m r hr.1 hr.2
  have hgc : m.gearsOf r = rg.gearCount := by unfold Machine.gearsOf; rw [hrg]
  refine ⟨hr.1, hr.2, ?_⟩
  by_contra hc
  unfold Machine.setBit at h
  rw [hring] at h
  dsimp only at h
  rw [Ring.setBit_err rg i v (by omega)] at h
  injection h with _ h2
  cases h2

theorem set_then_get_word_bit (m m1 : Machine) (w : WordRef) (i : Int) (v : Nat)
    (h : set_word_bit m w i v = (m1, none)) : get_word_bit m1 w i = .ok (v % 2) := by
  have hi : 0 ≤ i ∧ i < word_bits w.size := by
    by_contra hc
    unfold set_word_bit at h
    dsimp only at h
    rw [if_pos (by omega)] at h
    injection h with _ h2
    cases h2
  rw [set_word_bit_eq m w i v hi.1 hi.2] at h
  obtain ⟨r0, r1, j0, j1⟩ := Machine.setBit_none_inv m m1 _ _ _ h
  obtain ⟨m2, hset, -, hget⟩ := Machine.setBit_ok m _ _ (v % 2) r0 r1 j0 j1
  rw [hset] at h
  injection h with h1 _
  subst h1
  rw [get_word_bit_eq m2 w i hi.1 hi.2, hget, if_pos ⟨rfl, rfl⟩, Nat.mod_mod]

/-- C20. Word bit resolution. For every word `w` and every bit index `i` in `[0, width(w))`,
`get_word_bit` is `Machine::getBit` and `set_word_bit` is `Machine::setBit` (of the value
masked to one bit) on the cell `(ringA, baseIndex + i)` for `W64`, `(ringA, i)` for `W360`,
and for `W720` `(ringA, i)` if `i < 360`, else `(ringB, i - 360)`; a `set_word_bit` that
returns normally, as it does on a valid word, is followed by a `get_word_bit` at the same `i`
returning the written value masked to one bit. -/
theorem word_bit_resolution (m : Machine) (w : WordRef) (i : Int) (v : Nat) (h0 : 0 ≤ i)
    (h1 : i < word_bits w.size) :
    (w.size = WordSize.W64 →
      get_word_bit m w i = m.getBit w.ringA (w.baseIndex + i) ∧
      set_word_bit m w i v = m.setBit w.ringA (w.baseIndex + i) (v % 2)) ∧
    (w.size = WordSize.W360 →
      get_word_bit m w i = m.getBit w.ringA i ∧
      set_word_bit m w i v = m.setBit w.ringA i (v % 2)) ∧
    (w.size = WordSize.W720 → i < 360 →
      get_word_bit m w i = m.getBit w.ringA i ∧
      set_word_bit m w i v = m.setBit w.ringA i (v % 2)) ∧
    (w.size = WordSize.W720 → 360 ≤ i →
      get_word_bit m w i = m.getBit w.ringB (i - 360) ∧
      set_word_bit m w i v = m.setBit w.ringB (i - 360) (v % 2)) ∧
    (∀ m1 : Machine, set_word_bit m w i v = (m1, none) →
      get_word_bit m1 w i = .ok (v % 2)) ∧
    (w.valid m → ∃ m1 : Machine, set_word_bit m w i v = (m1, none)) := by
  have hg := get_word_bit_eq m w i h0 h1
  have hs := set_word_bit_eq m w i v h0 h1
  unfold WordRef.cell at hg hs
  refine ⟨fun hw => ?_, fun hw => ?_, fun hw hi => ?_, fun hw hi => ?_,
    fun m1 h => set_then_get_word_bit m m1 w i v h, fun hv => ?_⟩
  · rw [hw] at hg hs
    exact ⟨hg, hs⟩
  · rw [hw] at hg hs
    exact ⟨hg, hs⟩
  · rw [hw] at hg hs
    dsimp only at hg hs
    rw [if_pos hi] at hg hs
    exact ⟨hg, hs⟩
  · rw [hw] at hg hs
    dsimp only at hg hs
    rw [if_neg (by omega)] at hg hs
    exact ⟨hg, hs⟩
  · obtain ⟨m1, hset, -⟩ := set_word_bit_ok m w hv i v h0 h1
    exact ⟨m1, hset⟩

theorem word_bit_resolution_witness :
    (0 : Int) ≤ 400 ∧ (400 : Int) < word_bits (WordRef.w720 2 3).size ∧
    get_word_bit machine10set (WordRef.w720 2 3) 400 = machine10set.getBit 3 (400 - 360) ∧
    set_word_bit machine10set (WordRef.w720 2 3) 400 7 = machine10set.setBit 3 (400 - 360) (7 % 2) :=
  ⟨by decide, by decide,
    (word_bit_resolution machine10set (WordRef.w720 2 3) 400 7 (by decide) (by decide)).2.2.2.1
      rfl (by decide)⟩

end wa
namespace wa

/-! ## MOV -/

theorem mov_loop (dst src : WordRef) (m : Machine) (hs : src.valid m) (hd : dst.valid m)
    (hsz : dst.size = src.size)
    (hc : ∀ k i : Nat, k < i → (i : Int) < word_bits src.size →
      dst.cell (k : Int) ≠ src.cell (i : Int)) :
    ∃ m1 : Machine, forLoop (mov_body dst src) (word_bits src.size).toNat 0 m = (m1, none) ∧
      m1.shape = m.shape ∧
      (∀ (q j : Int),
        (∀ k : Nat, k < (word_bits src.size).toNat → dst.cell (k : Int) ≠ (q, j)) →
        m1.getBit q j = m.getBit q j) ∧
      (∀ k : Nat, k < (word_bits src.size).toNat →
        get_word_bit m1 dst (k : Int) = .ok (wordBit m src k)) := by
  have hpos := word_bits_pos src.size
  have key := forLoop_inv (mov_body dst src)
    (fun i s => s.shape = m.shape ∧
      (∀ (q j : Int), (∀ k : Nat, k < i → dst.cell (k : Int) ≠ (q, j)) →
        s.getBit q j = m.getBit q j) ∧
      (∀ k : Nat, k < i → get_word_bit s dst (k : Int) = .ok (wordBit m src k)))
    (word_bits src.size).toNat ?_ (word_bits src.size).toNat 0 m (by omega)
    ⟨rfl, fun _ _ _ => rfl, fun k hk => absurd hk (by omega)⟩
  · exact key
  · intro i s hi ⟨h1, h2, h3⟩
    have his : (i : Int) < word_bits src.size := by omega
    obtain ⟨hr, hlt⟩ := read_step m s src dst i hs his (fun k hk => hc k i hk his) h2
    obtain ⟨m2, hset, hw⟩ := write_step m s dst (fun k => wordBit m src k) i
      (wordBit m src i) hd (by rw [hsz]; exact his) (Nat.mod_eq_of_lt hlt) h1 h2 h3
    refine ⟨m2, ?_, hw⟩
    unfold mov_body
    rw [hr]
    exact hset

theorem CpuBase.reg_of_bank (c : CpuBase) (hR : c.R = registerBank c.cfg) (i : Int)
    (h0 : 0 ≤ i) (h1 : i < c.cfg.regs) : c.reg i = .ok (makeReg c.cfg.wordSize i) := by
  unfold CpuBase.reg
  rw [if_neg (by omega), hR]
  unfold registerBank
  rw [List.getElem?_map, List.getElem?_range (by omega)]
  simp only [Option.map_some']
  rw [Int.toNat_of_nonneg h0]

theorem CpuBase.exec_mov_eq (c : CpuBase) (ins : Instr) (hop : ins.op = Op.MOV)
    (ra rb : WordRef) (hra : c.reg ins.a = .ok ra) (hrb : c.reg ins.b = .ok rb) :
    c.exec ins =
      ({ c with m := (forLoop (mov_body ra rb) (word_bits c.cfg.wordSize).toNat 0 c.m).1 },
        (forLoop (mov_body ra rb) (word_bits c.cfg.wordSize).toNat 0 c.m).2) := by
  unfold CpuBase.exec
  rw [hop]
  dsimp only
  rw [hra, hrb]

end wa
namespace wa

/-! ## Range checks: ring index, gear index, bit index -/

theorem list_set_same {α : Type} (l : List α) (k : Nat) (a : α) (h : l[k]? = some a) :
    l.set k a = l := by
  apply List.ext_getElem?
  intro j
  rw [List.getElem?_set]
  split
  · next hkj =>
    subst hkj
    split
    · exact h.symm
    · next hlt =>
      rw [List.getElem?_eq_none (by omega)] at h
      cases h
  · rfl

theorem Machine.getBit_gear_err (m : Machine) (r i : Int) (hr0 : 0 ≤ r) (hr1 : r < m.ringCount)
    (hi : i < 0 ∨ m.gearsOf r ≤ i) : m.getBit r i = .error .ring_gear_index := by
  obtain ⟨rg, hrg, hring⟩ := Machine.ring_ok m r hr0 hr1
  have hgc : m.gearsOf r = rg.gearCount := by unfold Machine.gearsOf; rw [hrg]
  unfold Machine.getBit
  rw [hring]
  exact Ring.getBit_err rg i (by omega)

theorem Machine.setBit_gear_err (m : Machine) (r i : Int) (v : Nat) (hr0 : 0 ≤ r)
    (hr1 : r < m.ringCount) (hi : i < 0 ∨ m.gearsOf r ≤ i) :
    m.setBit r i v = (m, some .ring_gear_index) := by
  obtain ⟨rg, hrg, hring⟩ := Machine.ring_ok m r hr0 hr1
  have hgc : m.gearsOf r = rg.gearCount := by unfold Machine.gearsOf; rw [hrg]
  unfold Machine.setBit
  rw [hring]
  dsimp only
  rw [Ring.setBit_err rg i v (by omega)]
  dsimp only
  rw [list_set_same m.rings r.toNat rg hrg]

theorem Ring.flipBit_err (r : Ring) (i : Int) (h : i < 0 ∨ r.gearCount ≤ i) :
    r.flipBit i = (r, some .ring_gear_index) := by
  unfold Ring.flipBit
  rw [Ring.getBit_err r i h]

/-- C21. For every word `w` and every bit index `i` with `i < 0` or `i >= width(w)`,
`get_word_bit` throws its out-of-range error and `set_word_bit` throws its out-of-range error
leaving the machine as it was; and for a `W64` word on an existing ring, a bit index inside
the width whose `baseIndex + i` reaches or exceeds the ring's gear count makes both fail with
the ring's out-of-range error, machine unchanged, rather than wrap around the ring. -/
theorem word_bit_out_of_range (m : Machine) (w : WordRef) (i : Int) :
    ((i < 0 ∨ word_bits w.size ≤ i) →
      get_word_bit m w i = .error .get_word_bit ∧
      ∀ v : Nat, set_word_bit m w i v = (m, some .set_word_bit)) ∧
    (w.size = WordSize.W64 → 0 ≤ i → i < 64 → 0 ≤ w.ringA → w.ringA < m.ringCount →
      m.gearsOf w.ringA ≤ w.baseIndex + i →
      get_word_bit m w i = .error .ring_gear_index ∧
      ∀ v : Nat, set_word_bit m w i v = (m, some .ring_gear_index)) := by
  constructor
  · intro h
    constructor
    · unfold get_word_bit
      dsimp only
      rw [if_pos (by omega)]
    · intro v
      unfold set_word_bit
      dsimp only
      rw [if_pos (by omega)]
  · intro hw h0 h1 hr0 hr1 hg
    have hwb : i < word_bits w.size := by rw [hw]; exact h1
    constructor
    · rw [get_word_bit_eq m w i h0 hwb]
      unfold WordRef.cell
      rw [hw]
      exact Machine.getBit_gear_err m _ _ hr0 hr1 (Or.inr hg)
    · intro v
      rw [set_word_bit_eq m w i v h0 hwb]
      unfold WordRef.cell
      rw [hw]
      exact Machine.setBit_gear_err m _ _ _ hr0 hr1 (Or.inr hg)

theorem word_bit_out_of_range_witness :
    get_word_bit machine10set (WordRef.w64 1 0) 64 = .error .get_word_bit ∧
    get_word_bit machine10set (WordRef.w64 1 300) 60 = .error .ring_gear_index :=
  ⟨((word_bit_out_of_range machine10set (WordRef.w64 1 0) 64).1 (by decide)).1,
   ((word_bit_out_of_range machine10set (WordRef.w64 1 300) 60).2 rfl (by decide) (by decide)
      (by decide) (by decide) (by decide)).1⟩

/-- C22. For every machine and every ring index `r` with `r < 0` or `r >= ringCount`, each of
`Machine::ring`, `getBit`, `setBit`, `flipBit` and `shiftRing` throws the ring out-of-range
error and leaves the machine, hence every ring, unchanged; for `r` in `[0, ringCount)` the
ring-index check passes and `ring(r)` returns a ring. -/
theorem Machine.ring_index_checked (m : Machine) (r : Int) :
    ((r < 0 ∨ m.ringCount ≤ r) →
      m.ring r = .error .ring_out_of_range ∧
      (∀ i : Int, m.getBit r i = .error .ring_out_of_range) ∧
      (∀ (i : Int) (v : Nat), m.setBit r i v = (m, some .ring_out_of_range)) ∧
      (∀ i : Int, m.flipBit r i = (m, some .ring_out_of_range)) ∧
      (∀ (d : Dir) (k : Int), m.shiftRing r d k = (m, some .ring_out_of_range))) ∧
    ((0 ≤ r ∧ r < m.ringCount) →
      m.checkRing r = .ok () ∧ ∃ rg : Ring, m.ring r = .ok rg) := by
  constructor
  · intro h
    have hr := Machine.ring_err m r h
    refine ⟨hr, fun i => ?_, fun i v => ?_, fun i => ?_, fun d k => ?_⟩
    · unfold Machine.getBit; rw [hr]
    · unfold Machine.setBit; rw [hr]
    · unfold Machine.flipBit; rw [hr]
    · unfold Machine.shiftRing; rw [hr]
  · intro h
    obtain ⟨rg, -, hring⟩ := Machine.ring_ok m r h.1 h.2
    refine ⟨?_, rg, hring⟩
    unfold Machine.checkRing
    rw [if_neg (by omega)]

theorem Machine.ring_index_checked_witness :
    machine10set.ring 10 = .error .ring_out_of_range ∧ machine10set.checkRing 9 = .ok () :=
  ⟨((Machine.ring_index_checked machine10set 10).1 (by decide)).1,
   ((Machine.ring_index_checked machine10set 9).2 (by decide)).1⟩

end wa
namespace wa

/-! ## Ring cells under setBit, flipBit, shift and tickAll -/

theorem Ring.setBit_eq (r : Ring) (i : Int) (v : Nat) (h0 : 0 ≤ i) (h1 : i < r.gearCount) :
    ∃ g : Gear, r.gears[((i + r.offset) % r.gearCount).toNat]? = some g ∧
      r.setBit i v =
        (Ring.mk (r.gears.set ((i + r.offset) % r.gearCount).toNat (Gear.mk (v % 2) g.teeth))
          r.dir r.offset, none) := by
  have hn : 0 < r.gearCount := by omega
  have hp0 : 0 ≤ (i + r.offset) % r.gearCount := Int.emod_nonneg _ (by omega)
  have hp1 : (i + r.offset) % r.gearCount < r.gearCount := Int.emod_lt_of_pos _ hn
  have hlt : ((i + r.offset) % r.gearCount).toNat < r.gears.length := by
    unfold Ring.gearCount at hp1 hp0 ⊢
    omega
  refine ⟨r.gears[((i + r.offset) % r.gearCount).toNat], List.getElem?_eq_getElem hlt, ?_⟩
  unfold Ring.setBit
  rw [Ring.mapIndex_eq r i h0 h1]
  dsimp only
  rw [List.getElem?_eq_getElem hlt]

theorem flip_flip_bit (b : Nat) (hb : b < 2) : ((((b ^^^ 1) % 256) % 2 ^^^ 1) % 256) % 2 = b := by
  interval_cases b <;> decide

theorem Ring.flipBit_twice (r : Ring) (i : Int) (h0 : 0 ≤ i) (h1 : i < r.gearCount)
    (hb : ∀ g ∈ r.gears, g.bit < 2) : (r.flipBit i).1.flipBit i = (r, none) := by
  obtain ⟨g, hg, hset⟩ := Ring.setBit_eq r i ((r.physBit ((i + r.offset) % r.gearCount).toNat
    ^^^ 1) % 256) h0 h1
  have hgb : g.bit < 2 := hb g (List.getElem?_mem hg)
  have hphys : r.physBit ((i + r.offset) % r.gearCount).toNat = g.bit := by
    unfold Ring.physBit
    rw [hg]
    exact Nat.mod_eq_of_lt hgb
  have hlt : ((i + r.offset) % r.gearCount).toNat < r.gears.length := by
    by_contra hc
    rw [List.getElem?_eq_none (by omega)] at hg
    cases hg
  have hf1 : r.flipBit i =
      (Ring.mk (r.gears.set ((i + r.offset) % r.gearCount).toNat
        (Gear.mk (((g.bit ^^^ 1) % 256) % 2) g.teeth)) r.dir r.offset, none) := by
    unfold Ring.flipBit
    rw [Ring.getBit_eq_physBit r i h0 h1]
    dsimp only
    rw [hset, hphys]
  rw [hf1]
  dsimp only
  generalize hr1 : Ring.mk (r.gears.set ((i + r.offset) % r.gearCount).toNat
      (Gear.mk (((g.bit ^^^ 1) % 256) % 2) g.teeth)) r.dir r.offset = r1
  have hgears : r1.gears = r.gears.set ((i + r.offset) % r.gearCount).toNat
      (Gear.mk (((g.bit ^^^ 1) % 256) % 2) g.teeth) := by rw [← hr1]
  have hoff : r1.offset = r.offset := by rw [← hr1]
  have hdir : r1.dir = r.dir := by rw [← hr1]
  have hgc : r1.gearCount = r.gearCount := by
    unfold Ring.gearCount
    rw [hgears, List.length_set]
  have hg1 : r1.gears[((i + r1.offset) % r1.gearCount).toNat]? =
      some (Gear.mk (((g.bit ^^^ 1) % 256) % 2) g.teeth) := by
    rw [hoff, hgc, hgears, List.getElem?_set_self hlt]
  obtain ⟨g1, hg1', hset1⟩ := Ring.setBit_eq r1 i
    ((r1.physBit ((i + r1.offset) % r1.gearCount).toNat ^^^ 1) % 256) h0 (by rw [hgc]; exact h1)
  have hg1eq : g1 = Gear.mk (((g.bit ^^^ 1) % 256) % 2) g.teeth := by
    rw [hg1] at hg1'
    injection hg1' with h
    exact h.symm
  have hphys1 : r1.physBit ((i + r1.offset) % r1.gearCount).toNat =
      ((g.bit ^^^ 1) % 256) % 2 := by
    unfold Ring.physBit
    rw [hg1]
    exact Nat.mod_mod _ _
  unfold Ring.flipBit
  rw [Ring.getBit_eq_physBit r1 i h0 (by rw [hgc]; exact h1)]
  dsimp only
  rw [hset1, hphys1, hg1eq]
  dsimp only
  rw [flip_flip_bit g.bit hgb, hoff, hgc, hgears, List.set_set, hdir]
  have hgg : Gear.mk g.bit g.teeth = g := rfl
  rw [hgg, list_set_same r.gears _ g hg]

theorem shift_multiple_offset (o k n : Int) (h0 : 0 ≤ o) (h1 : o < n) (hk : n ∣ k) :
    (o - k) % n = o ∧ (o + k) % n = o := by
  obtain ⟨c, rfl⟩ := hk
  constructor
  · have e : o - n * c = o + n * (-c) := by ring
    rw [e, Int.add_mul_emod_self_left, Int.emod_eq_of_lt h0 h1]
  · rw [Int.add_mul_emod_self_left, Int.emod_eq_of_lt h0 h1]

/-- C26. For every ring with `gearCount > 0`, every direction `d` and every integer `steps`,
`shift(d, steps)` (a total function: it cannot fail) sets the stored direction to `d`, leaves
the gears and so every physical cell's bit unchanged, leaves the offset in `[0, gearCount)`,
and when `steps` is 0 or another multiple of `gearCount` leaves an offset that was in
`[0, gearCount)` unchanged while still setting the direction. -/
theorem Ring.shift_frame (r : Ring) (d : Dir) (steps : Int) (hn : 0 < r.gearCount) :
    (r.shift d steps).dir = d ∧ (r.shift d steps).gears = r.gears ∧
    (∀ p : Nat, (r.shift d steps).physBit p = r.physBit p) ∧
    0 ≤ (r.shift d steps).offset ∧ (r.shift d steps).offset < r.gearCount ∧
    (0 ≤ r.offset → r.offset < r.gearCount → r.gearCount ∣ steps →
      (r.shift d steps).offset = r.offset ∧ (r.shift d steps).dir = d) ∧
    (0 ≤ r.offset → r.offset < r.gearCount →
      (r.shift d 0).offset = r.offset ∧ (r.shift d 0).dir = d) := by
  have hmul : 0 ≤ r.offset → r.offset < r.gearCount → ∀ k : Int, r.gearCount ∣ k →
      (r.shift d k).offset = r.offset ∧ (r.shift d k).dir = d := by
    intro h0 h1 k hk
    obtain ⟨e1, e2⟩ := shift_multiple_offset r.offset k r.gearCount h0 h1 hk
    refine ⟨?_, Ring.shift_dir r d k hn⟩
    rw [Ring.shift_offset r d k hn]
    split
    · exact e1
    · exact e2
  obtain ⟨b0, b1⟩ := Ring.shift_offset_range r d steps hn
  exact ⟨Ring.shift_dir r d steps hn, Ring.shift_gears r d steps,
    fun p => Ring.shift_physBit r d steps p, b0, b1,
    fun h0 h1 hk => hmul h0 h1 steps hk, fun h0 h1 => hmul h0 h1 0 (dvd_zero _)⟩

theorem Ring.shift_frame_witness :
    0 < ring5.gearCount ∧ (ring5.shift Dir.Left 10).dir = Dir.Left ∧
    (ring5.shift Dir.Left 10).gears = ring5.gears :=
  ⟨by decide, (Ring.shift_frame ring5 Dir.Left 10 (by decide)).1,
    (Ring.shift_frame ring5 Dir.Left 10 (by decide)).2.1⟩

end wa
namespace wa

/-! ## Construction -/

/-- C27, counterexample. `Machine(0, 360)` is constructed, without rings; `Machine(10, 0)` is
constructed, with ten rings without gears; a CPU core with register count 0 is constructed,
with an empty register bank. None of the three is rejected. -/
theorem construction_accepts_zero :
    Machine.new 0 360 = .ok { rings := [] } ∧
    Machine.new 10 0 =
      .ok { rings := List.replicate 10 { gears := [], dir := Dir.Right, offset := 0 } } ∧
    CpuBase.new machine10 cfgNoRegs =
      .ok { m := machine10, cfg := cfgNoRegs, R := [], prog := [], ip := 0, halted := false } :=
  ⟨rfl, rfl, rfl⟩

theorem Ring.new_ok (gearCount teeth : Int) (h : 0 ≤ gearCount) :
    Ring.new gearCount teeth =
      .ok { gears := List.replicate gearCount.toNat { bit := 0, teeth := teeth },
            dir := Dir.Right, offset := 0 } := by
  unfold Ring.new
  rw [if_neg (by omega)]

theorem Ring.new_err (gearCount teeth : Int) (h : gearCount < 0) :
    Ring.new gearCount teeth = .error .length_error := by
  unfold Ring.new
  rw [if_pos h]

/-- C27, as amended. Construction makes no configuration check of its own. `Machine(ringCount,
gearsPerRing)` fails, with the length error of the underlying vector, exactly when
`ringCount < 0`, or `ringCount > 0` and `gearsPerRing < 0`; otherwise it yields `ringCount`
rings of `gearsPerRing` gears, all bits 0, offset 0, direction `Right`, so zero rings or rings
without gears are accepted. A CPU core fails, with the same error, exactly when the register
count is negative; otherwise it yields the register bank of that many registers, which is
empty for count 0, over the given machine with no program, halted flag clear. -/
theorem construction_checks (rings gearsPerRing : Int) (m : Machine) (cfg : CpuConfig) :
    ((rings < 0 ∨ (0 < rings ∧ gearsPerRing < 0)) →
      Machine.new rings gearsPerRing = .error .length_error) ∧
    (¬ (rings < 0 ∨ (0 < rings ∧ gearsPerRing < 0)) →
      Machine.new rings gearsPerRing =
        .ok { rings := List.replicate rings.toNat
                { gears := List.replicate gearsPerRing.toNat { bit := 0, teeth := 20 },
                  dir := Dir.Right, offset := 0 } }) ∧
    (cfg.regs < 0 → CpuBase.new m cfg = .error .length_error) ∧
    (0 ≤ cfg.regs →
      CpuBase.new m cfg =
        .ok { m := m, cfg := cfg, R := registerBank cfg, prog := [], ip := 0,
              halted := false }) := by
  refine ⟨fun h => ?_, fun h => ?_, fun h => ?_, fun h => ?_⟩
  · unfold Machine.new
    rcases h with h | ⟨h1, h2⟩
    · rw [if_pos h]
    · rw [if_neg (by omega), if_neg (by omega), Ring.new_err _ _ h2]
  · unfold Machine.new
    rw [if_neg (by omega)]
    by_cases h0 : rings = 0
    · rw [if_pos h0, h0]
      rfl
    · rw [if_neg h0, Ring.new_ok _ _ (by omega)]
  · unfold CpuBase.new
    rw [if_pos h]
  · unfold CpuBase.new
    rw [if_neg (by omega)]
    rfl

theorem construction_checks_witness :
    Machine.new (-1) 360 = .error .length_error ∧
    CpuBase.new machine10 cfgNoRegs =
      .ok { m := machine10, cfg := cfgNoRegs, R := registerBank cfgNoRegs, prog := [], ip := 0,
            halted := false } :=
  ⟨(construction_checks (-1) 360 machine10 cfgNoRegs).1 (by decide),
   (construction_checks (-1) 360 machine10 cfgNoRegs).2.2.2 (by decide)⟩

/-! ## Register index outside the bank -/

end wa
namespace wa

/-! ## ALU calls on words of different widths -/

theorem forLoop_fails {σ : Type} (body : Int → σ → σ × Option Exn) (i0 : Int)
    (hfail : ∀ s : σ, (body i0 s).2 ≠ none) :
    ∀ (k : Nat) (i : Int) (s : σ), i ≤ i0 → i0 < i + k → (forLoop body k i s).2 ≠ none := by
  intro k
  induction k with
  | zero => intro i s h1 h2; omega
  | succ k ih =>
    intro i s h1 h2
    unfold forLoop
    rcases hb : body i s with ⟨s1, _ | e⟩
    · dsimp only
      have hne : i ≠ i0 := by
        intro he
        subst he
        have := hfail s
        rw [hb] at this
        exact this rfl
      exact ih (i + 1) s1 (by omega) (by push_cast at h2 ⊢; omega)
    · dsimp only
      intro h
      cases h

theorem get_word_bit_width_err (m : Machine) (w : WordRef) (i : Int)
    (h : word_bits w.size ≤ i) : get_word_bit m w i = .error .get_word_bit := by
  unfold get_word_bit
  dsimp only
  rw [if_pos (by omega)]

theorem set_word_bit_width_err (m : Machine) (w : WordRef) (i : Int) (v : Nat)
    (h : word_bits w.size ≤ i) : set_word_bit m w i v = (m, some .set_word_bit) := by
  unfold set_word_bit
  dsimp only
  rw [if_pos (by omega)]

theorem bitwise_body_fails (f : Nat → Nat → Nat) (body : Int → Machine → Machine × Option Exn)
    (a b out : WordRef)
    (hbody : ∀ (i : Int) (s : Machine), body i s =
      match get_word_bit s a i with
      | .error e => (s, some e)
      | .ok x =>
        match get_word_bit s b i with
        | .error e => (s, some e)
        | .ok y => set_word_bit s out i (f x y))
    (i0 : Int) (h : word_bits b.size ≤ i0 ∨ word_bits out.size ≤ i0) (s : Machine) :
    (body i0 s).2 ≠ none := by
  rw [hbody]
  cases ha : get_word_bit s a i0 with
  | error e => simp
  | ok x =>
    dsimp only
    cases hb : get_word_bit s b i0 with
    | error e => simp
    | ok y =>
      dsimp only
      rcases h with h | h
      · rw [get_word_bit_width_err s b i0 h] at hb
        cases hb
      · rw [set_word_bit_width_err s out i0 _ h]
        simp

theorem add_body_fails (a b out : WordRef) (i0 : Int)
    (h : word_bits b.size ≤ i0 ∨ word_bits out.size ≤ i0) (s : Machine × Nat) :
    (alu_add_body a b out i0 s).2 ≠ none := by
  unfold alu_add_body
  cases ha : get_word_bit s.1 a i0 with
  | error e => simp
  | ok x =>
    dsimp only
    cases hb : get_word_bit s.1 b i0 with
    | error e => simp
    | ok y =>
      dsimp only
      rcases h with h | h
      · rw [get_word_bit_width_err s.1 b i0 h] at hb
        cases hb
      · rw [set_word_bit_width_err s.1 out i0 _ h]
        simp

theorem narrow_index (a b out : WordRef)
    (h : word_bits b.size < word_bits a.size ∨ word_bits out.size < word_bits a.size) :
    ∃ i0 : Int, 0 ≤ i0 ∧ i0 < word_bits a.size ∧
      (word_bits b.size ≤ i0 ∨ word_bits out.size ≤ i0) := by
  have hb := word_bits_pos b.size
  have ho := word_bits_pos out.size
  rcases h with h | h
  · exact ⟨word_bits b.size, by omega, h, Or.inl (le_refl _)⟩
  · exact ⟨word_bits out.size, by omega, h, Or.inr (le_refl _)⟩

theorem bitwise_wide (f : Nat → Nat → Nat) (body : Int → Machine → Machine × Option Exn)
    (a b out : WordRef) (m : Machine)
    (hbody : ∀ (i : Int) (s : Machine), body i s =
      match get_word_bit s a i with
      | .error e => (s, some e)
      | .ok x =>
        match get_word_bit s b i with
        | .error e => (s, some e)
        | .ok y => set_word_bit s out i (f x y))
    (ha : a.valid m) (hb : b.valid m) (ho : out.valid m)
    (hsb : word_bits a.size ≤ word_bits b.size) (hso : word_bits a.size ≤ word_bits out.size)
    (hda : out.disjoint a) (hdb : out.disjoint b) :
    ∃ m1 : Machine, forLoop body (word_bits a.size).toNat 0 m = (m1, none) ∧
      (∀ i : Int, 0 ≤ i → i < word_bits a.size →
        ∃ x y : Nat, get_word_bit m a i = .ok x ∧ get_word_bit m b i = .ok y ∧
          x < 2 ∧ y < 2 ∧ get_word_bit m1 out i = .ok (f x y % 2)) ∧
      (∀ i : Int, word_bits a.size ≤ i → get_word_bit m1 out i = get_word_bit m out i) := by
  obtain ⟨m1, hrun, -, hframe, hout⟩ := bitwise_loop f body a b out m hbody ha hb ho hsb hso
    (fun k i hki hi => WordRef.disjoint_cell out a hda k i (by omega) (by omega) (by omega) hi)
    (fun k i hki hi => WordRef.disjoint_cell out b hdb k i (by omega) (by omega) (by omega)
      (by omega))
  refine ⟨m1, hrun, ?_, ?_⟩
  · intro i h0 h1
    obtain ⟨n, rfl⟩ := Int.eq_ofNat_of_zero_le h0
    obtain ⟨hxl, hx⟩ := get_word_bit_ok m a ha n h1
    obtain ⟨hyl, hy⟩ := get_word_bit_ok m b hb n (by omega)
    exact ⟨_, _, hx, hy, hxl, hyl, hout n (by omega)⟩
  · intro i hi
    by_cases hio : i < word_bits out.size
    · have hpos := word_bits_pos a.size
      rw [get_word_bit_eq m1 out i (by omega) hio, get_word_bit_eq m out i (by omega) hio]
      apply hframe
      intro k hk he
      have := WordRef.cell_inj m out ho k i he
      omega
    · rw [get_word_bit_width_err m1 out i (by omega), get_word_bit_width_err m out i (by omega)]

end wa
namespace wa

end wa
namespace wa

/-! ## The ring in 32-bit `int` arithmetic

`Ring.shift32` and `Ring.mapIndex32` take the sums of the source in 32-bit `int`. On a ring
of at most `2^30` gears whose offset lies in `[0, gearCount)` no sum leaves the `int` range
and they are the exact-integer functions `Ring.shift` and `Ring.mapIndex`. -/

theorem Ring.shift32_eq (r : Ring) (d : Dir) (k : Int) (hb : r.gearCount ≤ 1073741824)
    (h0 : 0 ≤ r.offset) (h1 : r.offset < r.gearCount) : r.shift32 d k = r.shift d k := by
  unfold Ring.shift32 Ring.shift
  dsimp only
  have hn : 0 < r.gearCount := by omega
  have e1 : ¬ r.gearCount ≤ 0 := by omega
  have hk0 : 0 ≤ k % r.gearCount := Int.emod_nonneg k (by omega)
  have hk1 : k % r.gearCount < r.gearCount := Int.emod_lt_of_pos k hn
  simp only [if_neg e1, norm_eq_emod k _ hn,
    wrapInt_eq (r.offset - k % r.gearCount) (by omega) (by omega),
    wrapInt_eq (r.offset + k % r.gearCount) (by omega) (by omega)]

theorem Ring.shift32_gears (r : Ring) (d : Dir) (k : Int) : (r.shift32 d k).gears = r.gears := by
  unfold Ring.shift32
  dsimp only
  split <;> rfl

theorem Ring.shift32_gearCount (r : Ring) (d : Dir) (k : Int) :
    (r.shift32 d k).gearCount = r.gearCount := by
  unfold Ring.gearCount
  rw [Ring.shift32_gears]

theorem Ring.shift32_offset (r : Ring) (d : Dir) (k : Int) (hn : 0 < r.gearCount) :
    (r.shift32 d k).offset =
      (if d = Dir.Right then wrapInt (r.offset - k % r.gearCount)
        else wrapInt (r.offset + k % r.gearCount)) % r.gearCount := by
  unfold Ring.shift32
  dsimp only
  have e1 : ¬ r.gearCount ≤ 0 := by omega
  simp only [if_neg e1, norm_eq_emod k _ hn]
  by_cases hd : d = Dir.Right
  · simp only [if_pos hd]
    exact norm_eq_emod _ _ hn
  · simp only [if_neg hd]
    exact norm_eq_emod _ _ hn

theorem Ring.shift32_dir (r : Ring) (d : Dir) (k : Int) (hn : 0 < r.gearCount) :
    (r.shift32 d k).dir = d := by
  unfold Ring.shift32
  dsimp only
  have e1 : ¬ r.gearCount ≤ 0 := by omega
  simp only [if_neg e1]

theorem Ring.tick32_eq (r : Ring) (k : Int) (hb : r.gearCount ≤ 1073741824)
    (h0 : 0 ≤ r.offset) (h1 : r.offset < r.gearCount) : r.tick32 k = r.tick k := by
  unfold Ring.tick32 Ring.tick
  exact Ring.shift32_eq r r.dir k hb h0 h1

theorem Ring.mapIndex32_eq (r : Ring) (i : Int) (hb : r.gearCount ≤ 1073741824)
    (h0 : 0 ≤ r.offset) (h1 : r.offset < r.gearCount) : r.mapIndex32 i = r.mapIndex i := by
  unfold Ring.mapIndex32 Ring.mapIndex
  dsimp only
  by_cases hi : i < 0 ∨ i ≥ r.gearCount
  · rw [if_pos hi, if_pos hi]
  · rw [if_neg hi, if_neg hi, wrapInt_eq (i + r.offset) (by omega) (by omega)]

theorem Ring.mapIndex32_err (r : Ring) (i : Int) (h : i < 0 ∨ r.gearCount ≤ i) :
    r.mapIndex32 i = .error .ring_gear_index := by
  unfold Ring.mapIndex32
  dsimp only
  rw [if_pos (by omega)]

theorem Ring.mapIndex32_ok (r : Ring) (i : Int) (h0 : 0 ≤ i) (h1 : i < r.gearCount) :
    r.mapIndex32 i = .ok (wrapInt (i + r.offset) % r.gearCount) ∧
    0 ≤ wrapInt (i + r.offset) % r.gearCount ∧
    wrapInt (i + r.offset) % r.gearCount < r.gearCount := by
  refine ⟨?_, Int.emod_nonneg _ (by omega), Int.emod_lt_of_pos _ (by omega)⟩
  unfold Ring.mapIndex32
  dsimp only
  rw [if_neg (by omega), norm_eq_emod _ _ (by omega)]

theorem Ring.getBit32_eq (r : Ring) (i : Int) (hb : r.gearCount ≤ 1073741824)
    (h0 : 0 ≤ r.offset) (h1 : r.offset < r.gearCount) : r.getBit32 i = r.getBit i := by
  unfold Ring.getBit32 Ring.getBit
  rw [Ring.mapIndex32_eq r i hb h0 h1]

theorem Ring.setBit32_eq (r : Ring) (i : Int) (v : Nat) (hb : r.gearCount ≤ 1073741824)
    (h0 : 0 ≤ r.offset) (h1 : r.offset < r.gearCount) : r.setBit32 i v = r.setBit i v := by
  unfold Ring.setBit32 Ring.setBit
  rw [Ring.mapIndex32_eq r i hb h0 h1]

theorem Ring.flipBit32_eq (r : Ring) (i : Int) (hb : r.gearCount ≤ 1073741824)
    (h0 : 0 ≤ r.offset) (h1 : r.offset < r.gearCount) : r.flipBit32 i = r.flipBit i := by
  unfold Ring.flipBit32 Ring.flipBit
  rw [Ring.getBit32_eq r i hb h0 h1]
  cases r.getBit i with
  | error e => rfl
  | ok b => exact Ring.setBit32_eq r i _ hb h0 h1

theorem Ring.logicalBits32_eq (r : Ring) (hb : r.gearCount ≤ 1073741824)
    (h0 : 0 ≤ r.offset) (h1 : r.offset < r.gearCount) : r.logicalBits32 = r.logicalBits := by
  unfold Ring.logicalBits32 Ring.logicalBits
  congr 1
  funext i
  exact Ring.getBit32_eq r _ hb h0 h1

theorem Ring.getBit32_of_cell (r : Ring) (i p : Int) (g : Gear) (hmap : r.mapIndex32 i = .ok p)
    (hg : r.gears[p.toNat]? = some g) : r.getBit32 i = .ok (g.bit % 2) := by
  unfold Ring.getBit32
  rw [hmap]
  dsimp only
  rw [hg]

theorem Ring.getBit32_err (r : Ring) (i : Int) (h : i < 0 ∨ r.gearCount ≤ i) :
    r.getBit32 i = .error .ring_gear_index := by
  unfold Ring.getBit32
  rw [Ring.mapIndex32_err r i h]

theorem Ring.setBit32_err (r : Ring) (i : Int) (v : Nat) (h : i < 0 ∨ r.gearCount ≤ i) :
    r.setBit32 i v = (r, some .ring_gear_index) := by
  unfold Ring.setBit32
  rw [Ring.mapIndex32_err r i h]

theorem Ring.flipBit32_err (r : Ring) (i : Int) (h : i < 0 ∨ r.gearCount ≤ i) :
    r.flipBit32 i = (r, some .ring_gear_index) := by
  unfold Ring.flipBit32
  rw [Ring.getBit32_err r i h]

theorem Ring.cell32_exists (r : Ring) (i : Int) (h0 : 0 ≤ i) (h1 : i < r.gearCount) :
    ∃ (p : Int) (g : Gear), r.mapIndex32 i = .ok p ∧ 0 ≤ p ∧ p < r.gearCount ∧
      r.gears[p.toNat]? = some g := by
  obtain ⟨hm, hp0, hp1⟩ := Ring.mapIndex32_ok r i h0 h1
  have hlt : (wrapInt (i + r.offset) % r.gearCount).toNat < r.gears.length := by
    unfold Ring.gearCount at hp1 hp0 ⊢
    omega
  exact ⟨_, r.gears[(wrapInt (i + r.offset) % r.gearCount).toNat], hm, hp0, hp1,
    List.getElem?_eq_getElem hlt⟩

theorem Ring.access32_ok (r : Ring) (i : Int) (h0 : 0 ≤ i) (h1 : i < r.gearCount) :
    (∃ b : Nat, r.getBit32 i = .ok b) ∧ (∀ v : Nat, (r.setBit32 i v).2 = none) ∧
    (r.flipBit32 i).2 = none := by
  obtain ⟨p, g, hm, -, -, hg⟩ := Ring.cell32_exists r i h0 h1
  have hget := Ring.getBit32_of_cell r i p g hm hg
  have hset : ∀ v : Nat, (r.setBit32 i v).2 = none := by
    intro v
    unfold Ring.setBit32
    rw [hm]
    dsimp only
    rw [hg]
  refine ⟨⟨_, hget⟩, hset, ?_⟩
  unfold Ring.flipBit32
  rw [hget]
  exact hset _

theorem ringHuge_gearCount : ringHuge.gearCount = 1073742824 := by
  unfold ringHuge Ring.gearCount
  simp only [List.length_replicate]
  rfl

theorem ringHugeLeft_gearCount : ringHugeLeft.gearCount = 1073742824 := by
  unfold ringHugeLeft Ring.gearCount
  simp only [List.length_replicate]
  rfl

end wa
namespace wa

/-! ## The console dial -/

theorem glyph_succ_le (p n : Int) (hn : 13 ≤ n) :
    ((p + 1) * 13) / n ≤ (p * 13) / n + 1 := by
  have h1 : (p + 1) * 13 ≤ p * 13 + 1 * n := by nlinarith
  calc ((p + 1) * 13) / n ≤ (p * 13 + 1 * n) / n := Int.ediv_le_ediv (by omega) h1
    _ = (p * 13) / n + 1 := Int.add_mul_ediv_right _ _ (by omega)

theorem glyph_last (n : Int) (hn : 13 ≤ n) : ((n - 1) * 13) / n = 12 := by
  have h1 : 12 ≤ ((n - 1) * 13) / n := Int.le_ediv_of_mul_le (by omega) (by nlinarith)
  have h2 : ((n - 1) * 13) / n < 13 := Int.ediv_lt_of_lt_mul (by omega) (by nlinarith)
  omega

theorem Machine.shiftRing_ok (l : List Ring) (ring : Int) (rg : Ring) (d : Dir) (k : Int)
    (h0 : 0 ≤ ring) (hrg : l[ring.toNat]? = some rg) :
    (Machine.mk l).ring ring = .ok rg ∧
    (Machine.mk l).shiftRing ring d k = (Machine.mk (l.set ring.toNat (rg.shift d k)), none) := by
  have hlt : ring.toNat < l.length := by
    by_contra hc
    rw [List.getElem?_eq_none (by omega)] at hrg
    cases hrg
  obtain ⟨rg0, hrg0, hring⟩ := Machine.ring_ok (Machine.mk l) ring h0
    (by unfold Machine.ringCount; dsimp only; omega)
  dsimp only at hrg0
  have e : rg0 = rg := by rw [hrg] at hrg0; injection hrg0 with h; exact h.symm
  rw [e] at hring
  refine ⟨hring, ?_⟩
  unfold Machine.shiftRing
  rw [hring]

theorem Machine.gearsPerRing_set (l : List Ring) (k : Nat) (rg rg1 : Ring)
    (hrg : l[k]? = some rg) (hgc : rg1.gearCount = rg.gearCount) :
    (Machine.mk (l.set k rg1)).gearsPerRing = (Machine.mk l).gearsPerRing := by
  unfold Machine.gearsPerRing
  cases l with
  | nil => rfl
  | cons r rest =>
    cases k with
    | zero =>
      simp only [List.getElem?_cons_zero, Option.some.injEq] at hrg
      simp only [List.set_cons_zero]
      rw [hgc, hrg]
    | succ k => simp only [List.set_cons_succ]

theorem Machine.shiftRing32_eq (l : List Ring) (ring : Int) (rg : Ring) (d : Dir) (k : Int)
    (h0 : 0 ≤ ring) (hrg : l[ring.toNat]? = some rg) (hb : rg.gearCount ≤ 1073741824)
    (ho0 : 0 ≤ rg.offset) (ho1 : rg.offset < rg.gearCount) :
    (Machine.mk l).shiftRing32 ring d k = (Machine.mk l).shiftRing ring d k := by
  obtain ⟨hring, -⟩ := Machine.shiftRing_ok l ring rg d k h0 hrg
  unfold Machine.shiftRing32 Machine.shiftRing
  rw [hring]
  dsimp only
  rw [Ring.shift32_eq rg d k hb ho0 ho1]

theorem dial_glyph (rg : Ring) (n : Int) (hn : 13 ≤ n) (hb : n ≤ 165191050) :
    activeGlyphFromOffset rg.offset n = .ok ((rg.offset % n * 13) / n) ∧
    0 ≤ rg.offset % n ∧ rg.offset % n < n := by
  have h0 : 0 ≤ rg.offset % n := Int.emod_nonneg _ (by omega)
  have h1 : rg.offset % n < n := Int.emod_lt_of_pos _ (by omega)
  obtain ⟨e, -, -⟩ := glyphAtIndex_eq (rg.offset % n) n (by omega) hb h0 h1
  refine ⟨?_, h0, h1⟩
  rw [activeGlyphFromOffset_eq rg.offset n (by omega), e]


theorem dial_up (ring target n : Int) (h0 : 0 ≤ ring) (hn : 13 ≤ n) (hb : n ≤ 165191050)
    (ht : target ≤ 12) :
    ∀ (e fuel : Nat) (l : List Ring) (rg : Ring), l[ring.toNat]? = some rg →
      rg.gearCount = n → (Machine.mk l).gearsPerRing = n →
      0 ≤ rg.offset → rg.offset < n →
      rg.offset % n = n - 1 - (e : Int) → (rg.offset % n * 13) / n ≤ target → e + 1 ≤ fuel →
      ∃ rg1 : Ring, dialLoop ring target fuel (Machine.mk l) =
          (Machine.mk (l.set ring.toNat rg1), none) ∧
        rg1.gears = rg.gears ∧ activeGlyphFromOffset rg1.offset n = .ok target := by
  intro e
  induction e with
  | zero =>
    intro fuel l rg hrg hgc hgp ho0 ho1 hoff hle hfuel
    obtain ⟨f, rfl⟩ : ∃ f, fuel = f + 1 := ⟨fuel - 1, by omega⟩
    obtain ⟨hg, -, -⟩ := dial_glyph rg n hn hb
    obtain ⟨hring, -⟩ := Machine.shiftRing_ok l ring rg Dir.Left 1 h0 hrg
    have hcur : (rg.offset % n * 13) / n = target := by
      have h12 := glyph_last n hn
      have e1 : rg.offset % n = n - 1 := by rw [hoff]; simp
      rw [e1] at hle ⊢
      omega
    refine ⟨rg, ?_, rfl, by rw [hg, hcur]⟩
    unfold dialLoop
    rw [hring]
    dsimp only
    rw [hgp, hg]
    dsimp only
    rw [if_pos hcur, list_set_same l _ rg hrg]
  | succ e ih =>
    intro fuel l rg hrg hgc hgp ho0 ho1 hoff hle hfuel
    obtain ⟨f, rfl⟩ : ∃ f, fuel = f + 1 := ⟨fuel - 1, by omega⟩
    obtain ⟨hg, hp0, hp1⟩ := dial_glyph rg n hn hb
    obtain ⟨hring, hshift⟩ := Machine.shiftRing_ok l ring rg Dir.Left 1 h0 hrg
    by_cases hcur : (rg.offset % n * 13) / n = target
    · refine ⟨rg, ?_, rfl, by rw [hg, hcur]⟩
      unfold dialLoop
      rw [hring]
      dsimp only
      rw [hgp, hg]
      dsimp only
      rw [if_pos hcur, list_set_same l _ rg hrg]
    · have hlt : (rg.offset % n * 13) / n < target := by omega
      have hgc1 : (rg.shift Dir.Left 1).gearCount = n := by rw [Ring.shift_gearCount, hgc]
      have hoff1 : (rg.shift Dir.Left 1).offset = rg.offset % n + 1 := by
        rw [Ring.shift_offset rg Dir.Left 1 (by omega), hgc]
        simp only [if_neg (show ¬ (Dir.Left = Dir.Right) by decide)]
        rw [← Int.emod_add_emod, Int.emod_eq_of_lt (by omega) (by push_cast at hoff; omega)]
      have hmod1 : (rg.shift Dir.Left 1).offset % n = rg.offset % n + 1 := by
        rw [hoff1, Int.emod_eq_of_lt (by omega) (by push_cast at hoff; omega)]
      obtain ⟨rg1, hrun, hgears, hglyph⟩ := ih f (l.set ring.toNat (rg.shift Dir.Left 1))
        (rg.shift Dir.Left 1)
        (by
          have hl : ring.toNat < l.length := by
            by_contra hc
            rw [List.getElem?_eq_none (by omega)] at hrg
            cases hrg
          rw [List.getElem?_set_self hl])
        hgc1
        (by rw [Machine.gearsPerRing_set l _ rg _ hrg (by rw [hgc1, hgc]), hgp])
        (Ring.shift_offset_range rg Dir.Left 1 (by omega)).1
        (by rw [← hgc]; exact (Ring.shift_offset_range rg Dir.Left 1 (by omega)).2)
        (by rw [hmod1, hoff]; push_cast; ring)
        (by
          rw [hmod1]
          have := glyph_succ_le (rg.offset % n) n hn
          omega)
        (by omega)
      refine ⟨rg1, ?_, by rw [hgears, Ring.shift_gears], hglyph⟩
      unfold dialLoop
      rw [hring]
      dsimp only
      rw [hgp, hg]
      dsimp only
      rw [if_neg hcur, if_neg (by omega), if_pos (by omega), 
        Machine.shiftRing32_eq l ring rg Dir.Left 1 h0 hrg (by omega) ho0 (by omega), hshift]
      dsimp only
      rw [hrun, List.set_set]

theorem dial_down (ring target n : Int) (h0 : 0 ≤ ring) (hn : 13 ≤ n) (hb : n ≤ 165191050)
    (ht : 0 ≤ target) :
    ∀ (p fuel : Nat) (l : List Ring) (rg : Ring), l[ring.toNat]? = some rg →
      rg.gearCount = n → (Machine.mk l).gearsPerRing = n →
      0 ≤ rg.offset → rg.offset < n →
      rg.offset % n = (p : Int) → target ≤ (rg.offset % n * 13) / n → p + 1 ≤ fuel →
      ∃ rg1 : Ring, dialLoop ring target fuel (Machine.mk l) =
          (Machine.mk (l.set ring.toNat rg1), none) ∧
        rg1.gears = rg.gears ∧ activeGlyphFromOffset rg1.offset n = .ok target := by
  intro p
  induction p with
  | zero =>
    intro fuel l rg hrg hgc hgp ho0 ho1 hoff hle hfuel
    obtain ⟨f, rfl⟩ : ∃ f, fuel = f + 1 := ⟨fuel - 1, by omega⟩
    obtain ⟨hg, -, -⟩ := dial_glyph rg n hn hb
    obtain ⟨hring, -⟩ := Machine.shiftRing_ok l ring rg Dir.Left 1 h0 hrg
    have hcur : (rg.offset % n * 13) / n = target := by
      have e1 : rg.offset % n = 0 := by rw [hoff]; simp
      rw [e1] at hle ⊢
      simp only [zero_mul, Int.zero_ediv] at hle ⊢
      omega
    refine ⟨rg, ?_, rfl, by rw [hg, hcur]⟩
    unfold dialLoop
    rw [hring]
    dsimp only
    rw [hgp, hg]
    dsimp only
    rw [if_pos hcur, list_set_same l _ rg hrg]
  | succ p ih =>
    intro fuel l rg hrg hgc hgp ho0 ho1 hoff hle hfuel
    obtain ⟨f, rfl⟩ : ∃ f, fuel = f + 1 := ⟨fuel - 1, by omega⟩
    obtain ⟨hg, hp0, hp1⟩ := dial_glyph rg n hn hb
    obtain ⟨hring, hshift⟩ := Machine.shiftRing_ok l ring rg Dir.Right 1 h0 hrg
    by_cases hcur : (rg.offset % n * 13) / n = target
    · refine ⟨rg, ?_, rfl, by rw [hg, hcur]⟩
      unfold dialLoop
      rw [hring]
      dsimp only
      rw [hgp, hg]
      dsimp only
      rw [if_pos hcur, list_set_same l _ rg hrg]
    · have hlt : target < (rg.offset % n * 13) / n := by omega
      have hgc1 : (rg.shift Dir.Right 1).gearCount = n := by rw [Ring.shift_gearCount, hgc]
      have hoff1 : (rg.shift Dir.Right 1).offset = rg.offset % n - 1 := by
        rw [Ring.shift_offset rg Dir.Right 1 (by omega), hgc]
        simp only [if_true]
        have h1n : (1 : Int) % n = 1 := Int.emod_eq_of_lt (by omega) (by omega)
        rw [Int.sub_emod, h1n, Int.emod_eq_of_lt (by push_cast at hoff; omega) (by omega)]
      have hmod1 : (rg.shift Dir.Right 1).offset % n = rg.offset % n - 1 := by
        rw [hoff1, Int.emod_eq_of_lt (by push_cast at hoff; omega) (by omega)]
      obtain ⟨rg1, hrun, hgears, hglyph⟩ := ih f (l.set ring.toNat (rg.shift Dir.Right 1))
        (rg.shift Dir.Right 1)
        (by
          have hl : ring.toNat < l.length := by
            by_contra hc
            rw [List.getElem?_eq_none (by omega)] at hrg
            cases hrg
          rw [List.getElem?_set_self hl])
        hgc1
        (by rw [Machine.gearsPerRing_set l _ rg _ hrg (by rw [hgc1, hgc]), hgp])
        (Ring.shift_offset_range rg Dir.Right 1 (by omega)).1
        (by rw [← hgc]; exact (Ring.shift_offset_range rg Dir.Right 1 (by omega)).2)
        (by rw [hmod1, hoff]; push_cast; ring)
        (by
          rw [hmod1]
          have := glyph_succ_le (rg.offset % n - 1) n hn
          rw [Int.sub_add_cancel] at this
          omega)
        (by omega)
      refine ⟨rg1, ?_, by rw [hgears, Ring.shift_gears], hglyph⟩
      unfold dialLoop
      rw [hring]
      dsimp only
      rw [hgp, hg]
      dsimp only
      rw [if_neg hcur, if_neg (by omega), if_neg (by omega), 
        Machine.shiftRing32_eq l ring rg Dir.Right 1 h0 hrg (by omega) ho0 (by omega), hshift]
      dsimp only
      rw [hrun, List.set_set]

/-- C30, as the code has it. Console dial. On a machine whose gear count is at least 13 and
at most 165,191,050 (the largest for which the glyph product `gearIndex * 13` cannot
overflow `int`), for a valid ring index whose ring has that gear count (as every ring of a
constructed machine has), any starting offset in `[0, gearsPerRing)` and any target glyph
`Z0..Z12`, `dialRingToGlyph(ring, target)` returns normally within its budget of
`2 * gearsPerRing` rounds with the ring's active glyph equal to the target; the dialed ring
keeps its cells, and every other ring is left exactly as it was. -/
theorem Console.dial_reaches_target (m : Machine) (ring target : Int) (h0 : 0 ≤ ring)
    (h1 : ring < m.ringCount) (hn : 13 ≤ m.gearsPerRing) (hb : m.gearsPerRing ≤ 165191050)
    (hgo : m.gearsOf ring = m.gearsPerRing) (ho0 : 0 ≤ m.offsetOf ring)
    (ho1 : m.offsetOf ring < m.gearsPerRing) (ht0 : 0 ≤ target) (ht1 : target ≤ 12) :
    ∃ (m1 : Machine) (rg rg1 : Ring), Console.dialRingToGlyph m ring target = (m1, none) ∧
      m.ring ring = .ok rg ∧ m1.ring ring = .ok rg1 ∧
      activeGlyphFromOffset rg1.offset m1.gearsPerRing = .ok target ∧
      rg1.gears = rg.gears ∧ m1.rings.length = m.rings.length ∧
      ∀ q : Nat, q ≠ ring.toNat → m1.rings[q]? = m.rings[q]? := by
  obtain ⟨rg, hrg, hring⟩ := Machine.ring_ok m ring h0 h1
  have hgc : rg.gearCount = m.gearsPerRing := by
    unfold Machine.gearsOf at hgo
    rw [hrg] at hgo
    exact hgo
  have hro0 : 0 ≤ rg.offset := by
    unfold Machine.offsetOf at ho0
    rw [hrg] at ho0
    exact ho0
  have hro1 : rg.offset < m.gearsPerRing := by
    unfold Machine.offsetOf at ho1
    rw [hrg] at ho1
    exact ho1
  obtain ⟨-, hp0, hp1⟩ := dial_glyph rg m.gearsPerRing hn hb
  have hlt : ring.toNat < m.rings.length := by unfold Machine.ringCount at h1; omega
  have key : ∃ rg1 : Ring, dialLoop ring target (m.gearsPerRing * 2).toNat (Machine.mk m.rings) =
        (Machine.mk (m.rings.set ring.toNat rg1), none) ∧
      rg1.gears = rg.gears ∧ activeGlyphFromOffset rg1.offset m.gearsPerRing = .ok target := by
    rcases le_or_lt ((rg.offset % m.gearsPerRing * 13) / m.gearsPerRing) target with hle | hgt
    · exact dial_up ring target m.gearsPerRing h0 hn hb ht1
        (m.gearsPerRing - 1 - rg.offset % m.gearsPerRing).toNat _ m.rings rg hrg hgc rfl
        hro0 hro1
        (by rw [Int.toNat_of_nonneg (by omega)]; ring) hle (by omega)
    · exact dial_down ring target m.gearsPerRing h0 hn hb ht0
        (rg.offset % m.gearsPerRing).toNat _ m.rings rg hrg hgc rfl hro0 hro1
        (by rw [Int.toNat_of_nonneg hp0]) (by omega) (by omega)
  obtain ⟨rg1, hrun, hgears, hglyph⟩ := key
  have hgc1 : rg1.gearCount = rg.gearCount := by unfold Ring.gearCount; rw [hgears]
  have hw : wrapInt (m.gearsPerRing * 2) = m.gearsPerRing * 2 :=
    wrapInt_eq _ (by omega) (by omega)
  have hrun2 : Console.dialRingToGlyph m ring target =
      (Machine.mk (m.rings.set ring.toNat rg1), none) := by
    unfold Console.dialRingToGlyph
    rw [hw]
    exact hrun
  refine ⟨Machine.mk (m.rings.set ring.toNat rg1), rg, rg1, hrun2, hring, ?_, ?_, hgears, ?_, ?_⟩
  · exact (Machine.shiftRing_ok (m.rings.set ring.toNat rg1) ring rg1 Dir.Left 0 h0
      (List.getElem?_set_self hlt)).1
  · rw [Machine.gearsPerRing_set m.rings _ rg rg1 hrg hgc1]
    exact hglyph
  · simp only [List.length_set]
  · intro q hq
    exact List.getElem?_set_ne (Ne.symm hq)

/-- Witness for C30: ring 3 of the 10 x 360 machine dialed to glyph 7. -/
theorem Console.dial_reaches_target_witness :
    (0 : Int) ≤ 3 ∧ (3 : Int) < machine10set.ringCount ∧ 13 ≤ machine10set.gearsPerRing ∧
    machine10set.gearsPerRing ≤ 165191050 ∧
    machine10set.gearsOf 3 = machine10set.gearsPerRing ∧ 0 ≤ machine10set.offsetOf 3 ∧
    machine10set.offsetOf 3 < machine10set.gearsPerRing ∧
    ∃ (m1 : Machine) (rg rg1 : Ring), Console.dialRingToGlyph machine10set 3 7 = (m1, none) ∧
      machine10set.ring 3 = .ok rg ∧ m1.ring 3 = .ok rg1 ∧
      activeGlyphFromOffset rg1.offset m1.gearsPerRing = .ok 7 :=
  ⟨by decide, by decide, by decide, by decide, by decide, by decide, by decide,
    (Console.dial_reaches_target machine10set 3 7 (by decide) (by decide) (by decide) (by decide)
      (by decide) (by decide) (by decide) (by decide) (by decide)).imp
      (fun _ h => h.imp (fun _ h => h.imp (fun _ h => ⟨h.1, h.2.1, h.2.2.1, h.2.2.2.1⟩)))⟩

end wa
namespace wa

end wa
namespace wa

theorem glyph_value_reached (n g : Int) (hn : 13 ≤ n) (h0 : 0 ≤ g) (h1 : g ≤ 12) :
    ∃ o : Int, 0 ≤ o ∧ o < n ∧ (o * 13) / n = g := by
  have hgn : 0 ≤ g * n := Int.mul_nonneg h0 (by omega)
  have hgn2 : g * n ≤ 12 * n := Int.mul_le_mul_of_nonneg_right h1 (by omega)
  refine ⟨(g * n + 12) / 13, ?_, ?_, ?_⟩
  · omega
  · omega
  · have e1 : g * n ≤ (g * n + 12) / 13 * 13 := by omega
    have e2 : (g * n + 12) / 13 * 13 < (g + 1) * n := by
      have : (g + 1) * n = g * n + n := by ring
      omega
    apply le_antisymm
    · have := (Int.ediv_lt_iff_lt_mul (by omega : 0 < n)).mpr e2
      omega
    · exact (Int.le_ediv_iff_mul_le (by omega : 0 < n)).mpr e1

/-- C39, as the code has it: for every gear count `n` from 1 to 165,191,050 (the largest for
which the `int` product `gearIndex * 13` cannot overflow), the glyph classifier
`glyphAtIndex` restricted to the offsets `0 .. n-1` takes every one of the 13 glyph indices
`0 .. 12` if and only if `n ≥ 13`; and for `n ≥ 13` the glyph index of an offset and of the
next offset differ by at most 1 (it never decreases and rises by at most one). -/
theorem glyph_covers_all_iff (n : Int) (hn : 0 < n) (hb : n ≤ 165191050) :
    ((∀ g : Int, 0 ≤ g → g ≤ 12 → ∃ o : Int, 0 ≤ o ∧ o < n ∧ glyphAtIndex o n = g) ↔
      13 ≤ n) ∧
    (13 ≤ n → ∀ o : Int, 0 ≤ o → o + 1 < n →
      glyphAtIndex o n ≤ glyphAtIndex (o + 1) n ∧
      glyphAtIndex (o + 1) n ≤ glyphAtIndex o n + 1) := by
  refine ⟨⟨fun h => ?_, fun h g h0 h1 => ?_⟩, fun h o h0 h1 => ?_⟩
  · obtain ⟨o, ho0, ho1, hg⟩ := h 12 (by omega) (by omega)
    rw [(glyphAtIndex_eq o n hn hb ho0 ho1).1] at hg
    have := (Int.le_ediv_iff_mul_le hn).mp (le_of_eq hg.symm)
    omega
  · obtain ⟨o, ho0, ho1, hg⟩ := glyph_value_reached n g h h0 h1
    exact ⟨o, ho0, ho1, by rw [(glyphAtIndex_eq o n hn hb ho0 ho1).1, hg]⟩
  · rw [(glyphAtIndex_eq o n hn hb h0 (by omega)).1,
      (glyphAtIndex_eq (o + 1) n hn hb (by omega) h1).1]
    exact ⟨Int.ediv_le_ediv hn (by omega), glyph_succ_le o n h⟩

/-- Witness for C39 at 360 gears. -/
theorem glyph_covers_all_iff_witness :
    (0 : Int) < 360 ∧ (360 : Int) ≤ 165191050 ∧
    (((∀ g : Int, 0 ≤ g → g ≤ 12 → ∃ o : Int, 0 ≤ o ∧ o < 360 ∧ glyphAtIndex o 360 = g) ↔
      (13 : Int) ≤ 360) ∧
    ((13 : Int) ≤ 360 → ∀ o : Int, 0 ≤ o → o + 1 < 360 →
      glyphAtIndex o 360 ≤ glyphAtIndex (o + 1) 360 ∧
      glyphAtIndex (o + 1) 360 ≤ glyphAtIndex o 360 + 1)) :=
  ⟨by decide, by decide, glyph_covers_all_iff 360 (by decide) (by decide)⟩

end wa
namespace wa

end wa
namespace wa

theorem CpuBase.exec_frame (c : CpuBase) (ins : Instr) :
    (c.exec ins).1.ip = c.ip ∧ (c.exec ins).1.prog = c.prog ∧ (c.exec ins).1.cfg = c.cfg ∧
    (c.exec ins).1.R = c.R ∧ ((c.exec ins).2 ≠ none → (c.exec ins).1.halted = c.halted) := by
  unfold CpuBase.exec
  cases hop : ins.op
  · exact ⟨rfl, rfl, rfl, rfl, fun _ => rfl⟩
  · dsimp only
    split <;> exact ⟨rfl, rfl, rfl, rfl, fun _ => rfl⟩
  · dsimp only
    split <;> exact ⟨rfl, rfl, rfl, rfl, fun _ => rfl⟩
  · dsimp only
    split <;> exact ⟨rfl, rfl, rfl, rfl, fun _ => rfl⟩
  · dsimp only
    split <;> exact ⟨rfl, rfl, rfl, rfl, fun _ => rfl⟩
  · dsimp only
    split
    · split <;> exact ⟨rfl, rfl, rfl, rfl, fun _ => rfl⟩
    · exact ⟨rfl, rfl, rfl, rfl, fun _ => rfl⟩
    · exact ⟨rfl, rfl, rfl, rfl, fun _ => rfl⟩
    · exact ⟨rfl, rfl, rfl, rfl, fun _ => rfl⟩
  · exact ⟨rfl, rfl, rfl, rfl, fun _ => rfl⟩
  · exact ⟨rfl, rfl, rfl, rfl, fun _ => rfl⟩
  · exact ⟨rfl, rfl, rfl, rfl, fun h => absurd rfl h⟩

theorem CpuBase.step_halted_eq (c : CpuBase) (hh : c.halted = true) : c.step = (c, none) := by
  unfold CpuBase.step
  rw [if_pos hh]

theorem CpuBase.step_end_eq (c : CpuBase) (hh : c.halted = false) (hip : c.prog.length ≤ c.ip) :
    c.step = ({ c with halted := true }, none) := by
  unfold CpuBase.step
  rw [if_neg (by rw [hh]; decide), if_pos hip]

theorem CpuBase.step_frame (c c1 : CpuBase) (hs : c.step = (c1, none)) :
    c1.prog = c.prog ∧
    (c.halted = true → c1 = c) ∧
    (c.halted = false → c.prog.length ≤ c.ip → c1.ip = c.ip ∧ c1.halted = true) ∧
    (c.halted = false → c.ip < c.prog.length → c1.ip = c.ip + 1) := by
  by_cases hh : c.halted = true
  · have h := CpuBase.step_halted_eq c hh
    have e : c1 = c := by rw [h] at hs; exact (Prod.mk.inj hs).1.symm
    subst e
    have hne : c1.halted ≠ false := by rw [hh]; decide
    exact ⟨rfl, fun _ => rfl, fun h0 => absurd h0 hne, fun h0 => absurd h0 hne⟩
  · have hf : c.halted = false := by simpa using hh
    by_cases hip : c.prog.length ≤ c.ip
    · have h := CpuBase.step_end_eq c hf hip
      have e : c1 = { c with halted := true } := by
        rw [h] at hs; exact (Prod.mk.inj hs).1.symm
      subst e
      exact ⟨rfl, fun h0 => absurd h0 hh, fun _ _ => ⟨rfl, rfl⟩, fun _ h1 => by omega⟩
    · have hlt : c.ip < c.prog.length := by omega
      have hins : c.prog[c.ip]? = some (c.prog[c.ip]) := List.getElem?_eq_getElem hlt
      obtain ⟨c2, _, he, hc1⟩ := CpuBase.step_dispatch c c1 _ hf hins hs
      have hfr := CpuBase.exec_frame { c with m := (zodiacHook c).1 } (c.prog[c.ip])
      rw [he] at hfr
      subst hc1
      exact ⟨hfr.2.1, fun h0 => absurd h0 hh, fun _ h1 => by omega,
        fun _ _ => by show c2.ip + 1 = c.ip + 1; rw [hfr.1]⟩

theorem CpuBase.steps_halted (c : CpuBase) (hh : c.halted = true) :
    ∀ k : Nat, c.steps k = some c := by
  intro k
  induction k with
  | zero => rfl
  | succ k ih =>
    unfold CpuBase.steps
    rw [CpuBase.step_halted_eq c hh]
    exact ih

theorem CpuBase.steps_inv (p : List Instr) :
    ∀ (n : Nat) (c c1 : CpuBase), c.prog = p → c.ip ≤ p.length → c.steps n = some c1 →
      c1.prog = p ∧ c1.ip ≤ p.length := by
  intro n
  induction n with
  | zero =>
    intro c c1 hp hip hs
    unfold CpuBase.steps at hs
    cases hs
    exact ⟨hp, hip⟩
  | succ n ih =>
    intro c c1 hp hip hs
    unfold CpuBase.steps at hs
    split at hs
    · next c2 hc2 =>
      have hfr := CpuBase.step_frame c c2 hc2
      refine ih c2 c1 (by rw [hfr.1, hp]) ?_ hs
      by_cases hh : c.halted = true
      · rw [hfr.2.1 hh]; exact hip
      · have hf : c.halted = false := by simpa using hh
        by_cases hlen : c.prog.length ≤ c.ip
        · rw [(hfr.2.2.1 hf hlen).1]; exact hip
        · rw [hfr.2.2.2 hf (by omega), ← hp]; omega
    · cases hs

/-- C34: in every CPU state `c` reached from `loadProgram(p)` by any number `n` of `step()`
calls that returned normally, the program is still `p` and the instruction pointer is at most
the length of `p`. A further normally returning step from `c` that dispatches an instruction
(state not halted, pointer inside the program) increases the pointer by exactly 1; a step
that dispatches nothing leaves the pointer where it is. Once `halted` is true, any number of
further steps return normally and leave the whole state, the flag included, as it is. -/
theorem CpuBase.ip_bounded_halted_sticky (c0 : CpuBase) (p : List Instr) (n : Nat) (c : CpuBase)
    (hreach : (c0.loadProgram p).steps n = some c) :
    c.prog = p ∧ c.ip ≤ p.length ∧
    (∀ c1 : CpuBase, c.step = (c1, none) →
      (c.halted = false → c.ip < p.length → c1.ip = c.ip + 1) ∧
      (c.halted = true ∨ p.length ≤ c.ip → c1.ip = c.ip)) ∧
    (c.halted = true → ∀ k : Nat, c.steps k = some c) := by
  have hinv := CpuBase.steps_inv p n (c0.loadProgram p) c rfl (Nat.zero_le _) hreach
  refine ⟨hinv.1, hinv.2, fun c1 hs => ?_, fun hh => CpuBase.steps_halted c hh⟩
  have hfr := CpuBase.step_frame c c1 hs
  rw [hinv.1] at hfr
  refine ⟨fun hf hlt => hfr.2.2.2 hf hlt, fun h => ?_⟩
  by_cases hh : c.halted = true
  · rw [hfr.2.1 hh]
  · have hf : c.halted = false := by simpa using hh
    rcases h with h | h
    · exact absurd h hh
    · exact (hfr.2.2.1 hf h).1

/-- Witness for C34: the program `[HALT]` on the 10 x 360 machine, after two steps. -/
theorem CpuBase.ip_bounded_halted_sticky_witness :
    (({ cpu64 with m := machine10set }).loadProgram [insHalt]).steps 2 = some cpuHalt.step.1 ∧
    cpuHalt.step.1.ip = 1 ∧ cpuHalt.step.1.halted = true ∧
    cpuHalt.step.1.ip ≤ [insHalt].length :=
  ⟨by decide, by decide, by decide,
    (CpuBase.ip_bounded_halted_sticky { cpu64 with m := machine10set } [insHalt] 2
      cpuHalt.step.1 (by decide)).2.1⟩

end wa
namespace wa

theorem CpuBase.hook_fires_360 (c : CpuBase) (r0 : Ring) (hz : c.cfg.useZodiac = true)
    (hg : c.m.gearsPerRing = 360) (hr : c.m.ring 0 = .ok r0) (h0 : 0 ≤ r0.offset)
    (h1 : r0.offset < 360) : c.hookFires = true ↔ 333 ≤ r0.offset := by
  rw [CpuBase.hookFires_iff, hg]
  have hgl : activeGlyphFromOffset r0.offset 360 = .ok ((r0.offset * 13) / 360) := by
    rw [activeGlyphFromOffset_eq _ _ (by decide), Int.emod_eq_of_lt h0 h1,
      (glyphAtIndex_eq r0.offset 360 (by decide) (by decide) h0 h1).1]
  constructor
  · rintro ⟨_, r, hr2, hgl2⟩
    rw [hr] at hr2
    cases hr2
    rw [hgl] at hgl2
    have := Except.ok.inj hgl2
    omega
  · intro h
    refine ⟨hz, r0, hr, ?_⟩
    rw [hgl]
    congr 1
    omega

theorem CpuBase.step_nop (c : CpuBase) (ins : Instr) (hh : c.halted = false)
    (hins : c.prog[c.ip]? = some ins) (hop : ins.op = Op.NOP) :
    (c.hookFires = false → c.m.gearsPerRing ≠ 0 →
      c.step = ({ c with ip := c.ip + 1, m := c.m.tickAll 1 }, none)) ∧
    (c.hookFires = true →
      c.step = ({ c with ip := c.ip + 1, m := (c.m.tickAll 1).tickAll 1 }, none)) := by
  constructor
  · intro hk hg
    rw [CpuBase.step_eq_dispatch c ins c.m hh hins (zodiacHook_none c hk hg)]
    unfold CpuBase.dispatchAndTick CpuBase.exec
    rw [hop]
  · intro hk
    rw [CpuBase.step_eq_dispatch c ins _ hh hins (zodiacHook_fired c hk)]
    unfold CpuBase.dispatchAndTick CpuBase.exec
    rw [hop]

theorem Machine.uniform_ring (k : Nat) (r : Ring) (hk : 0 < k) :
    (Machine.mk (List.replicate k r)).ring 0 = .ok r ∧
    (Machine.mk (List.replicate k r)).gearsPerRing = r.gearCount ∧
    ((Machine.mk (List.replicate k r)).tickAll 1) = Machine.mk (List.replicate k (r.tick 1)) := by
  obtain ⟨j, rfl⟩ : ∃ j, k = j + 1 := ⟨k - 1, by omega⟩
  refine ⟨?_, ?_, ?_⟩
  · obtain ⟨rg, h1, h2⟩ := Machine.ring_ok (Machine.mk (List.replicate (j + 1) r)) 0
      (by omega) (by unfold Machine.ringCount; simp)
    rw [h2]
    simp [List.replicate_succ] at h1
    rw [h1]
  · simp [Machine.gearsPerRing, List.replicate_succ]
  · simp [Machine.tickAll]

theorem CpuBase.two_nops_uniform (c : CpuBase) (k : Nat) (i1 i2 : Instr) (rest : List Instr)
    (hk : 0 < k) (hz : c.cfg.useZodiac = true) (hh : c.halted = false) (hip : c.ip = 0)
    (hp : c.prog = i1 :: i2 :: rest) (h1 : i1.op = Op.NOP) (h2 : i2.op = Op.NOP)
    (hm : c.m = Machine.mk (List.replicate k
      (Ring.mk (List.replicate 360 (Gear.mk 0 20)) Dir.Right 0))) :
    c.hookFires = false ∧
    c.step = ({ c with ip := 1, m := Machine.mk (List.replicate k
      (Ring.mk (List.replicate 360 (Gear.mk 0 20)) Dir.Right 359)) }, none) ∧
    ({ c with ip := 1, m := Machine.mk (List.replicate k
      (Ring.mk (List.replicate 360 (Gear.mk 0 20)) Dir.Right 359)) } : CpuBase).hookFires
        = true ∧
    ({ c with ip := 1, m := Machine.mk (List.replicate k
      (Ring.mk (List.replicate 360 (Gear.mk 0 20)) Dir.Right 359)) } : CpuBase).step =
      ({ c with ip := 2, m := Machine.mk (List.replicate k
        (Ring.mk (List.replicate 360 (Gear.mk 0 20)) Dir.Right 357)) }, none) ∧
    ((Machine.mk (List.replicate k
      (Ring.mk (List.replicate 360 (Gear.mk 0 20)) Dir.Right 359))).tickAll 1).tickAll 1 =
      Machine.mk (List.replicate k
        (Ring.mk (List.replicate 360 (Gear.mk 0 20)) Dir.Right 357)) := by
  have ht1 : (Ring.mk (List.replicate 360 (Gear.mk 0 20)) Dir.Right 0).tick 1 =
      Ring.mk (List.replicate 360 (Gear.mk 0 20)) Dir.Right 359 := by decide
  have ht2 : (Ring.mk (List.replicate 360 (Gear.mk 0 20)) Dir.Right 359).tick 1 =
      Ring.mk (List.replicate 360 (Gear.mk 0 20)) Dir.Right 358 := by decide
  have ht3 : (Ring.mk (List.replicate 360 (Gear.mk 0 20)) Dir.Right 358).tick 1 =
      Ring.mk (List.replicate 360 (Gear.mk 0 20)) Dir.Right 357 := by decide
  have hu0 := Machine.uniform_ring k
    (Ring.mk (List.replicate 360 (Gear.mk 0 20)) Dir.Right 0) hk
  have hu1 := Machine.uniform_ring k
    (Ring.mk (List.replicate 360 (Gear.mk 0 20)) Dir.Right 359) hk
  have hu2 := Machine.uniform_ring k
    (Ring.mk (List.replicate 360 (Gear.mk 0 20)) Dir.Right 358) hk
  rw [ht1] at hu0
  rw [ht2] at hu1
  rw [ht3] at hu2
  have hg0 : c.m.gearsPerRing = 360 := by rw [hm, hu0.2.1]; decide
  have hf0 : c.hookFires = false := by
    cases hb : c.hookFires
    · rfl
    · have := (CpuBase.hook_fires_360 c _ hz hg0 (by rw [hm]; exact hu0.1)
        (by decide) (by decide)).mp hb
      exact absurd this (by decide)
  have hs1 := (CpuBase.step_nop c i1 hh (by rw [hp, hip]; rfl) h1).1 hf0
    (by rw [hg0]; decide)
  rw [hm, hu0.2.2, hip] at hs1
  obtain ⟨c1, hc1⟩ : ∃ c1 : CpuBase, c1 = { c with ip := 1, m := Machine.mk (List.replicate k
      (Ring.mk (List.replicate 360 (Gear.mk 0 20)) Dir.Right 359)) } := ⟨_, rfl⟩
  have hc1m : c1.m = Machine.mk (List.replicate k
      (Ring.mk (List.replicate 360 (Gear.mk 0 20)) Dir.Right 359)) := by rw [hc1]
  have hf1 : c1.hookFires = true :=
    (CpuBase.hook_fires_360 c1 (Ring.mk (List.replicate 360 (Gear.mk 0 20)) Dir.Right 359)
      (by rw [hc1]; exact hz) (by rw [hc1m, hu1.2.1]; decide) (by rw [hc1m]; exact hu1.1)
      (by decide) (by decide)).mpr (by decide)
  have hs2 := (CpuBase.step_nop c1 i2 (by rw [hc1]; exact hh)
      (by rw [hc1]; show c.prog[1]? = some i2; rw [hp]; simp) h2).2 hf1
  rw [hc1m, hu1.2.2, hu2.2.2] at hs2
  rw [hc1] at hf1 hs2
  have hm2 : ((Machine.mk (List.replicate k
      (Ring.mk (List.replicate 360 (Gear.mk 0 20)) Dir.Right 359))).tickAll 1).tickAll 1 =
      Machine.mk (List.replicate k
        (Ring.mk (List.replicate 360 (Gear.mk 0 20)) Dir.Right 357)) := by
    rw [hu1.2.2, hu2.2.2]
  refine ⟨hf0, ?_, hf1, ?_, hm2⟩
  · rw [hs1]
  · rw [hs2]

/-- C35: on a freshly constructed machine of one or more 360-gear rings, with a CPU of any
profile whose glyph hook is enabled and a program that starts with two `NOP`s, the hook does
not fire in the first `step()`, which leaves every ring at offset 359, where the active glyph
is `Z12`; so the hook fires in the second `step()`, which ticks twice and leaves every ring
at offset 357, with the instruction pointer at 2. More generally, in any state with the hook
enabled, 360 gears per ring and ring 0 at an offset in `[0, 360)`, the hook fires exactly
when that offset is at least 333, that is, in `[333, 359]`. -/
theorem CpuBase.two_nops_fire_hook (rings : Int) (cfg : CpuConfig) (m : Machine)
    (c0 : CpuBase) (i1 i2 : Instr) (rest : List Instr)
    (hr : 0 < rings) (hm : Machine.new rings 360 = .ok m) (hc : CpuBase.new m cfg = .ok c0)
    (hz : cfg.useZodiac = true) (h1 : i1.op = Op.NOP) (h2 : i2.op = Op.NOP) :
    (∃ c1 c2 : CpuBase,
      (c0.loadProgram (i1 :: i2 :: rest)).hookFires = false ∧
      (c0.loadProgram (i1 :: i2 :: rest)).step = (c1, none) ∧
      c1.m.rings.length = rings.toNat ∧
      (∀ rg ∈ c1.m.rings, rg.offset = 359 ∧ activeGlyphFromOffset rg.offset 360 = .ok 12) ∧
      c1.hookFires = true ∧
      c1.step = (c2, none) ∧ c2.m = (c1.m.tickAll 1).tickAll 1 ∧ c2.ip = 2 ∧
      c2.m.rings.length = rings.toNat ∧
      (∀ rg ∈ c2.m.rings, rg.offset = 357)) ∧
    (∀ (c : CpuBase) (r0 : Ring), c.cfg.useZodiac = true → c.m.gearsPerRing = 360 →
      c.m.ring 0 = .ok r0 → 0 ≤ r0.offset → r0.offset < 360 →
      (c.hookFires = true ↔ 333 ≤ r0.offset ∧ r0.offset ≤ 359)) := by
  refine ⟨?_, fun c r0 hz2 hg hr0 ho0 ho1 => ?_⟩
  swap
  · rw [CpuBase.hook_fires_360 c r0 hz2 hg hr0 ho0 ho1]
    constructor
    · intro h; exact ⟨h, by omega⟩
    · intro h; exact h.1
  obtain ⟨hc0m, hc0cfg, _⟩ := CpuBase.new_eq m cfg c0 hc
  have hk : 0 < rings.toNat := by omega
  have hmeq : m = Machine.mk (List.replicate rings.toNat
      (Ring.mk (List.replicate 360 (Gear.mk 0 20)) Dir.Right 0)) := by
    unfold Machine.new at hm
    rw [if_neg (by omega), if_neg (by omega), Ring.new_ok 360 20 (by decide)] at hm
    exact (Except.ok.inj hm).symm
  obtain ⟨hf0, hs1, hf1, hs2, hm2⟩ := CpuBase.two_nops_uniform
    (c0.loadProgram (i1 :: i2 :: rest)) rings.toNat i1 i2 rest hk
    (by show c0.cfg.useZodiac = true; rw [hc0cfg]; exact hz) rfl rfl rfl h1 h2
    (by show c0.m = _; rw [hc0m, hmeq])
  refine ⟨_, _, hf0, hs1, ?_, ?_, hf1, hs2, hm2.symm, rfl, ?_, ?_⟩
  · show (List.replicate _ _).length = _
    simp
  · intro rg hrg
    have := List.eq_of_mem_replicate hrg
    subst this
    exact ⟨rfl, rfl⟩
  · show (List.replicate _ _).length = _
    simp
  · intro rg hrg
    have := List.eq_of_mem_replicate hrg
    subst this
    rfl

/-- Witness for C35: the 10 x 360 machine, `CPU64`, and the program `[NOP, NOP]`. -/
theorem CpuBase.two_nops_fire_hook_witness :
    Machine.new 10 360 = .ok machine10 ∧ CPU64 machine10 = .ok cpu64 ∧
    ∃ c1 c2 : CpuBase,
      (cpu64.loadProgram [insNop, insNop]).hookFires = false ∧
      (cpu64.loadProgram [insNop, insNop]).step = (c1, none) ∧
      c1.m.rings.length = (10 : Int).toNat ∧
      (∀ rg ∈ c1.m.rings, rg.offset = 359 ∧ activeGlyphFromOffset rg.offset 360 = .ok 12) ∧
      c1.hookFires = true ∧
      c1.step = (c2, none) ∧ c2.m = (c1.m.tickAll 1).tickAll 1 ∧ c2.ip = 2 ∧
      c2.m.rings.length = (10 : Int).toNat ∧
      (∀ rg ∈ c2.m.rings, rg.offset = 357) :=
  ⟨rfl, rfl, (CpuBase.two_nops_fire_hook 10 cpu64.cfg machine10 cpu64 insNop insNop []
    (by decide) rfl rfl rfl rfl rfl).1⟩

end wa
namespace wa

theorem rings_eq_of_shape_gears :
    ∀ (l1 l2 : List Ring),
      l1.map (fun rg => (rg.gears.length, rg.offset, rg.dir)) =
        l2.map (fun rg => (rg.gears.length, rg.offset, rg.dir)) →
      l1.map (fun rg => rg.gears) = l2.map (fun rg => rg.gears) → l1 = l2 := by
  intro l1
  induction l1 with
  | nil =>
    intro l2 hs _
    cases l2 with
    | nil => rfl
    | cons b t => simp at hs
  | cons a t ih =>
    intro l2 hs hg
    cases l2 with
    | nil => simp at hs
    | cons b t2 =>
      simp only [List.map_cons, List.cons.injEq, Prod.mk.injEq] at hs hg
      obtain ⟨⟨_, ho, hd⟩, hs2⟩ := hs
      obtain ⟨hg1, hg2⟩ := hg
      have hab : a = b := by
        cases a
        cases b
        simp only at ho hd hg1
        subst ho hd hg1
        rfl
      rw [hab, ih t2 hs2 hg2]

theorem CpuBase.exec_fail_shape (c : CpuBase) (ins : Instr) (h : (c.exec ins).2 ≠ none) :
    (c.exec ins).1.m.shape = c.m.shape := by
  by_cases h1 : ins.op = Op.SHIFT_RING
  · unfold CpuBase.exec at h ⊢
    rw [h1] at h ⊢
    dsimp only at h ⊢
    unfold Machine.shiftRing at h ⊢
    cases hr : c.m.ring ins.imm with
    | error e => rfl
    | ok rg =>
      rw [hr] at h
      exact absurd rfl h
  · by_cases h2 : ins.op = Op.TICK_ALL
    · unfold CpuBase.exec at h
      rw [h2] at h
      exact absurd rfl h
    · exact CpuBase.exec_shape c ins h1 h2

theorem zodiacHook_ringCount (c : CpuBase) : (zodiacHook c).1.ringCount = c.m.ringCount := by
  cases hk : c.hookFires
  · rw [zodiacHook_not_fired c hk]
  · rw [zodiacHook_fired c hk]
    simp [Machine.tickAll, Machine.ringCount]

/-- C38: failure of the dispatch inside `step()`. In a state that is not halted, with the
instruction pointer on instruction `ins`, when the glyph hook returns normally leaving
machine `m1` and the dispatch of `ins` on it throws `e`, then `step()` throws `e` and leaves
exactly the state the failed dispatch left: the instruction pointer, the halted flag, the
program, the configuration and the registers are unchanged, and the end-of-step tick is not
performed (every ring has the gear count, offset and direction the hook left). If moreover
the hook did not fire and no cell was changed before the failure, the whole state, machine
included, is as before the step. A failing `SHIFT_RING` is such a case: its error is the
ring out-of-range error and, when the hook did not fire, it leaves the whole state as it
was. -/
theorem CpuBase.step_dispatch_failure (c c2 : CpuBase) (ins : Instr) (m1 : Machine) (e : Exn)
    (hh : c.halted = false) (hins : c.prog[c.ip]? = some ins)
    (hz : zodiacHook c = (m1, none))
    (he : CpuBase.exec { c with m := m1 } ins = (c2, some e)) :
    c.step = (c2, some e) ∧
    c2.ip = c.ip ∧ c2.halted = false ∧ c2.prog = c.prog ∧ c2.cfg = c.cfg ∧ c2.R = c.R ∧
    c2.m.shape = m1.shape ∧
    (c.hookFires = false →
      c2.m.rings.map (fun rg => rg.gears) = c.m.rings.map (fun rg => rg.gears) → c2 = c) ∧
    (ins.op = Op.SHIFT_RING →
      e = Exn.ring_out_of_range ∧ (ins.imm < 0 ∨ c.m.ringCount ≤ ins.imm) ∧
      (c.hookFires = false → c2 = c)) := by
  have hstep : c.step = (c2, some e) := by
    rw [CpuBase.step_eq_dispatch c ins m1 hh hins hz]
    unfold CpuBase.dispatchAndTick
    rw [he]
  have hfr := CpuBase.exec_frame { c with m := m1 } ins
  have hsh := CpuBase.exec_fail_shape { c with m := m1 } ins (by rw [he]; simp)
  rw [he] at hfr hsh
  obtain ⟨hip, hprog, hcfg, hR, hhalt⟩ := hfr
  have hhalt2 : c2.halted = false := by
    rw [hhalt (by simp)]
    exact hh
  have hwhole : c.hookFires = false →
      c2.m.rings.map (fun rg => rg.gears) = c.m.rings.map (fun rg => rg.gears) → c2 = c := by
    intro hk hg
    have hm1 : m1 = c.m := by
      have := zodiacHook_not_fired c hk
      rw [hz] at this
      exact this
    rw [hm1] at hsh
    have hm : c2.m = c.m := by
      have := rings_eq_of_shape_gears c2.m.rings c.m.rings hsh hg
      cases hc2 : c2.m
      cases hcm : c.m
      rw [hc2, hcm] at this
      simp only at this
      rw [this]
    cases c2
    cases c
    simp only at hip hprog hcfg hR hhalt2 hh hm
    subst hip hprog hcfg hR hm
    rw [hhalt2, hh]
  refine ⟨hstep, hip, hhalt2, hprog, hcfg, hR, hsh, hwhole, fun hop => ?_⟩
  have hrc : m1.ringCount = c.m.ringCount := by
    have := zodiacHook_ringCount c
    rw [hz] at this
    exact this
  have hrange : ins.imm < 0 ∨ m1.ringCount ≤ ins.imm := by
    by_contra hcon
    obtain ⟨rg, _, hrg⟩ := Machine.ring_ok m1 ins.imm (by omega) (by omega)
    unfold CpuBase.exec at he
    rw [hop] at he
    dsimp only at he
    unfold Machine.shiftRing at he
    rw [hrg] at he
    cases he
  have herr := Machine.ring_err m1 ins.imm hrange
  unfold CpuBase.exec at he
  rw [hop] at he
  dsimp only at he
  unfold Machine.shiftRing at he
  rw [herr] at he
  simp only [Prod.mk.injEq, Option.some.injEq] at he
  refine ⟨he.2.symm, by rw [← hrc]; exact hrange, fun hk => ?_⟩
  have hm1 : m1 = c.m := by
    have := zodiacHook_not_fired c hk
    rw [hz] at this
    exact this
  rw [← he.1, hm1]

/-- Witness for C38: `CPU720` on the 10 x 360 machine running `MOV 0, 5`, whose source
register lies on ring 10, which does not exist; the first bit read fails. -/
theorem CpuBase.step_dispatch_failure_witness :
    cpuMovBad.halted = false ∧ cpuMovBad.prog[cpuMovBad.ip]? = some insMov05 ∧
    zodiacHook cpuMovBad = (machine10, none) ∧
    cpuMovBad.step = (cpuMovBad, some Exn.ring_out_of_range) :=
  ⟨rfl, rfl, by decide,
    (CpuBase.step_dispatch_failure cpuMovBad cpuMovBad insMov05 machine10
      Exn.ring_out_of_range rfl rfl (by decide) (by decide)).1⟩

end wa
namespace wa

theorem regDumpBits_ok (m : Machine) (w : WordRef) (hv : w.valid m) :
    ∀ (count i : Nat) (acc : String), (i : Int) + count ≤ word_bits w.size →
      ∃ s : String, regDumpBits m w count (i : Int) acc = .ok s := by
  intro count
  induction count with
  | zero => intro i acc _; exact ⟨acc, rfl⟩
  | succ n ih =>
    intro i acc h
    unfold regDumpBits
    rw [(get_word_bit_ok m w hv i (by omega)).2]
    dsimp only
    have := ih (i + 1) (acc ++ toString (wordBit m w i)) (by push_cast; omega)
    push_cast at this
    exact this

theorem regDumpBits_err (m : Machine) (w : WordRef) (e : Exn) (count : Nat) (i : Int)
    (acc : String) (h : get_word_bit m w i = .error e) :
    regDumpBits m w (count + 1) i acc = .error e := by
  unfold regDumpBits
  rw [h]

theorem regDumpRegs_fail (cpu : CpuBase) (c : Int) (k : Nat) (wbad : WordRef) (e : Exn)
    (hc : 1 ≤ c)
    (hgood : ∀ r : Nat, r < k → ∃ w : WordRef, cpu.reg (r : Int) = .ok w ∧ w.valid cpu.m ∧
      c ≤ word_bits w.size)
    (hbad : cpu.reg (k : Int) = .ok wbad) (hget : get_word_bit cpu.m wbad 0 = .error e) :
    ∀ (count r : Nat) (acc : String), r ≤ k → k < r + count →
      regDumpRegs cpu c count (r : Int) acc = .error e := by
  intro count
  induction count with
  | zero => intro r acc h1 h2; omega
  | succ n ih =>
    intro r acc h1 h2
    unfold regDumpRegs
    by_cases hrk : r = k
    · subst hrk
      rw [hbad]
      dsimp only
      obtain ⟨j, hj⟩ : ∃ j, c.toNat = j + 1 := ⟨c.toNat - 1, by omega⟩
      rw [hj, regDumpBits_err _ _ e _ _ _ hget]
    · obtain ⟨w, hw, hv, hcw⟩ := hgood r (by omega)
      rw [hw]
      dsimp only
      obtain ⟨s, hs⟩ := regDumpBits_ok cpu.m w hv c.toNat 0
        (acc ++ "R" ++ toString (r : Int) ++ ": ") (by push_cast; omega)
      rw [show ((0 : Nat) : Int) = 0 from rfl] at hs
      rw [hs]
      dsimp only
      have := ih (r + 1) (s ++ "\n") (by omega) (by omega)
      push_cast at this
      exact this

theorem w720_valid (m : Machine) (r : Int) (h0 : 0 ≤ r) (h1 : r * 2 + 1 < m.ringCount)
    (hg : ∀ q : Int, 0 ≤ q → q < m.ringCount → m.gearsOf q = 360) :
    (makeReg WordSize.W720 r).valid m := by
  unfold WordRef.valid
  constructor
  · intro s hs
    simp [makeReg, WordRef.w720, WordRef.segments] at hs
    rcases hs with rfl | rfl
    · exact ⟨by dsimp only; omega, by dsimp only; omega, le_refl _,
        by rw [hg _ (by omega) (by omega)]⟩
    · exact ⟨by dsimp only; omega, by dsimp only; omega, le_refl _,
        by rw [hg _ (by omega) (by omega)]⟩
  · intro _
    simp [makeReg, WordRef.w720]

theorem w720_missing_ring (m : Machine) (r i : Int) (h : m.ringCount ≤ r * 2) (h0 : 0 ≤ i)
    (h1 : i < 720) :
    get_word_bit m (makeReg WordSize.W720 r) i = .error .ring_out_of_range ∧
    ∀ v : Nat, set_word_bit m (makeReg WordSize.W720 r) i v = (m, some .ring_out_of_range) := by
  have hsz : word_bits (makeReg WordSize.W720 r).size = 720 := by rw [makeReg_size]; rfl
  have hmk : makeReg WordSize.W720 r = WordRef.w720 (r * 2) (r * 2 + 1) := rfl
  have hcell : m.ringCount ≤ ((makeReg WordSize.W720 r).cell i).1 := by
    rw [hmk]
    unfold WordRef.w720 WordRef.cell
    dsimp only
    split
    · dsimp only; omega
    · dsimp only; omega
  have herr := Machine.ring_err m _ (Or.inr hcell)
  constructor
  · rw [get_word_bit_eq m _ i h0 (by rw [hsz]; exact h1)]
    unfold Machine.getBit
    rw [herr]
  · intro v
    rw [set_word_bit_eq m _ i v h0 (by rw [hsz]; exact h1)]
    unfold Machine.setBit
    rw [herr]

theorem Machine.gearsOf_uniform (m : Machine) (g : Int)
    (hg : ∀ rg ∈ m.rings, rg.gearCount = g) (q : Int) (h0 : 0 ≤ q) (h1 : q < m.ringCount) :
    m.gearsOf q = g := by
  obtain ⟨rg, hrg, _⟩ := Machine.ring_ok m q h0 h1
  unfold Machine.gearsOf
  rw [hrg]
  exact hg rg (List.getElem?_mem hrg)

/-- C36: a register of the 720-bit profile is accessible only when its second ring exists.
On any machine, if every bit of the 720-bit register `r` can be read, then ring `2r` and
ring `2r + 1` exist. With `CPU720` (8 registers) on a machine of ten 360-gear rings, in any
state of its cells and offsets: every bit of registers 0 to 4 can be read and written;
every read and every write of a bit of register 5, 6 or 7 fails with the ring out-of-range
error, the write leaving the machine unchanged; and `regDump` fails with that error whenever
it is asked for at least one bit per register (its default is 64). -/
theorem CpuBase.cpu720_on_ten_rings (m : Machine) (c0 : CpuBase) (hc : CPU720 m = .ok c0)
    (hrings : m.ringCount = 10) (hgears : ∀ rg ∈ m.rings, rg.gearCount = 360) :
    (∀ (m2 : Machine) (r : Int),
      (∀ i : Int, 0 ≤ i → i < 720 →
        ∃ b : Nat, get_word_bit m2 (makeReg WordSize.W720 r) i = .ok b) →
      0 ≤ r * 2 ∧ r * 2 + 1 < m2.ringCount) ∧
    (∀ r i : Int, 0 ≤ r → r ≤ 4 → 0 ≤ i → i < 720 →
      ∃ (w : WordRef) (b : Nat), c0.reg r = .ok w ∧ get_word_bit c0.m w i = .ok b ∧
        ∀ v : Nat, ∃ m1 : Machine, set_word_bit c0.m w i v = (m1, none)) ∧
    (∀ r i : Int, 5 ≤ r → r ≤ 7 → 0 ≤ i → i < 720 →
      ∃ w : WordRef, c0.reg r = .ok w ∧
        get_word_bit c0.m w i = .error .ring_out_of_range ∧
        ∀ v : Nat, set_word_bit c0.m w i v = (c0.m, some .ring_out_of_range)) ∧
    (∀ countBits : Int, 1 ≤ countBits → c0.regDump countBits = .error .ring_out_of_range) := by
  obtain ⟨hm, hcfg, hR⟩ := CpuBase.new_eq m _ c0 hc
  have hbank : c0.R = registerBank c0.cfg := by rw [hR, hcfg]; rfl
  have hws : c0.cfg.wordSize = WordSize.W720 := by rw [hcfg]
  have hreg : ∀ r : Int, 0 ≤ r → r < 8 → c0.reg r = .ok (makeReg WordSize.W720 r) := by
    intro r h0 h1
    have := CpuBase.reg_of_bank c0 hbank r h0 (by rw [hcfg]; exact h1)
    rw [hws] at this
    exact this
  have hg : ∀ q : Int, 0 ≤ q → q < m.ringCount → m.gearsOf q = 360 :=
    Machine.gearsOf_uniform m 360 hgears
  have hvalid : ∀ r : Int, 0 ≤ r → r ≤ 4 → (makeReg WordSize.W720 r).valid m :=
    fun r h0 h1 => w720_valid m r h0 (by omega) hg
  rw [hm]
  refine ⟨fun m2 r hall => ?_, fun r i hr0 hr1 hi0 hi1 => ?_, fun r i hr0 hr1 hi0 hi1 => ?_,
    fun countBits hcb => ?_⟩
  · have hmk : makeReg WordSize.W720 r = WordRef.w720 (r * 2) (r * 2 + 1) := rfl
    have hsz : word_bits (makeReg WordSize.W720 r).size = 720 := rfl
    obtain ⟨b0, hb0⟩ := hall 0 (by omega) (by omega)
    obtain ⟨b1, hb1⟩ := hall 360 (by omega) (by omega)
    rw [get_word_bit_eq m2 _ 0 (by omega) (by rw [hsz]; omega)] at hb0
    rw [get_word_bit_eq m2 _ 360 (by omega) (by rw [hsz]; omega)] at hb1
    have c0e : ((makeReg WordSize.W720 r).cell 0).1 = r * 2 := rfl
    have c1e : ((makeReg WordSize.W720 r).cell 360).1 = r * 2 + 1 := rfl
    rw [c0e] at hb0
    rw [c1e] at hb1
    constructor
    · by_contra hneg
      have := Machine.ring_err m2 (r * 2) (Or.inl (by omega))
      unfold Machine.getBit at hb0
      rw [this] at hb0
      cases hb0
    · by_contra hneg
      have := Machine.ring_err m2 (r * 2 + 1) (Or.inr (by omega))
      unfold Machine.getBit at hb1
      rw [this] at hb1
      cases hb1
  · have hv := hvalid r hr0 hr1
    have hsz : word_bits (makeReg WordSize.W720 r).size = 720 := rfl
    have hget := (get_word_bit_ok m _ hv i.toNat (by rw [hsz]; omega)).2
    rw [Int.toNat_of_nonneg hi0] at hget
    refine ⟨_, _, hreg r hr0 (by omega), hget, fun v => ?_⟩
    obtain ⟨m1, hm1, _⟩ := set_word_bit_ok m _ hv i v hi0 (by rw [hsz]; omega)
    exact ⟨m1, hm1⟩
  · have := w720_missing_ring m r i (by omega) hi0 hi1
    exact ⟨_, hreg r (by omega) (by omega), this.1, this.2⟩
  · unfold CpuBase.regDump
    have hlen : c0.R.length = 8 := by rw [hR]; simp
    have hwb : word_bits c0.cfg.wordSize = 720 := by rw [hws]; rfl
    rw [hlen, hwb]
    dsimp only
    have h5 := hreg 5 (by omega) (by omega)
    refine regDumpRegs_fail c0 _ 5 (makeReg WordSize.W720 5) _ ?_ ?_ h5 ?_ 8 0 "" (by omega)
      (by omega)
    · split <;> omega
    · intro r hr
      refine ⟨_, hreg r (by omega) (by omega), ?_, ?_⟩
      · rw [hm]; exact hvalid r (by omega) (by omega)
      · rw [show word_bits (makeReg WordSize.W720 (r : Int)).size = 720 from rfl]
        split <;> omega
    · rw [hm]
      exact (w720_missing_ring m 5 0 (by omega) (by omega) (by omega)).1

/-- Witness for C36 on the console's machine `Machine(10, 360)`. -/
theorem CpuBase.cpu720_on_ten_rings_witness :
    CPU720 machine10 = .ok cpu720 ∧ machine10.ringCount = 10 ∧
    (∀ rg ∈ machine10.rings, rg.gearCount = 360) ∧
    cpu720.regDump 64 = .error .ring_out_of_range :=
  ⟨rfl, by decide, by decide,
    (CpuBase.cpu720_on_ten_rings machine10 cpu720 rfl (by decide) (by decide)).2.2.2 64
      (by decide)⟩

end wa
namespace wa

theorem WordRef.disjoint_symm (w1 w2 : WordRef) (h : w1.disjoint w2) : w2.disjoint w1 := by
  intro s hs t ht
  rcases h t ht s hs with h1 | h1 | h1
  · exact Or.inl (Ne.symm h1)
  · exact Or.inr (Or.inr h1)
  · exact Or.inr (Or.inl h1)

theorem bitwise_same_or_disjoint (f : Nat → Nat → Nat)
    (body : Int → Machine → Machine × Option Exn) (a b out : WordRef) (m : Machine)
    (hbody : ∀ (i : Int) (s : Machine), body i s =
      match get_word_bit s a i with
      | .error e => (s, some e)
      | .ok x =>
        match get_word_bit s b i with
        | .error e => (s, some e)
        | .ok y => set_word_bit s out i (f x y))
    (ha : a.valid m) (hb : b.valid m) (ho : out.valid m)
    (hsb : b.size = a.size) (hso : out.size = a.size)
    (h1 : out = a ∨ out.disjoint a) (h2 : out = b ∨ out.disjoint b) :
    ∃ m1 : Machine, forLoop body (word_bits a.size).toNat 0 m = (m1, none) ∧
      ∀ k : Nat, k < (word_bits a.size).toNat →
        get_word_bit m1 out (k : Int) = .ok (f (wordBit m a k) (wordBit m b k) % 2) := by
  obtain ⟨m1, hrun, -, -, hout⟩ := bitwise_loop f body a b out m hbody ha hb ho
    (le_of_eq (congrArg word_bits hsb.symm)) (le_of_eq (congrArg word_bits hso.symm))
    (same_or_disjoint_no_clobber m out a ho hso h1)
    (fun k i hki hi => same_or_disjoint_no_clobber m out b ho (hso.trans hsb.symm) h2 k i hki
      (by rw [hsb]; exact hi))
  exact ⟨m1, hrun, hout⟩

theorem add_same_or_disjoint (a b out : WordRef) (m : Machine)
    (ha : a.valid m) (hb : b.valid m) (ho : out.valid m)
    (hsb : b.size = a.size) (hso : out.size = a.size)
    (h1 : out = a ∨ out.disjoint a) (h2 : out = b ∨ out.disjoint b) :
    ∃ m1 : Machine,
      alu_add m a b out =
        (m1, .ok (carryAt (wordBit m a) (wordBit m b) (word_bits a.size).toNat)) ∧
      ∀ k : Nat, k < (word_bits a.size).toNat →
        get_word_bit m1 out (k : Int) = .ok (sumBit (wordBit m a) (wordBit m b) k) := by
  obtain ⟨m1, hrun, -, -, hout⟩ := add_loop a b out m ha hb ho
    (le_of_eq (congrArg word_bits hsb.symm)) (le_of_eq (congrArg word_bits hso.symm))
    (same_or_disjoint_no_clobber m out a ho hso h1)
    (fun k i hki hi => same_or_disjoint_no_clobber m out b ho (hso.trans hsb.symm) h2 k i hki
      (by rw [hsb]; exact hi))
  exact ⟨m1, hrun, hout⟩

theorem in_place_conditions (m : Machine) (a b out : WordRef) (ha : a.valid m)
    (hb : b.valid m) (hsb : b.size = a.size) (hab : a = b ∨ a.disjoint b)
    (hout : out = a ∨ out = b) :
    out.valid m ∧ out.size = a.size ∧ (out = a ∨ out.disjoint a) ∧
      (out = b ∨ out.disjoint b) := by
  rcases hout with rfl | rfl
  · exact ⟨ha, rfl, Or.inl rfl, hab⟩
  · refine ⟨hb, hsb, ?_, Or.inl rfl⟩
    rcases hab with h | h
    · exact Or.inl h.symm
    · exact Or.inr (WordRef.disjoint_symm _ _ h)

end wa
namespace wa

/-! ## The flat word-bank computer -/

theorem foldl_range_inv {σ : Type} (f : σ → Nat → σ) (P : Nat → σ → Prop) (init : σ)
    (h0 : P 0 init) :
    ∀ n : Nat, (∀ (i : Nat) (s : σ), i < n → P i s → P (i + 1) (f s i)) →
      P n ((List.range n).foldl f init) := by
  intro n
  induction n with
  | zero => intro _; exact h0
  | succ k ih =>
    intro hstep
    rw [List.range_succ, List.foldl_append]
    exact hstep k _ (by omega) (ih (fun i s hi hp => hstep i s (by omega) hp))

theorem u64ToBits_eq (v : Nat) (width : Int) (hw : 0 ≤ width) :
    ∃ l : List Nat, u64ToBits v width = .ok l ∧ l.length = width.toNat ∧
      ∀ j : Nat, j < width.toNat → j < 64 → l[j]? = some (v / 2 ^ j % 2) := by
  unfold u64ToBits
  rw [if_neg (by omega)]
  refine ⟨_, rfl, ?_⟩
  dsimp only
  have hn : (if width < 64 then width else 64).toNat ≤ width.toNat ∧
      (if width < 64 then width else 64).toNat ≤ 64 ∧
      (width.toNat ≤ (if width < 64 then width else 64).toNat ∨
        64 ≤ (if width < 64 then width else 64).toNat) := by
    split <;> omega
  have key := foldl_range_inv (fun out (i : Nat) => out.set i ((v >>> i) % 2))
    (fun k (out : List Nat) => out.length = width.toNat ∧
       ∀ j : Nat, j < k → out[j]? = some (v / 2 ^ j % 2))
    (List.replicate width.toNat 0) ⟨by simp, fun j hj => by omega⟩
    (if width < 64 then width else 64).toNat ?_
  · refine ⟨key.1, fun j hj hj64 => key.2 j (by omega)⟩
  · intro i s hi ⟨hlen, hget⟩
    refine ⟨by rw [List.length_set]; exact hlen, fun j hj => ?_⟩
    rw [List.getElem?_set]
    by_cases hij : i = j
    · subst hij
      rw [if_pos rfl, if_pos (by omega), Nat.shiftRight_eq_div_pow]
    · rw [if_neg hij]
      exact hget j (by omega)

theorem xor3_bit (x y c : Nat) (hx : x < 2) (hy : y < 2) (hc : c < 2) :
    (x ^^^ y ^^^ c) % 256 = (x + y + c) % 2 := by
  interval_cases x <;> interval_cases y <;> interval_cases c <;> rfl

theorem addWords_eq (a b : List Nat) (h : a.length = b.length) :
    ∃ l : List Nat, addWords a b = .ok l ∧ l.length = a.length ∧
      ∀ j : Nat, j < a.length →
        l[j]? = some (sumBit (fun i => a[i]?.getD 0 % 2) (fun i => b[i]?.getD 0 % 2) j) := by
  unfold addWords
  rw [if_neg (by simpa using h)]
  refine ⟨_, rfl, ?_⟩
  have key := foldl_range_inv (fun (s : List Nat × Nat) (i : Nat) =>
        let x := (a[i]?.getD 0) % 2
        let y := (b[i]?.getD 0) % 2
        (s.1.set i ((x ^^^ y ^^^ s.2) % 256),
          ((x &&& y) ||| (x &&& s.2) ||| (y &&& s.2)) % 256))
    (fun k (s : List Nat × Nat) => s.1.length = a.length ∧
       s.2 = carryAt (fun i => a[i]?.getD 0 % 2) (fun i => b[i]?.getD 0 % 2) k ∧
       ∀ j : Nat, j < k →
         s.1[j]? = some (sumBit (fun i => a[i]?.getD 0 % 2) (fun i => b[i]?.getD 0 % 2) j))
    (List.replicate a.length 0, 0) ⟨by simp, rfl, fun j hj => by omega⟩ a.length ?_
  · exact ⟨key.1, fun j hj => key.2.2 j hj⟩
  · intro i s hi ⟨hlen, hcar, hget⟩
    have hx : a[i]?.getD 0 % 2 < 2 := Nat.mod_lt _ (by decide)
    have hy : b[i]?.getD 0 % 2 < 2 := Nat.mod_lt _ (by decide)
    have hc : s.2 < 2 := by
      rw [hcar]
      exact carryAt_lt _ _ i (fun _ _ => Nat.mod_lt _ (by decide))
        (fun _ _ => Nat.mod_lt _ (by decide))
    dsimp only
    refine ⟨by rw [List.length_set]; exact hlen, ?_, fun j hj => ?_⟩
    · rw [(full_adder_bits _ _ _ hx hy hc).2, hcar]
      rfl
    · rw [List.getElem?_set]
      by_cases hij : i = j
      · subst hij
        rw [if_pos rfl, if_pos (by omega), xor3_bit _ _ _ hx hy hc, hcar]
        rfl
      · rw [if_neg hij]
        exact hget j (by omega)

theorem or_shift_bit (v b k : Nat) (hv : v < 2 ^ k) : v ||| (b <<< k) = v + b * 2 ^ k := by
  rw [Nat.shiftLeft_eq, Nat.or_comm, Nat.mul_comm b, ← Nat.mul_add_lt_is_or hv b]
  omega

theorem bitsToU64_eq (l : List Nat) :
    bitsToU64 l = bitsValue (fun j => l[j]?.getD 0 % 2) (min l.length 64) := by
  unfold bitsToU64
  have hn : (if l.length < 64 then l.length else 64) = min l.length 64 := by
    split <;> omega
  rw [hn]
  dsimp only
  refine foldl_range_inv (fun v (i : Nat) => v ||| (((l[i]?.getD 0) % 2) <<< i))
    (fun k v => v = bitsValue (fun j => l[j]?.getD 0 % 2) k) 0 rfl _ ?_
  intro i s _ hs
  show s ||| (l[i]?.getD 0 % 2) <<< i = _
  rw [hs, or_shift_bit _ _ _ (bitsValue_lt _ i (fun _ _ => Nat.mod_lt _ (by decide)))]
  rfl

theorem bitsValue_of_nat (v n : Nat) : bitsValue (fun j => v / 2 ^ j % 2) n = v % 2 ^ n := by
  induction n with
  | zero => simp [bitsValue, Nat.mod_one]
  | succ k ih =>
    rw [Nat.mod_pow_succ, ← ih, Nat.mul_comm]
    rfl

theorem bitsToU64_of_bits (v : Nat) (l : List Nat)
    (hl : ∀ j : Nat, j < l.length → j < 64 → l[j]? = some (v / 2 ^ j % 2)) :
    bitsToU64 l = v % 2 ^ (min l.length 64) := by
  rw [bitsToU64_eq, ← bitsValue_of_nat]
  apply bitsValue_congr
  intro j hj
  rw [hl j (by omega) (by omega)]
  simp

theorem GearRegisterBank.getU64_ok (g : GearRegisterBank) (r : Int)
    (hc : g.count = g.regs.length) (h0 : 0 ≤ r) (h1 : r < g.count) :
    ∃ w : List Nat, g.regs[r.toNat]? = some w ∧ g.getU64 r = .ok (bitsToU64 w) := by
  have hlt : r.toNat < g.regs.length := by omega
  refine ⟨g.regs[r.toNat], List.getElem?_eq_getElem hlt, ?_⟩
  unfold GearRegisterBank.getU64 GearRegisterBank.checkReg
  rw [if_neg (by omega)]
  dsimp only
  rw [List.getElem?_eq_getElem hlt]

theorem GearRegisterBank.setU64_ok (g : GearRegisterBank) (r : Int) (v : Nat)
    (hc : g.count = g.regs.length) (h0 : 0 ≤ r) (h1 : r < g.count) (hw : 0 ≤ g.wordBits) :
    ∃ w : List Nat, u64ToBits v g.wordBits = .ok w ∧
      g.setU64 r v = ({ g with regs := g.regs.set r.toNat w }, none) := by
  obtain ⟨w, hw1, _⟩ := u64ToBits_eq v g.wordBits hw
  refine ⟨w, hw1, ?_⟩
  unfold GearRegisterBank.setU64 GearRegisterBank.checkReg
  rw [if_neg (by omega)]
  dsimp only
  rw [hw1]
  dsimp only
  rw [if_pos (by omega)]

theorem add_value (vb vc : Nat) (W : Nat) (bitsA bitsB bitsS : List Nat)
    (hA : bitsA.length = W ∧ ∀ j : Nat, j < W → j < 64 → bitsA[j]? = some (vb / 2 ^ j % 2))
    (hB : bitsB.length = W ∧ ∀ j : Nat, j < W → j < 64 → bitsB[j]? = some (vc / 2 ^ j % 2))
    (hS : bitsS.length = W ∧ ∀ j : Nat, j < W →
      bitsS[j]? = some (sumBit (fun i => bitsA[i]?.getD 0 % 2)
        (fun i => bitsB[i]?.getD 0 % 2) j)) :
    bitsToU64 (bitsS.map (fun x => x % 2)) = (vb + vc) % 2 ^ (min W 64) := by
  rw [bitsToU64_eq, List.length_map, hS.1]
  have h1 : bitsValue (fun j => (bitsS.map (fun x => x % 2))[j]?.getD 0 % 2) (min W 64) =
      bitsValue (sumBit (fun i => vb / 2 ^ i % 2) (fun i => vc / 2 ^ i % 2)) (min W 64) := by
    apply bitsValue_congr
    intro j hj
    rw [List.getElem?_map, hS.2 j (by omega)]
    simp only [Option.map_some', Option.getD_some, Nat.mod_mod]
    have hcar : ∀ k : Nat, k ≤ j →
        carryAt (fun i => bitsA[i]?.getD 0 % 2) (fun i => bitsB[i]?.getD 0 % 2) k =
          carryAt (fun i => vb / 2 ^ i % 2) (fun i => vc / 2 ^ i % 2) k := by
      intro k
      induction k with
      | zero => intro _; rfl
      | succ n ih =>
        intro hn
        unfold carryAt
        rw [ih (by omega)]
        simp only [hA.2 n (by omega) (by omega), hB.2 n (by omega) (by omega),
          Option.getD_some, Nat.mod_mod]
    unfold sumBit
    rw [hcar j (le_refl _)]
    simp only [hA.2 j (by omega) (by omega), hB.2 j (by omega) (by omega),
      Option.getD_some, Nat.mod_mod]
  rw [h1]
  have hadd := adder_value (fun i => vb / 2 ^ i % 2) (fun i => vc / 2 ^ i % 2) (min W 64)
  rw [bitsValue_of_nat, bitsValue_of_nat] at hadd
  have hlt := bitsValue_lt (sumBit (fun i => vb / 2 ^ i % 2) (fun i => vc / 2 ^ i % 2))
    (min W 64) (fun i _ => Nat.mod_lt _ (by decide))
  have := (value_split _ _ _ _ hadd hlt).1
  rw [← this, ← Nat.add_mod]

/-- C33: `ADD` on the flat word-bank computer. In a state of a `MechanicalComputer` whose
bus and register bank have word width `W > 0` (64 by default), that is not halted and whose
instruction pointer is on an instruction `ADD a, b, c` with the three register indices inside
the bank, one `step()` returns normally and leaves `R[a] = (R[b] + R[c]) mod 2^min(W, 64)`,
where `R[b]` and `R[c]` are the register values before the step: modulo `2^64` for
`W = 64` and modulo `2^W` for `W < 64`. The instruction pointer has advanced by 1, the
halted flag and the program are unchanged, every other register holds the bits and the
value it held, and RAM and storage are unchanged. -/
theorem GearCPUCore.step_add (s : MechanicalComputer) (ins : GearInstr) (W : Int)
    (hW : 0 < W) (hbus : s.bus.widthBits = W) (hregs : s.regs.wordBits = W)
    (hcount : s.regs.count = s.regs.regs.length)
    (hh : s.halted = false) (hins : s.program[s.ip]? = some ins) (hop : ins.op = GearOp.ADD)
    (ha0 : 0 ≤ ins.a) (ha1 : ins.a < s.regs.count)
    (hb0 : 0 ≤ ins.b) (hb1 : ins.b < s.regs.count)
    (hc0 : 0 ≤ ins.c) (hc1 : ins.c < s.regs.count) :
    ∃ (vb vc : Nat) (s1 : MechanicalComputer),
      s.regs.getU64 ins.b = .ok vb ∧ s.regs.getU64 ins.c = .ok vc ∧
      GearCPUCore.step s = (s1, none) ∧
      s1.regs.getU64 ins.a = .ok ((vb + vc) % 2 ^ min W.toNat 64) ∧
      (W = 64 → s1.regs.getU64 ins.a = .ok ((vb + vc) % 2 ^ 64)) ∧
      (W < 64 → s1.regs.getU64 ins.a = .ok ((vb + vc) % 2 ^ W.toNat)) ∧
      s1.ip = s.ip + 1 ∧ s1.halted = false ∧ s1.program = s.program ∧
      (∀ r : Int, r ≠ ins.a → s1.regs.getU64 r = s.regs.getU64 r) ∧
      (∀ k : Nat, (k : Int) ≠ ins.a → s1.regs.regs[k]? = s.regs.regs[k]?) ∧
      s1.regs.count = s.regs.count ∧ s1.regs.wordBits = s.regs.wordBits ∧
      s1.ram = s.ram ∧ s1.storage = s.storage := by
  obtain ⟨wb, _, hvb⟩ := GearRegisterBank.getU64_ok s.regs ins.b hcount hb0 hb1
  obtain ⟨wc, _, hvc⟩ := GearRegisterBank.getU64_ok s.regs ins.c hcount hc0 hc1
  obtain ⟨bitsA, hA, hAlen, hAbits⟩ := u64ToBits_eq (bitsToU64 wb) W (by omega)
  obtain ⟨bitsB, hB, hBlen, hBbits⟩ := u64ToBits_eq (bitsToU64 wc) W (by omega)
  obtain ⟨bitsS, hS, hSlen, hSbits⟩ := addWords_eq bitsA bitsB (by rw [hAlen, hBlen])
  have hval := add_value (bitsToU64 wb) (bitsToU64 wc) W.toNat bitsA bitsB bitsS
    ⟨hAlen, hAbits⟩ ⟨hBlen, hBbits⟩
    ⟨by rw [hSlen, hAlen], fun j hj => hSbits j (by rw [hAlen]; exact hj)⟩
  obtain ⟨bitsR, hR, hset⟩ := GearRegisterBank.setU64_ok s.regs ins.a
    (bitsToU64 (bitsS.map (fun x => x % 2))) hcount ha0 ha1 (by omega)
  rw [hregs] at hR
  obtain ⟨bitsR2, hR2, hRlen, hRbits⟩ :=
    u64ToBits_eq (bitsToU64 (bitsS.map (fun x => x % 2))) W (by omega)
  rw [hR] at hR2
  cases hR2
  have hwrite : s.bus.writeBits bitsS =
      ({ s.bus with bits := bitsS.map (fun x => x % 2) }, none) := by
    unfold GearBus.writeBits
    rw [if_neg (by rw [hSlen, hAlen, hbus]; simp; omega)]
  have hip : ¬ s.ip ≥ s.program.length := by
    intro hge
    rw [List.getElem?_eq_none hge] at hins
    cases hins
  have hA2 : u64ToBits (bitsToU64 wb) s.bus.widthBits = .ok bitsA := by rw [hbus]; exact hA
  have hB2 : u64ToBits (bitsToU64 wc) s.bus.widthBits = .ok bitsB := by rw [hbus]; exact hB
  have hstep : GearCPUCore.step s =
      (GearCPUCore.advance { s with
        bus := { s.bus with bits := bitsS.map (fun x => x % 2) },
        regs := { s.regs with regs := s.regs.regs.set ins.a.toNat bitsR } }, none) := by
    unfold GearCPUCore.step
    rw [if_neg (by rw [hh]; decide), if_neg hip, hins]
    dsimp only
    unfold GearCPUCore.dispatch
    rw [hop]
    dsimp only
    unfold GearCPUCore.binop
    rw [hvb]
    dsimp only
    rw [hA2]
    dsimp only
    rw [hvc]
    dsimp only
    rw [hB2]
    dsimp only
    rw [hS]
    dsimp only
    rw [hwrite]
    dsimp only
    unfold GearBus.readBits
    dsimp only
    rw [hset]
  have hlt : ins.a.toNat < s.regs.regs.length := by omega
  have hget : ({ s.regs with regs := s.regs.regs.set ins.a.toNat bitsR } :
      GearRegisterBank).getU64 ins.a =
      .ok ((bitsToU64 wb + bitsToU64 wc) % 2 ^ min W.toNat 64) := by
    obtain ⟨w, hw, hgetw⟩ := GearRegisterBank.getU64_ok
      ({ s.regs with regs := s.regs.regs.set ins.a.toNat bitsR } : GearRegisterBank) ins.a
      (by show s.regs.count = _; rw [List.length_set]; exact hcount) ha0 ha1
    rw [hgetw]
    have hw2 : w = bitsR := by
      have : (s.regs.regs.set ins.a.toNat bitsR)[ins.a.toNat]? = some w := hw
      rw [List.getElem?_set_self hlt] at this
      exact (Option.some.inj this).symm
    rw [hw2, bitsToU64_of_bits _ bitsR (fun j hj hj64 => hRbits j (by omega) hj64), hRlen,
      hval]
    congr 1
    exact Nat.mod_mod _ _
  refine ⟨_, _, _, hvb, hvc, hstep, hget, fun h64 => ?_, fun hlt64 => ?_, rfl, hh, rfl,
    fun r hr => ?_, fun k hk => ?_, rfl, rfl, rfl, rfl⟩
  · have := hget
    rw [h64] at this
    exact this
  · have := hget
    rw [show min W.toNat 64 = W.toNat by omega] at this
    exact this
  · show ({ s.regs with regs := s.regs.regs.set ins.a.toNat bitsR } :
      GearRegisterBank).getU64 r = s.regs.getU64 r
    unfold GearRegisterBank.getU64 GearRegisterBank.checkReg
    dsimp only
    by_cases hrr : r < 0 ∨ r ≥ s.regs.count
    · rw [if_pos hrr]
    · rw [if_neg hrr]
      dsimp only
      rw [List.getElem?_set_ne (by omega)]
  · show (s.regs.regs.set ins.a.toNat bitsR)[k]? = _
    rw [List.getElem?_set_ne (by omega)]

/-- Witness for C33: `R1 = 2^64 - 1`, `R2 = 2`, `ADD 0, 1, 2` on a 64-bit computer. -/
theorem GearCPUCore.step_add_witness :
    (match MechanicalComputer.new
        { wordBits := 64, registers := 3, ramWords := 2, storageWords := 2 } with
      | .error _ => none
      | .ok s0 =>
        some (GearCPUCore.loadProgram
          { s0 with regs := ((s0.regs.setU64 1 (2 ^ 64 - 1)).1.setU64 2 2).1 }
          [{ op := GearOp.ADD, a := 0, b := 1, c := 2, imm := 0 }])) = some mechAdd ∧
    (0 : Int) < 64 ∧ mechAdd.halted = false ∧
    mechAdd.program[mechAdd.ip]? = some { op := GearOp.ADD, a := 0, b := 1, c := 2, imm := 0 } ∧
    mechAdd.regs.getU64 1 = .ok (2 ^ 64 - 1) ∧ mechAdd.regs.getU64 2 = .ok 2 ∧
    (GearCPUCore.step mechAdd).1.regs.getU64 0 = .ok 1 ∧
    ∃ (vb vc : Nat) (s1 : MechanicalComputer),
      mechAdd.regs.getU64 1 = .ok vb ∧ mechAdd.regs.getU64 2 = .ok vc ∧
      GearCPUCore.step mechAdd = (s1, none) ∧
      s1.regs.getU64 0 = .ok ((vb + vc) % 2 ^ min (64 : Int).toNat 64) :=
  ⟨by decide, by decide, rfl, rfl, rfl, rfl, rfl,
    (GearCPUCore.step_add mechAdd { op := GearOp.ADD, a := 0, b := 1, c := 2, imm := 0 } 64
      (by decide) rfl rfl rfl rfl rfl rfl (by decide) (by decide) (by decide) (by decide)
      (by decide) (by decide)).imp
      (fun _ h => h.imp (fun _ h2 => h2.imp (fun _ h3 => ⟨h3.1, h3.2.1, h3.2.2.1, h3.2.2.2.1⟩)))⟩

end wa
namespace wa

theorem Machine.new_counts (rings g : Int) (m : Machine) (hr : 0 ≤ rings) (hg : 0 ≤ g)
    (h : Machine.new rings g = .ok m) : m.ringCount * m.gearsPerRing = rings * g := by
  unfold Machine.new at h
  rw [if_neg (by omega)] at h
  by_cases h0 : rings = 0
  · rw [if_pos h0] at h
    cases h
    rw [h0]
    simp [Machine.ringCount]
  · rw [if_neg h0, Ring.new_ok g 20 hg] at h
    cases h
    obtain ⟨k, hk⟩ : ∃ k : Nat, rings.toNat = k + 1 := ⟨rings.toNat - 1, by omega⟩
    have h1 : (Machine.mk (List.replicate rings.toNat
        (Ring.mk (List.replicate g.toNat (Gear.mk 0 20)) Dir.Right 0))).ringCount = rings := by
      simp [Machine.ringCount]
      omega
    have h2 : (Machine.mk (List.replicate rings.toNat
        (Ring.mk (List.replicate g.toNat (Gear.mk 0 20)) Dir.Right 0))).gearsPerRing = g := by
      rw [hk]
      simp [Machine.gearsPerRing, List.replicate_succ, Ring.gearCount]
      omega
    rw [h1, h2]

/-- C31: for every machine, `capacityString` prints the exponent
`ringCount * gearsPerRing * 2` when `twoBitsPerGearCell` is true and
`ringCount * gearsPerRing * 1` otherwise, as a decimal number, and prints the same number
in the capacity part and in the range part of the text. For a machine built by
`Machine(rings, g)` that number is `rings * g * bitsPerCell`; for the 10 x 360 machine with
two bits per cell it is 7200. The text of the floating-point estimate between the two parts
is not computed by the model. -/
theorem Machine.capacityString_exponent (m : Machine) (log10text : String) :
    (m.capacityString true log10text =
      "Capacity: 2^" ++ toString (m.ringCount * m.gearsPerRing * 2) ++ " integers (≈ 10^" ++
        log10text ++ ")" ++ " ; range = [0 .. 2^" ++
        toString (m.ringCount * m.gearsPerRing * 2) ++ " - 1]") ∧
    (m.capacityString false log10text =
      "Capacity: 2^" ++ toString (m.ringCount * m.gearsPerRing * 1) ++ " integers (≈ 10^" ++
        log10text ++ ")" ++ " ; range = [0 .. 2^" ++
        toString (m.ringCount * m.gearsPerRing * 1) ++ " - 1]") ∧
    (∀ rings g : Int, 0 ≤ rings → 0 ≤ g → Machine.new rings g = .ok m →
      m.ringCount * m.gearsPerRing = rings * g) ∧
    machine10.ringCount * machine10.gearsPerRing * 2 = 7200 ∧
    machine10.capacityString true "2167.42" =
      "Capacity: 2^7200 integers (≈ 10^2167.42) ; range = [0 .. 2^7200 - 1]" :=
  ⟨rfl, rfl, fun rings g hr hg h => Machine.new_counts rings g m hr hg h, by decide, by decide⟩

/-- Witness for C31 on the machine built by `Machine(10, 360)`. -/
theorem Machine.capacityString_exponent_witness :
    (0 : Int) ≤ 10 ∧ (0 : Int) ≤ 360 ∧ Machine.new 10 360 = .ok machine10 ∧
    machine10.ringCount * machine10.gearsPerRing = 10 * 360 :=
  ⟨by decide, by decide, rfl,
    (Machine.capacityString_exponent machine10 "").2.2.1 10 360 (by decide) (by decide) rfl⟩

end wa
namespace wa

/-! ## Ring claims on the 32-bit reading -/

/-- C6, as the code has it. For every ring with `0 < gearCount <= 2^30`, every starting
offset in `[0, gearCount)` and every integer `k` (any sign or magnitude), `shift(Right, k)`
followed by `shift(Left, k)`, with the sums of the source taken in 32-bit `int`, restores the
original offset. -/
theorem Ring.shift32_right_then_left (r : Ring) (k : Int) (hn : 0 < r.gearCount)
    (hb : r.gearCount ≤ 1073741824) (h0 : 0 ≤ r.offset) (h1 : r.offset < r.gearCount) :
    ((r.shift32 Dir.Right k).shift32 Dir.Left k).offset = r.offset := by
  rw [Ring.shift32_eq r Dir.Right k hb h0 h1]
  have hr := Ring.shift_offset_range r Dir.Right k hn
  rw [Ring.shift32_eq (r.shift Dir.Right k) Dir.Left k
    (by rw [Ring.shift_gearCount]; exact hb) hr.1 (by rw [Ring.shift_gearCount]; exact hr.2)]
  exact Ring.shift_right_then_left_exact r k hn h0 h1

/-- Witness for C6 on the five-gear ring, with a negative step count beyond the gear count. -/
theorem Ring.shift32_right_then_left_witness :
    0 < ring5.gearCount ∧ ring5.gearCount ≤ 1073741824 ∧ 0 ≤ ring5.offset ∧
    ring5.offset < ring5.gearCount ∧
    ((ring5.shift32 Dir.Right (-13)).shift32 Dir.Left (-13)).offset = ring5.offset :=
  ⟨by decide, by decide, by decide, by decide,
    Ring.shift32_right_then_left ring5 (-13) (by decide) (by decide) (by decide) (by decide)⟩

/-- C6, counterexample to the claim as stated for every gear count: a ring of `2^30 + 1000`
gears at offset `2^30 + 500`, `k = 1073742424`. `shift(Right, k)` leaves offset `1073742724`;
in `shift(Left, k)` the sum `offset_ + k = 2147485148` is above `INT_MAX`, the `int` holds
`-2147482148`, and the offset ends at 3500, not at `1073742324`. -/
theorem Ring.shift32_right_then_left_overflow :
    ringHuge.gearCount = 1073742824 ∧ ringHuge.offset = 1073742324 ∧
    (ringHuge.shift32 Dir.Right 1073742424).offset = 1073742724 ∧
    (2147483647 : Int) < 1073742724 + 1073742424 ∧
    ((ringHuge.shift32 Dir.Right 1073742424).shift32 Dir.Left 1073742424).offset = 3500 := by
  have hg := ringHuge_gearCount
  have ho : ringHuge.offset = 1073742324 := rfl
  have h1 : (ringHuge.shift32 Dir.Right 1073742424).offset = 1073742724 := by
    rw [Ring.shift32_offset _ _ _ (by rw [hg]; decide), hg, ho]
    decide
  refine ⟨hg, ho, h1, by decide, ?_⟩
  rw [Ring.shift32_offset _ _ _ (by rw [Ring.shift32_gearCount, hg]; decide),
    Ring.shift32_gearCount, h1, hg]
  decide

/-- C7, as the code has it. For every gear count from 1 to `2^30` and every fixed offset in
`[0, gearCount)`, `Ring::mapIndex`, with its sum taken in 32-bit `int`, restricted to the
logical indices `[0, gearCount)` is a bijection onto `[0, gearCount)`: it returns an in-range
physical index, distinct logical indices give distinct physical indices, and every physical
index is hit. -/
theorem Ring.mapIndex32_bijective (r : Ring) (hb : r.gearCount ≤ 1073741824)
    (h0 : 0 ≤ r.offset) (h1 : r.offset < r.gearCount) :
    (∀ i : Int, 0 ≤ i → i < r.gearCount →
        ∃ p : Int, r.mapIndex32 i = .ok p ∧ 0 ≤ p ∧ p < r.gearCount) ∧
    (∀ i j p : Int, 0 ≤ i → i < r.gearCount → 0 ≤ j → j < r.gearCount →
        r.mapIndex32 i = .ok p → r.mapIndex32 j = .ok p → i = j) ∧
    (∀ p : Int, 0 ≤ p → p < r.gearCount →
        ∃ i : Int, 0 ≤ i ∧ i < r.gearCount ∧ r.mapIndex32 i = .ok p) := by
  have e : ∀ i : Int, r.mapIndex32 i = r.mapIndex i := fun i => Ring.mapIndex32_eq r i hb h0 h1
  simp only [e]
  exact Ring.mapIndex_bijective_exact r

/-- Witness for C7 on the five-gear ring at offset 2. -/
theorem Ring.mapIndex32_bijective_witness :
    ring5.gearCount ≤ 1073741824 ∧ 0 ≤ ring5.offset ∧ ring5.offset < ring5.gearCount ∧
    (∃ p : Int, ring5.mapIndex32 4 = .ok p ∧ 0 ≤ p ∧ p < ring5.gearCount) ∧
    (∃ i : Int, 0 ≤ i ∧ i < ring5.gearCount ∧ ring5.mapIndex32 i = .ok 0) :=
  ⟨by decide, by decide, by decide,
    (Ring.mapIndex32_bijective ring5 (by decide) (by decide) (by decide)).1 4 (by decide)
      (by decide),
    (Ring.mapIndex32_bijective ring5 (by decide) (by decide) (by decide)).2.2 0 (by decide)
      (by decide)⟩

/-- C7, counterexample to the claim as stated for every gear count: on a ring of
`2^30 + 1000` gears at offset `2^30 + 500` the two logical indices `1073742424` and `3600`
are mapped to the same physical index 3100, because `1073742424 + offset_` is above
`INT_MAX`. -/
theorem Ring.mapIndex32_collision :
    ringHuge.gearCount = 1073742824 ∧ ringHuge.offset = 1073742324 ∧
    (2147483647 : Int) < 1073742424 + 1073742324 ∧
    ringHuge.mapIndex32 1073742424 = .ok 3100 ∧ ringHuge.mapIndex32 3600 = .ok 3100 := by
  have hg := ringHuge_gearCount
  have ho : ringHuge.offset = 1073742324 := rfl
  refine ⟨hg, ho, by decide, ?_, ?_⟩
  · rw [(Ring.mapIndex32_ok ringHuge 1073742424 (by decide) (by rw [hg]; decide)).1, hg, ho]
    rfl
  · rw [(Ring.mapIndex32_ok ringHuge 3600 (by decide) (by rw [hg]; decide)).1, hg, ho]
    rfl

/-- C23, as the code has it. For every ring and every integer `i`, with the sum of
`Ring::mapIndex` taken in 32-bit `int`: when `i < 0` or `i >= gearCount`, `mapIndex(i)`,
`getBit`, `setBit` and `flipBit` throw the gear out-of-range error and the failing
`setBit`/`flipBit` leave the ring unchanged; when `0 <= i < gearCount`, none of them fails
and `mapIndex` returns a value in `[0, gearCount)`; and on a ring of at most `2^30` gears
with its offset in `[0, gearCount)` that value is `(i + offset) mod gearCount`. -/
theorem Ring.mapIndex32_range_check (r : Ring) (i : Int) :
    ((i < 0 ∨ r.gearCount ≤ i) →
      r.mapIndex32 i = .error .ring_gear_index ∧ r.getBit32 i = .error .ring_gear_index ∧
      (∀ v : Nat, r.setBit32 i v = (r, some .ring_gear_index)) ∧
      r.flipBit32 i = (r, some .ring_gear_index)) ∧
    ((0 ≤ i ∧ i < r.gearCount) →
      (∃ p : Int, r.mapIndex32 i = .ok p ∧ 0 ≤ p ∧ p < r.gearCount) ∧
      (∃ b : Nat, r.getBit32 i = .ok b) ∧ (∀ v : Nat, (r.setBit32 i v).2 = none) ∧
      (r.flipBit32 i).2 = none) ∧
    ((0 ≤ i ∧ i < r.gearCount) → r.gearCount ≤ 1073741824 → 0 ≤ r.offset →
      r.offset < r.gearCount →
      r.mapIndex32 i = .ok ((i + r.offset) % r.gearCount) ∧
      0 ≤ (i + r.offset) % r.gearCount ∧ (i + r.offset) % r.gearCount < r.gearCount) := by
  refine ⟨fun h => ?_, fun h => ?_, fun h hb h0 h1 => ?_⟩
  · exact ⟨Ring.mapIndex32_err r i h, Ring.getBit32_err r i h,
      fun v => Ring.setBit32_err r i v h, Ring.flipBit32_err r i h⟩
  · obtain ⟨hm, hp0, hp1⟩ := Ring.mapIndex32_ok r i h.1 h.2
    exact ⟨⟨_, hm, hp0, hp1⟩, Ring.access32_ok r i h.1 h.2⟩
  · rw [Ring.mapIndex32_eq r i hb h0 h1]
    exact ⟨Ring.mapIndex_eq r i h.1 h.2, Int.emod_nonneg _ (by omega),
      Int.emod_lt_of_pos _ (by omega)⟩

/-- Witness for C23 on the five-gear ring at offset 2. -/
theorem Ring.mapIndex32_range_check_witness :
    ((5 : Int) < 0 ∨ ring5.gearCount ≤ 5) ∧ ring5.mapIndex32 5 = .error .ring_gear_index ∧
    ((0 : Int) ≤ 4 ∧ (4 : Int) < ring5.gearCount) ∧ ring5.gearCount ≤ 1073741824 ∧
    0 ≤ ring5.offset ∧ ring5.offset < ring5.gearCount ∧
    ring5.mapIndex32 4 = .ok ((4 + ring5.offset) % ring5.gearCount) :=
  ⟨by decide, ((Ring.mapIndex32_range_check ring5 5).1 (by decide)).1, by decide, by decide,
    by decide, by decide,
    ((Ring.mapIndex32_range_check ring5 4).2.2 (by decide) (by decide) (by decide)
      (by decide)).1⟩

/-- C23, counterexample to the claim as stated for every ring: on a ring of `2^30 + 1000`
gears at offset `2^30 + 500`, `mapIndex(1073742424)` returns 3100, while
`(i + offset) mod gearCount` is `1073741924`: the sum is above `INT_MAX`. -/
theorem Ring.mapIndex32_value_overflow :
    ringHuge.gearCount = 1073742824 ∧ ringHuge.offset = 1073742324 ∧
    (0 : Int) ≤ 1073742424 ∧ (1073742424 : Int) < ringHuge.gearCount ∧
    ringHuge.mapIndex32 1073742424 = .ok 3100 ∧
    (1073742424 + ringHuge.offset) % ringHuge.gearCount = 1073741924 := by
  have hg := ringHuge_gearCount
  have ho : ringHuge.offset = 1073742324 := rfl
  refine ⟨hg, ho, by decide, by rw [hg]; decide, ?_, by rw [hg, ho]; decide⟩
  rw [(Ring.mapIndex32_ok ringHuge 1073742424 (by decide) (by rw [hg]; decide)).1, hg, ho]
  rfl

theorem Ring.tick32_gears (r : Ring) (k : Int) : (r.tick32 k).gears = r.gears := by
  unfold Ring.tick32
  exact Ring.shift32_gears r r.dir k

theorem Ring.tick32_dir (r : Ring) (k : Int) : (r.tick32 k).dir = r.dir := by
  unfold Ring.tick32 Ring.shift32
  dsimp only
  split <;> rfl

/-- C25, as the code has it. For every machine and every integer `k`, `tickAll(k)` keeps the
number of rings and replaces each ring by that ring ticked by `k` in its own recorded
direction, independently of the other rings; cells and direction are unchanged. With the
sums of `Ring::shift` taken in 32-bit `int`, the offset of a ring whose offset lies in
`[0, gearCount)` becomes `(offset - k) mod gearCount` for direction `Right` (for every gear
count an `int` can hold) and `(offset + k) mod gearCount` for direction `Left` when the ring
has at most `2^30` gears; a ring without gears is left as it is. -/
theorem Machine.tickAll32_rotates (m : Machine) (k : Int) :
    (m.tickAll32 k).rings.length = m.rings.length ∧
    ∀ (q : Nat) (rg : Ring), m.rings[q]? = some rg →
      (m.tickAll32 k).rings[q]? = some (rg.tick32 k) ∧
      (rg.tick32 k).gears = rg.gears ∧ (rg.tick32 k).dir = rg.dir ∧
      (0 ≤ rg.offset → rg.offset < rg.gearCount → rg.gearCount ≤ 2147483647 →
        rg.dir = Dir.Right → (rg.tick32 k).offset = (rg.offset - k) % rg.gearCount) ∧
      (0 ≤ rg.offset → rg.offset < rg.gearCount → rg.gearCount ≤ 1073741824 →
        rg.dir = Dir.Left → (rg.tick32 k).offset = (rg.offset + k) % rg.gearCount) ∧
      (rg.gearCount ≤ 0 → rg.tick32 k = rg) := by
  constructor
  · unfold Machine.tickAll32
    simp only [List.length_map]
  · intro q rg hrg
    refine ⟨?_, Ring.tick32_gears rg k, Ring.tick32_dir rg k, ?_, ?_, ?_⟩
    · unfold Machine.tickAll32
      dsimp only
      rw [List.getElem?_map, hrg]
      rfl
    · intro h0 h1 hb hd
      have hn : 0 < rg.gearCount := by omega
      have hk0 : 0 ≤ k % rg.gearCount := Int.emod_nonneg k (by omega)
      have hk1 : k % rg.gearCount < rg.gearCount := Int.emod_lt_of_pos k hn
      unfold Ring.tick32
      rw [Ring.shift32_offset _ _ _ hn, if_pos hd,
        wrapInt_eq (rg.offset - k % rg.gearCount) (by omega) (by omega),
        Int.sub_emod, Int.emod_emod, ← Int.sub_emod]
    · intro h0 h1 hb hd
      rw [Ring.tick32_eq rg k hb h0 h1, Ring.tick_offset rg k (by omega), hd]
      rfl
    · intro hn
      unfold Ring.tick32 Ring.shift32
      dsimp only
      rw [if_pos hn]

/-- Witness for C25 on the 10 x 360 machine, whose rings have direction `Right`. -/
theorem Machine.tickAll32_rotates_witness :
    machine10.rings[3]? =
      some { gears := List.replicate 360 { bit := 0, teeth := 20 }, dir := Dir.Right,
             offset := 0 } ∧
    ((machine10.tickAll32 (-725)).rings[3]?).map (fun rg => rg.offset) = some 5 :=
  ⟨by decide, by
    rw [((Machine.tickAll32_rotates machine10 (-725)).2 3
      { gears := List.replicate 360 { bit := 0, teeth := 20 }, dir := Dir.Right, offset := 0 }
      (by decide)).1]
    decide⟩

/-- C25, counterexample to the claim as stated for every machine: a machine of one ring of
`2^30 + 1000` gears with direction `Left` at offset `1073742724`. `tickAll(1073742424)` forms
the sum `offset_ + k = 2147485148`, above `INT_MAX`, and leaves the ring at offset 3500,
while `(offset + k) mod gearCount` is `1073742324`. -/
theorem Machine.tickAll32_left_overflow :
    ringHugeLeft.gearCount = 1073742824 ∧ ringHugeLeft.offset = 1073742724 ∧
    ringHugeLeft.dir = Dir.Left ∧
    ((Machine.mk [ringHugeLeft]).tickAll32 1073742424).rings =
      [ringHugeLeft.tick32 1073742424] ∧
    (ringHugeLeft.tick32 1073742424).offset = 3500 ∧
    (ringHugeLeft.offset + 1073742424) % ringHugeLeft.gearCount = 1073742324 := by
  have hg := ringHugeLeft_gearCount
  have ho : ringHugeLeft.offset = 1073742724 := rfl
  have hd : ringHugeLeft.dir = Dir.Left := rfl
  refine ⟨hg, ho, hd, rfl, ?_, by rw [hg, ho]; decide⟩
  unfold Ring.tick32
  rw [Ring.shift32_offset _ _ _ (by rw [hg]; decide), hd, hg, ho]
  decide

end wa

namespace wa

/-! ## Cells of a ring under the 32-bit accessors -/

theorem Ring.setBit32_of_cell (r : Ring) (i p : Int) (g : Gear) (v : Nat)
    (hmap : r.mapIndex32 i = .ok p) (hg : r.gears[p.toNat]? = some g) :
    r.setBit32 i v = (Ring.mk (r.gears.set p.toNat (Gear.mk (v % 2) g.teeth)) r.dir r.offset,
      none) := by
  unfold Ring.setBit32
  rw [hmap]
  dsimp only
  rw [hg]

theorem Ring.mapIndex32_set (r : Ring) (P : Nat) (g1 : Gear) (j : Int) :
    (Ring.mk (r.gears.set P g1) r.dir r.offset).mapIndex32 j = r.mapIndex32 j := by
  unfold Ring.mapIndex32 Ring.gearCount
  dsimp only
  rw [List.length_set]

theorem Ring.getBit32_set (r : Ring) (P : Nat) (g1 : Gear) (j q : Int) (hP : P < r.gears.length)
    (hmap : r.mapIndex32 j = .ok q) :
    (Ring.mk (r.gears.set P g1) r.dir r.offset).getBit32 j =
      if P = q.toNat then .ok (g1.bit % 2) else r.getBit32 j := by
  unfold Ring.getBit32
  rw [Ring.mapIndex32_set, hmap]
  dsimp only
  by_cases h : P = q.toNat
  · rw [if_pos h, ← h, List.getElem?_set_self hP]
  · rw [if_neg h, List.getElem?_set_ne h]

theorem Ring.getBit32_set_err (r : Ring) (P : Nat) (g1 : Gear) (j : Int) (e : Exn)
    (hmap : r.mapIndex32 j = .error e) :
    (Ring.mk (r.gears.set P g1) r.dir r.offset).getBit32 j = r.getBit32 j := by
  unfold Ring.getBit32
  rw [Ring.mapIndex32_set, hmap]

theorem flip_bit_mod (b : Nat) : ((((((b % 2) ^^^ 1) % 256) % 2) % 2 ^^^ 1) % 256) % 2 = b % 2 := by
  have h : b % 2 < 2 := Nat.mod_lt _ (by decide)
  generalize b % 2 = c at h
  interval_cases c <;> decide

theorem ringHugeBit_gearCount : ringHugeBit.gearCount = 1073742824 := by
  unfold ringHugeBit Ring.gearCount
  simp only [List.length_set, List.length_replicate]
  rfl

/-- C8, as the code has it. For every ring of at most `2^30` gears with its offset in
`[0, gearCount)`, every integer `k` and every logical index `i` in `[0, gearCount)`, with the
sums of `Ring::shift` and `Ring::mapIndex` taken in 32-bit `int`: after `shift(Left, k)`
`getBit(i)` returns the bit that `getBit((i + k) mod gearCount)` returned before, after
`shift(Right, k)` the bit that `getBit((i - k) mod gearCount)` returned before; and the
logical bit sequence after `shift(Left, k)` is `math::rotate_bits_left` of the previous
logical bit sequence by `k`. -/
theorem Ring.shift32_rotates_logical_bits (r : Ring) (k : Int)
    (hb : r.gearCount ≤ 1073741824) (h0 : 0 ≤ r.offset) (h1 : r.offset < r.gearCount) :
    (∀ i : Int, 0 ≤ i → i < r.gearCount →
      (∃ v, r.getBit32 ((i + k) % r.gearCount) = .ok v ∧
        (r.shift32 Dir.Left k).getBit32 i = .ok v) ∧
      (∃ v, r.getBit32 ((i - k) % r.gearCount) = .ok v ∧
        (r.shift32 Dir.Right k).getBit32 i = .ok v)) ∧
    (∃ bs bs1 : List Nat, r.logicalBits32 = .ok bs ∧
      (r.shift32 Dir.Left k).logicalBits32 = .ok bs1 ∧
      math.rotate_bits_left bs k = .ok bs1) := by
  have hn : 0 < r.gearCount := by omega
  have hL := Ring.shift_offset_range r Dir.Left k hn
  have hR := Ring.shift_offset_range r Dir.Right k hn
  have hgL : (r.shift Dir.Left k).gearCount = r.gearCount := Ring.shift_gearCount r Dir.Left k
  have hgR : (r.shift Dir.Right k).gearCount = r.gearCount := Ring.shift_gearCount r Dir.Right k
  have e1 : ∀ j : Int, r.getBit32 j = r.getBit j := fun j => Ring.getBit32_eq r j hb h0 h1
  have e2 : ∀ j : Int, (r.shift Dir.Left k).getBit32 j = (r.shift Dir.Left k).getBit j :=
    fun j => Ring.getBit32_eq _ j (by rw [hgL]; exact hb) hL.1 (by rw [hgL]; exact hL.2)
  have e3 : ∀ j : Int, (r.shift Dir.Right k).getBit32 j = (r.shift Dir.Right k).getBit j :=
    fun j => Ring.getBit32_eq _ j (by rw [hgR]; exact hb) hR.1 (by rw [hgR]; exact hR.2)
  rw [Ring.shift32_eq r Dir.Left k hb h0 h1, Ring.shift32_eq r Dir.Right k hb h0 h1,
    Ring.logicalBits32_eq r hb h0 h1,
    Ring.logicalBits32_eq _ (by rw [hgL]; exact hb) hL.1 (by rw [hgL]; exact hL.2)]
  simp only [e1, e2, e3]
  exact Ring.shift_rotates_logical_bits_exact r k hb

/-- Witness for C8 on the five-gear ring at offset 2, rotated by 7. -/
theorem Ring.shift32_rotates_logical_bits_witness :
    ring5.gearCount ≤ 1073741824 ∧ 0 ≤ ring5.offset ∧ ring5.offset < ring5.gearCount ∧
    (∃ bs bs1 : List Nat, ring5.logicalBits32 = .ok bs ∧
      (ring5.shift32 Dir.Left 7).logicalBits32 = .ok bs1 ∧
      math.rotate_bits_left bs 7 = .ok bs1) :=
  ⟨by decide, by decide, by decide,
    (Ring.shift32_rotates_logical_bits ring5 7 (by decide) (by decide) (by decide)).2⟩

/-- C8, counterexample to the claim as stated for every ring: a ring of `2^30 + 1000` gears
at offset 0 whose cell `1073742822` holds 1 and every other cell 0, `k = i = 1073742823`.
Before the shift `getBit((i + k) mod gearCount) = getBit(1073742822)` returns 1. After
`shift(Left, k)` the offset is `1073742823`; in `getBit(i)` the sum `i + offset_` is
`2147485646`, above `INT_MAX`, and the cell read is 3998, which holds 0. -/
theorem Ring.shift32_rotation_overflow :
    ringHugeBit.gearCount = 1073742824 ∧ ringHugeBit.offset = 0 ∧
    (1073742823 + 1073742823) % ringHugeBit.gearCount = 1073742822 ∧
    ringHugeBit.getBit32 1073742822 = .ok 1 ∧
    (ringHugeBit.shift32 Dir.Left 1073742823).offset = 1073742823 ∧
    (ringHugeBit.shift32 Dir.Left 1073742823).mapIndex32 1073742823 = .ok 3998 ∧
    (ringHugeBit.shift32 Dir.Left 1073742823).getBit32 1073742823 = .ok 0 := by
  have hg := ringHugeBit_gearCount
  have ho : ringHugeBit.offset = 0 := rfl
  have hgs : ringHugeBit.gears = (List.replicate 1073742824 (Gear.mk 0 20)).set 1073742822
      (Gear.mk 1 20) := rfl
  have hlen : (1073742822 : Nat) < (List.replicate 1073742824 (Gear.mk 0 20)).length := by
    rw [List.length_replicate]
    decide
  have hm1 : ringHugeBit.mapIndex32 1073742822 = .ok 1073742822 := by
    rw [(Ring.mapIndex32_ok ringHugeBit 1073742822 (by decide) (by rw [hg]; decide)).1, hg, ho]
    rfl
  have hc1 : ringHugeBit.gears[(1073742822 : Int).toNat]? = some (Gear.mk 1 20) := by
    rw [hgs]
    exact List.getElem?_set_self hlen
  have hso : (ringHugeBit.shift32 Dir.Left 1073742823).offset = 1073742823 := by
    rw [Ring.shift32_offset _ _ _ (by rw [hg]; decide), hg, ho]
    decide
  have hsg : (ringHugeBit.shift32 Dir.Left 1073742823).gearCount = 1073742824 := by
    rw [Ring.shift32_gearCount, hg]
  have hm2 : (ringHugeBit.shift32 Dir.Left 1073742823).mapIndex32 1073742823 = .ok 3998 := by
    rw [(Ring.mapIndex32_ok _ 1073742823 (by decide) (by rw [hsg]; decide)).1, hsg, hso]
    rfl
  have hc2 : (ringHugeBit.shift32 Dir.Left 1073742823).gears[(3998 : Int).toNat]? =
      some (Gear.mk 0 20) := by
    rw [Ring.shift32_gears, hgs]
    have e : (3998 : Int).toNat = 3998 := rfl
    rw [e, List.getElem?_set_ne (by decide), List.getElem?_replicate, if_pos (by decide)]
  refine ⟨hg, ho, by rw [hg]; decide, ?_, hso, hm2, ?_⟩
  · exact Ring.getBit32_of_cell ringHugeBit 1073742822 1073742822 _ hm1 hc1
  · exact Ring.getBit32_of_cell _ 1073742823 3998 _ hm2 hc2

/-- C24, as the code has it. For every ring, every logical index `i` in `[0, gearCount)` and
every byte value `v`: `setBit(i, v)` does not fail, after it `getBit(i)` returns `v & 1`, and
offset, direction and gear count are unchanged; on a ring of at most `2^30` gears with its
offset in `[0, gearCount)`, `getBit(j)` is unchanged for every other logical index `j`.
`flipBit(i)` applied twice does not fail and leaves offset, direction, gear count and every
`getBit(j)` as they were; it restores the ring itself when the byte of the cell that `i` maps
to is 0 or 1. -/
theorem Ring.setBit32_getBit32 (r : Ring) (i : Int) (v : Nat) (h0 : 0 ≤ i)
    (h1 : i < r.gearCount) :
    (∃ r1 : Ring, r.setBit32 i v = (r1, none) ∧ r1.getBit32 i = .ok (v % 2) ∧
      r1.offset = r.offset ∧ r1.dir = r.dir ∧ r1.gearCount = r.gearCount ∧
      (r.gearCount ≤ 1073741824 → 0 ≤ r.offset → r.offset < r.gearCount →
        ∀ j : Int, j ≠ i → r1.getBit32 j = r.getBit32 j)) ∧
    (∃ r2 : Ring, (r.flipBit32 i).1.flipBit32 i = (r2, none) ∧
      r2.offset = r.offset ∧ r2.dir = r.dir ∧ r2.gearCount = r.gearCount ∧
      (∀ j : Int, r2.getBit32 j = r.getBit32 j) ∧
      (∀ (p : Int) (g : Gear), r.mapIndex32 i = .ok p → r.gears[p.toNat]? = some g →
        g.bit < 2 → r2 = r)) := by
  obtain ⟨p, g, hm, hp0, hp1, hg⟩ := Ring.cell32_exists r i h0 h1
  have hP : p.toNat < r.gears.length := by
    by_contra hc
    rw [List.getElem?_eq_none (by omega)] at hg
    cases hg
  have hgc : ∀ g1 : Gear, (Ring.mk (r.gears.set p.toNat g1) r.dir r.offset).gearCount =
      r.gearCount := by
    intro g1
    unfold Ring.gearCount
    dsimp only
    rw [List.length_set]
  constructor
  · refine ⟨_, Ring.setBit32_of_cell r i p g v hm hg, ?_, rfl, rfl, hgc _, ?_⟩
    · rw [Ring.getBit32_set r _ _ i p hP hm, if_pos rfl]
      dsimp only
      rw [Nat.mod_mod]
    · intro hb ho0 ho1 j hj
      obtain ⟨r1, hs, ho, hd, hl, hget⟩ := Ring.setBit_frame r i v h0 h1
      have e : Ring.mk (r.gears.set p.toNat (Gear.mk (v % 2) g.teeth)) r.dir r.offset = r1 := by
        have h2 := Ring.setBit32_of_cell r i p g v hm hg
        rw [Ring.setBit32_eq r i v hb ho0 ho1, hs] at h2
        injection h2 with h3 _
        exact h3.symm
      rw [e, Ring.getBit32_eq r1 j (by unfold Ring.gearCount; rw [hl]; exact hb)
        (by rw [ho]; exact ho0) (by unfold Ring.gearCount; rw [ho, hl]; exact ho1),
        Ring.getBit32_eq r j hb ho0 ho1, hget j, if_neg hj]
  · have hget : r.getBit32 i = .ok (g.bit % 2) := Ring.getBit32_of_cell r i p g hm hg
    have hf1 : r.flipBit32 i =
        (Ring.mk (r.gears.set p.toNat (Gear.mk ((((g.bit % 2) ^^^ 1) % 256) % 2) g.teeth))
          r.dir r.offset, none) := by
      unfold Ring.flipBit32
      rw [hget]
      exact Ring.setBit32_of_cell r i p g _ hm hg
    generalize hr1 : Ring.mk (r.gears.set p.toNat
      (Gear.mk ((((g.bit % 2) ^^^ 1) % 256) % 2) g.teeth)) r.dir r.offset = r1 at hf1
    have hm1 : r1.mapIndex32 i = .ok p := by rw [← hr1, Ring.mapIndex32_set, hm]
    have hgears : r1.gears = r.gears.set p.toNat
        (Gear.mk ((((g.bit % 2) ^^^ 1) % 256) % 2) g.teeth) := by rw [← hr1]
    have hoff : r1.offset = r.offset := by rw [← hr1]
    have hdir : r1.dir = r.dir := by rw [← hr1]
    have hg1 : r1.gears[p.toNat]? =
        some (Gear.mk ((((g.bit % 2) ^^^ 1) % 256) % 2) g.teeth) := by
      rw [hgears, List.getElem?_set_self hP]
    have hget1 := Ring.getBit32_of_cell r1 i p _ hm1 hg1
    have hf2 : r1.flipBit32 i =
        (Ring.mk (r.gears.set p.toNat (Gear.mk (g.bit % 2) g.teeth)) r.dir r.offset, none) := by
      unfold Ring.flipBit32
      rw [hget1]
      dsimp only
      rw [Ring.setBit32_of_cell r1 i p _ _ hm1 hg1, hgears, List.set_set, hoff, hdir]
      dsimp only
      rw [flip_bit_mod]
    rw [hf1]
    dsimp only
    refine ⟨_, hf2, rfl, rfl, hgc _, ?_, ?_⟩
    · intro j
      cases hj : r.mapIndex32 j with
      | error e => exact Ring.getBit32_set_err r _ _ j e hj
      | ok q =>
        rw [Ring.getBit32_set r _ _ j q hP hj]
        by_cases hq : p.toNat = q.toNat
        · rw [if_pos hq]
          dsimp only
          rw [Nat.mod_mod]
          rw [hq] at hg
          exact (Ring.getBit32_of_cell r j q g hj hg).symm
        · rw [if_neg hq]
    · intro p2 g2 hm2 hg2 hlt
      rw [hm] at hm2
      injection hm2 with hpp
      subst hpp
      rw [hg] at hg2
      injection hg2 with hgg
      subst hgg
      rw [Nat.mod_eq_of_lt hlt]
      have e : Gear.mk g.bit g.teeth = g := rfl
      rw [e, list_set_same r.gears _ g hg]

/-- Witness for C24 on the five-gear ring at offset 2: bit 1 written at logical index 3. -/
theorem Ring.setBit32_getBit32_witness :
    (0 : Int) ≤ 3 ∧ (3 : Int) < ring5.gearCount ∧
    (∃ r1 : Ring, ring5.setBit32 3 1 = (r1, none) ∧ r1.getBit32 3 = .ok (1 % 2) ∧
      r1.offset = ring5.offset ∧ r1.dir = ring5.dir ∧ r1.gearCount = ring5.gearCount ∧
      (ring5.gearCount ≤ 1073741824 → 0 ≤ ring5.offset → ring5.offset < ring5.gearCount →
        ∀ j : Int, j ≠ 3 → r1.getBit32 j = ring5.getBit32 j)) :=
  ⟨by decide, by decide, (Ring.setBit32_getBit32 ring5 3 1 (by decide) (by decide)).1⟩

/-- C24, counterexample to the claim as stated for every ring. A cell can hold a byte other
than 0 and 1 (the non-const `gearAtLogical` hands out the gear): on the three-gear ring whose
cell 1 holds the byte 2, `flipBit(1)` twice leaves that cell at 0, so the ring is not
restored. And on a ring of `2^30 + 1000` gears at offset `2^30 + 500` with all bits 0,
`setBit(3600, 1)` changes `getBit(1073742424)` from 0 to 1, because both logical indices map
to cell 3100. -/
theorem Ring.flipBit_twice_counterexample :
    (ringByte2.flipBit 1).1.flipBit 1 =
      ({ gears := [⟨0, 20⟩, ⟨0, 20⟩, ⟨1, 20⟩], dir := Dir.Right, offset := 0 }, none) ∧
    (ringByte2.flipBit32 1).1.flipBit32 1 =
      ({ gears := [⟨0, 20⟩, ⟨0, 20⟩, ⟨1, 20⟩], dir := Dir.Right, offset := 0 }, none) ∧
    ((ringByte2.flipBit32 1).1.flipBit32 1).1 ≠ ringByte2 ∧
    ringHuge.getBit32 1073742424 = .ok 0 ∧
    (∃ r1 : Ring, ringHuge.setBit32 3600 1 = (r1, none) ∧ r1.getBit32 1073742424 = .ok 1) := by
  have hg := ringHuge_gearCount
  have ho : ringHuge.offset = 1073742324 := rfl
  have hgs : ringHuge.gears = List.replicate 1073742824 (Gear.mk 0 20) := rfl
  have hma : ringHuge.mapIndex32 1073742424 = .ok 3100 := by
    rw [(Ring.mapIndex32_ok ringHuge 1073742424 (by decide) (by rw [hg]; decide)).1, hg, ho]
    rfl
  have hmb : ringHuge.mapIndex32 3600 = .ok 3100 := by
    rw [(Ring.mapIndex32_ok ringHuge 3600 (by decide) (by rw [hg]; decide)).1, hg, ho]
    rfl
  have e : (3100 : Int).toNat = 3100 := rfl
  have hc : ringHuge.gears[(3100 : Int).toNat]? = some (Gear.mk 0 20) := by
    rw [hgs, e, List.getElem?_replicate, if_pos (by decide)]
  have hP : (3100 : Int).toNat < ringHuge.gears.length := by
    rw [hgs, e, List.length_replicate]
    decide
  refine ⟨by decide, by decide, by decide,
    Ring.getBit32_of_cell ringHuge 1073742424 3100 _ hma hc,
    _, Ring.setBit32_of_cell ringHuge 3600 3100 _ 1 hmb hc, ?_⟩
  rw [Ring.getBit32_set ringHuge _ _ 1073742424 3100 hP hma, if_pos rfl]
  rfl

end wa

namespace wa

/-! ## The helpers of wa_math.hpp against the ring -/

theorem math.apply_shift_offset_eq (o : Int) (d : Dir) (k n : Int) (hn : 0 < n) :
    math.apply_shift_offset o d k n =
      .ok ((if d = Dir.Right then wrapInt (o - k % n) else wrapInt (o + k % n)) % n) := by
  unfold math.apply_shift_offset
  rw [if_neg (by omega), math.normalize_mod_eq k n hn]
  dsimp only
  by_cases hd : d = Dir.Right
  · rw [if_pos hd, if_pos hd, math.normalize_mod_eq _ n hn]
  · rw [if_neg hd, if_neg hd, math.normalize_mod_eq _ n hn]

theorem math.logical_to_physical_index_eq (i o n : Int) (hn : 0 < n) :
    math.logical_to_physical_index i o n = .ok (wrapInt (i + o) % n) := by
  unfold math.logical_to_physical_index
  rw [if_neg (by omega), math.normalize_mod_eq _ n hn]

theorem math.physical_to_logical_index_eq (p o n : Int) (hn : 0 < n) :
    math.physical_to_logical_index p o n = .ok (wrapInt (p - o) % n) := by
  unfold math.physical_to_logical_index
  rw [if_neg (by omega), math.normalize_mod_eq _ n hn]

/-- C40, as the code has it. With every sum taken in 32-bit `int`, the pure helpers of
`wa_math.hpp` agree with the ring: for every ring with at least one gear,
`math::apply_shift_offset(offset, d, steps, gearCount)` returns the offset the ring has after
`Ring::shift(d, steps)`, for every direction and every integer step count, and for every
logical index `i` in `[0, gearCount)` `math::logical_to_physical_index` returns what
`Ring::mapIndex` returns. On a ring of at most `2^30` gears with its offset in
`[0, gearCount)`, `math::physical_to_logical_index` applied to that physical index gives `i`
back. -/
theorem math.helpers_agree_with_ring (r : Ring) (hn : 0 < r.gearCount) :
    (∀ (d : Dir) (steps : Int),
      math.apply_shift_offset r.offset d steps r.gearCount = .ok (r.shift32 d steps).offset) ∧
    (∀ i : Int, 0 ≤ i → i < r.gearCount →
      math.logical_to_physical_index i r.offset r.gearCount = r.mapIndex32 i) ∧
    (r.gearCount ≤ 1073741824 → 0 ≤ r.offset → r.offset < r.gearCount →
      ∀ i : Int, 0 ≤ i → i < r.gearCount →
        ∃ p : Int, math.logical_to_physical_index i r.offset r.gearCount = .ok p ∧
          math.physical_to_logical_index p r.offset r.gearCount = .ok i) := by
  refine ⟨fun d steps => ?_, fun i h0 h1 => ?_, fun hb ho0 ho1 i h0 h1 => ?_⟩
  · rw [math.apply_shift_offset_eq _ _ _ _ hn, Ring.shift32_offset r d steps hn]
  · rw [math.logical_to_physical_index_eq _ _ _ hn, (Ring.mapIndex32_ok r i h0 h1).1]
  · rw [math.logical_to_physical_index_eq _ _ _ hn]
    refine ⟨_, rfl, ?_⟩
    rw [math.physical_to_logical_index_eq _ _ _ hn, wrapInt_eq (i + r.offset) (by omega) (by omega)]
    have hp0 : 0 ≤ (i + r.offset) % r.gearCount := Int.emod_nonneg _ (by omega)
    have hp1 : (i + r.offset) % r.gearCount < r.gearCount := Int.emod_lt_of_pos _ hn
    rw [wrapInt_eq _ (by omega) (by omega)]
    congr 1
    rw [Int.sub_emod, Int.emod_emod, ← Int.sub_emod, Int.add_sub_cancel]
    exact Int.emod_eq_of_lt h0 h1

/-- Witness for C40 on the five-gear ring `ring5` (offset 2). -/
theorem math.helpers_agree_with_ring_witness :
    0 < ring5.gearCount ∧
    math.apply_shift_offset ring5.offset Dir.Left (-13) ring5.gearCount =
      .ok (ring5.shift32 Dir.Left (-13)).offset ∧
    math.logical_to_physical_index 4 ring5.offset ring5.gearCount = ring5.mapIndex32 4 ∧
    (∃ p : Int, math.logical_to_physical_index 4 ring5.offset ring5.gearCount = .ok p ∧
      math.physical_to_logical_index p ring5.offset ring5.gearCount = .ok 4) :=
  ⟨by decide, (math.helpers_agree_with_ring ring5 (by decide)).1 Dir.Left (-13),
    (math.helpers_agree_with_ring ring5 (by decide)).2.1 4 (by decide) (by decide),
    (math.helpers_agree_with_ring ring5 (by decide)).2.2 (by decide) (by decide) (by decide) 4
      (by decide) (by decide)⟩

/-- C40, counterexample to the round trip as stated for every gear count: with
`gearCount = 2000000000`, `offset = 1500000000` and `i = 1500000000` (both in
`[0, gearCount)`) the sum `i + offset` is above `INT_MAX`,
`math::logical_to_physical_index` returns `705032704`, and
`math::physical_to_logical_index` of that returns `1205032704`, not `i`. -/
theorem math.index_round_trip_overflow :
    (2147483647 : Int) < 1500000000 + 1500000000 ∧
    math.logical_to_physical_index 1500000000 1500000000 2000000000 = .ok 705032704 ∧
    math.physical_to_logical_index 705032704 1500000000 2000000000 = .ok 1205032704 :=
  ⟨by decide, rfl, rfl⟩

end wa

namespace wa

/-! ## The glyph classifier on a ring of 200,000,000 gears -/

theorem glyph_wide_le (o : Int) : glyphAtIndex o 200000000 ≤ 10 := by
  unfold glyphAtIndex ZODIAC_COUNT
  rw [if_neg (by decide)]
  dsimp only
  generalize hx : (if (if o < 0 then 0 else o) ≥ 200000000 then (200000000 : Int) - 1
    else (if o < 0 then 0 else o)) = x
  have hx0 : 0 ≤ x := by
    rw [← hx]
    split <;> split <;> omega
  have hx1 : x ≤ 199999999 := by
    rw [← hx]
    split <;> split <;> omega
  have hq : (wrapInt (x * 13)).tdiv 200000000 ≤ 10 := by
    by_cases hs : x * 13 < 2147483648
    · rw [wrapInt_eq _ (by omega) hs, Int.tdiv_eq_ediv (by omega) (by decide)]
      omega
    · have hw : wrapInt (x * 13) = x * 13 - 4294967296 := by
        unfold wrapInt
        omega
      rw [hw]
      have h1 : (x * 13 - 4294967296).tdiv 200000000 =
          -((4294967296 - x * 13).tdiv 200000000) := by
        rw [← Int.neg_tdiv]
        congr 1
        ring
      have h2 : 0 ≤ (4294967296 - x * 13).tdiv 200000000 :=
        Int.tdiv_nonneg (by omega) (by decide)
      omega
  split <;> split <;> omega

theorem Machine.ring_cell (m : Machine) (ring : Int) (rg : Ring) (h : m.ring ring = .ok rg) :
    m.rings[ring.toNat]? = some rg := by
  unfold Machine.ring at h
  split at h
  · cases h
  · split at h
    · rename_i rg0 hrg0
      injection h with h
      rw [hrg0, h]
    · cases h

theorem Machine.shiftRing32_gearCounts (m : Machine) (ring : Int) (d : Dir) (k : Int) :
    (m.shiftRing32 ring d k).1.rings.map Ring.gearCount = m.rings.map Ring.gearCount := by
  unfold Machine.shiftRing32
  cases hr : m.ring ring with
  | error e => rfl
  | ok rg =>
    dsimp only
    have hc := Machine.ring_cell m ring rg hr
    rw [List.map_set, Ring.shift32_gearCount]
    exact list_set_same _ _ _ (by rw [List.getElem?_map, hc]; rfl)

theorem dialLoop_gearCounts (ring target : Int) :
    ∀ (fuel : Nat) (m : Machine),
      (dialLoop ring target fuel m).1.rings.map Ring.gearCount = m.rings.map Ring.gearCount := by
  intro fuel
  induction fuel with
  | zero => intro m; rfl
  | succ f ih =>
    intro m
    unfold dialLoop
    split
    · rfl
    · split
      · rfl
      · split
        · rfl
        · split
          · rfl
          · split
            · rename_i m1 e hs
              split at hs
              · have h := Machine.shiftRing32_gearCounts m ring Dir.Left 1
                rw [hs] at h
                exact h
              · have h := Machine.shiftRing32_gearCounts m ring Dir.Right 1
                rw [hs] at h
                exact h
            · rename_i m1 hs
              rw [ih m1]
              split at hs
              · have h := Machine.shiftRing32_gearCounts m ring Dir.Left 1
                rw [hs] at h
                exact h
              · have h := Machine.shiftRing32_gearCounts m ring Dir.Right 1
                rw [hs] at h
                exact h

theorem machineWide_gearCounts : machineWide.rings.map Ring.gearCount = [200000000] := by
  unfold machineWide Ring.gearCount
  simp only [List.map_cons, List.map_nil, List.length_replicate]
  rfl

/-- C39, counterexample to the claim as stated for every gear count: with 200,000,000 gears
(at least 13) no offset has a glyph index above 10, so `Z11` and `Z12` are never taken; and
the consecutive offsets 165,191,049 and 165,191,050 have glyph indices 10 and 0, because the
product `165191050 * 13 = 2147483650` is above `INT_MAX`. -/
theorem glyph_covers_all_overflow :
    (13 : Int) ≤ 200000000 ∧
    (∀ o : Int, glyphAtIndex o 200000000 ≤ 10) ∧
    (¬ ∃ o : Int, 0 ≤ o ∧ o < 200000000 ∧ glyphAtIndex o 200000000 = 12) ∧
    glyphAtIndex 165191049 200000000 = 10 ∧ glyphAtIndex (165191049 + 1) 200000000 = 0 ∧
    (2147483647 : Int) < 165191050 * 13 := by
  refine ⟨by decide, glyph_wide_le, ?_, by decide, by decide, by decide⟩
  rintro ⟨o, -, -, h⟩
  have := glyph_wide_le o
  omega

theorem gearsPerRing_of_gearCounts (m : Machine) (n : Int)
    (hm : m.rings.map Ring.gearCount = [n]) : m.gearsPerRing = n := by
  unfold Machine.gearsPerRing
  cases hl : m.rings with
  | nil => rw [hl] at hm; cases hm
  | cons r rest =>
    rw [hl] at hm
    simp only [List.map_cons, List.cons.injEq] at hm
    exact hm.1

theorem dial_wide_result (X : Machine × Option Exn)
    (h1 : X.1.rings.map Ring.gearCount = [200000000]) :
    ∃ (m1 : Machine) (e : Option Exn) (rg1 : Ring),
      X = (m1, e) ∧ m1.ring 0 = .ok rg1 ∧ m1.gearsPerRing = 200000000 ∧
      ∃ g : Int, activeGlyphFromOffset rg1.offset m1.gearsPerRing = .ok g ∧ g ≤ 10 := by
  have h2 := gearsPerRing_of_gearCounts _ _ h1
  have hlen : X.1.rings.length = 1 := by
    have := congrArg List.length h1
    simpa only [List.length_map, List.length_cons, List.length_nil] using this
  obtain ⟨rg1, -, hring⟩ := Machine.ring_ok X.1 0 (by decide)
    (by unfold Machine.ringCount; rw [hlen]; decide)
  refine ⟨X.1, X.2, rg1, Prod.mk.eta.symm, hring, h2, ?_⟩
  rw [h2, activeGlyphFromOffset_eq _ _ (by decide)]
  exact ⟨_, rfl, glyph_wide_le _⟩

theorem Console.dialRingToGlyph_gearCounts (m : Machine) (ring target : Int) :
    (Console.dialRingToGlyph m ring target).1.rings.map Ring.gearCount =
      m.rings.map Ring.gearCount := by
  unfold Console.dialRingToGlyph
  exact dialLoop_gearCounts ring target _ m

theorem machineWide_gearsOf : machineWide.gearsOf 0 = 200000000 := by
  unfold Machine.gearsOf machineWide Ring.gearCount
  simp only [Int.toNat_zero, List.getElem?_cons_zero, List.length_replicate]
  rfl

/-- C30, counterexample to the claim as stated for every machine: on a machine of one ring
of 200,000,000 gears at offset 0 (at least 13 gears, valid ring index 0),
`dialRingToGlyph(0, Z12)` ends with the active glyph of the ring at most `Z10`, not `Z12`:
with that gear count the glyph product overflows `int` from offset 165,191,050 on and no
offset has a glyph index above 10. -/
theorem Console.dial_misses_target_overflow :
    machineWide.ringCount = 1 ∧ machineWide.gearsPerRing = 200000000 ∧
    machineWide.gearsOf 0 = 200000000 ∧ machineWide.offsetOf 0 = 0 ∧
    ∃ (m1 : Machine) (e : Option Exn) (rg1 : Ring),
      Console.dialRingToGlyph machineWide 0 12 = (m1, e) ∧ m1.ring 0 = .ok rg1 ∧
      m1.gearsPerRing = 200000000 ∧
      ∃ g : Int, activeGlyphFromOffset rg1.offset m1.gearsPerRing = .ok g ∧ g ≤ 10 :=
  ⟨rfl, gearsPerRing_of_gearCounts machineWide _ machineWide_gearCounts, machineWide_gearsOf,
    rfl,
    dial_wide_result (Console.dialRingToGlyph machineWide 0 12)
      ((Console.dialRingToGlyph_gearCounts machineWide 0 12).trans machineWide_gearCounts)⟩

end wa

namespace wa

/-! ## HALT on a machine without gears -/

theorem zodiacHook_no_ring (c : CpuBase) (h : c.m.ringCount ≤ 0) :
    zodiacHook c = (c.m, none) := by
  unfold zodiacHook
  rw [if_neg (by omega)]

theorem zodiacHook_divides (c : CpuBase) (hz : c.cfg.useZodiac = true)
    (hr : 0 < c.m.ringCount) (hg : c.m.gearsPerRing = 0) :
    zodiacHook c = (c.m, some .division_by_zero) := by
  obtain ⟨r0, -, hr0⟩ := Machine.ring_ok c.m 0 (by omega) hr
  unfold zodiacHook
  rw [if_pos ⟨hz, hr⟩, hr0]
  dsimp only
  unfold activeGlyphFromOffset
  rw [if_pos hg]

/-- C14, as the code has it. In a non-halted state whose current instruction is `HALT`:
where the glyph hook is disabled, or the machine has no ring, or its rings have a gear,
`step()` returns normally with `halted` set, the instruction pointer advanced by 1 and the
end-of-step `tickAll(1)` performed once after the dispatch (preceded by the hook's own
`tickAll(1)` when the hook fires), each ring moving by 1 in its direction. Where the hook is
enabled and the machine has rings without gears, as `Machine(10, 0)` builds them,
`activeGlyphFromOffset` divides by the gear count 0 before the dispatch: `halted` is not set,
the instruction pointer is not advanced and no tick is made. -/
theorem CpuBase.step_halt_gearless (c : CpuBase) (ins : Instr) (hh : c.halted = false)
    (hins : c.prog[c.ip]? = some ins) (hop : ins.op = Op.HALT) :
    (c.hookFires = false →
      (c.cfg.useZodiac = false ∨ c.m.ringCount ≤ 0 ∨ c.m.gearsPerRing ≠ 0) →
      c.step = ({ c with halted := true, ip := c.ip + 1, m := c.m.tickAll 1 }, none)) ∧
    (c.hookFires = true →
      c.step =
        ({ c with halted := true, ip := c.ip + 1, m := (c.m.tickAll 1).tickAll 1 }, none)) ∧
    (c.m.tickAll 1).rings = c.m.rings.map (fun rg => rg.tick 1) ∧
    (∀ rg : Ring, (rg.tick 1).gears = rg.gears ∧ (rg.tick 1).dir = rg.dir ∧
      (0 < rg.gearCount → (rg.tick 1).offset =
        (if rg.dir = Dir.Right then rg.offset - 1 else rg.offset + 1) % rg.gearCount)) ∧
    (c.cfg.useZodiac = true → 0 < c.m.ringCount → c.m.gearsPerRing = 0 →
      c.step = (c, some .division_by_zero)) := by
  have hip : ¬ c.ip ≥ c.prog.length := by
    intro hge
    rw [List.getElem?_eq_none hge] at hins
    cases hins
  refine ⟨fun h hg => ?_, fun h => ?_, rfl, fun rg => ?_, fun hz hr hg => ?_⟩
  · have hk : zodiacHook c = (c.m, none) := by
      rcases hg with hg | hg | hg
      · exact zodiacHook_disabled c hg
      · exact zodiacHook_no_ring c hg
      · exact zodiacHook_none c h hg
    rw [CpuBase.step_eq_dispatch c ins _ hh hins hk, CpuBase.dispatch_halt c _ ins hop]
  · rw [CpuBase.step_eq_dispatch c ins _ hh hins (zodiacHook_fired c h),
      CpuBase.dispatch_halt c _ ins hop]
  · exact ⟨Ring.tick_gears rg 1, Ring.tick_dir rg 1, Ring.tick_offset rg 1⟩
  · unfold CpuBase.step
    rw [if_neg (by rw [hh]; decide), if_neg hip, zodiacHook_divides c hz hr hg]

/-- Witness for C14: `CPU64` on `Machine(10, 360)` with `[HALT]` halts and ticks once;
`CPU64` on `Machine(10, 0)` with `[HALT]` stops in the glyph hook with the state as it
was. -/
theorem CpuBase.step_halt_gearless_witness :
    cpuHalt.halted = false ∧ cpuHalt.prog[cpuHalt.ip]? = some insHalt ∧
    cpuHalt.hookFires = false ∧ cpuHalt.m.gearsPerRing ≠ 0 ∧
    cpuHalt.step =
      ({ cpuHalt with halted := true, ip := cpuHalt.ip + 1, m := cpuHalt.m.tickAll 1 }, none) ∧
    Machine.new 10 0 = .ok machineGearless ∧
    CPU64 machineGearless = .ok { cpu64 with m := machineGearless } ∧
    cpuGearless.halted = false ∧ cpuGearless.prog[cpuGearless.ip]? = some insHalt ∧
    cpuGearless.cfg.useZodiac = true ∧ 0 < cpuGearless.m.ringCount ∧
    cpuGearless.m.gearsPerRing = 0 ∧
    cpuGearless.step = (cpuGearless, some .division_by_zero) :=
  ⟨rfl, rfl, by decide, by decide,
    (CpuBase.step_halt_gearless cpuHalt insHalt rfl rfl rfl).1 (by decide)
      (Or.inr (Or.inr (by decide))),
    rfl, rfl, rfl, rfl, rfl, by decide, by decide,
    (CpuBase.step_halt_gearless cpuGearless insHalt rfl rfl rfl).2.2.2.2 rfl (by decide)
      (by decide)⟩

end wa

namespace wa

/-! ## Register index outside the bank -/

theorem CpuBase.stepRaw_eq_dispatch (c : CpuBase) (past : Int → RawWord) (ins : Instr)
    (hh : c.halted = false) (hins : c.prog[c.ip]? = some ins)
    (hz : zodiacHook c = (c.m, none)) :
    c.stepRaw past =
      (match CpuBase.execRaw c past ins with
       | (c1, some e) => (c1, some e)
       | (c1, none) => ({ c1 with ip := c1.ip + 1, m := c1.m.tickAll 1 }, none)) := by
  have hip : ¬ c.ip ≥ c.prog.length := by
    intro hge
    rw [List.getElem?_eq_none hge] at hins
    cases hins
  unfold CpuBase.stepRaw
  rw [if_neg (by rw [hh]; decide), if_neg hip, hz]
  dsimp only
  rw [hins]

/-- C29, the code at a failing input. `CPU64` (eight registers) on `Machine(10, 360)` with
the program `[ADD 0, 8, 2]`: `exec` evaluates `R_[8]`, an unchecked
`std::vector::operator[]` one past the end of the bank, and `alu_add` takes its loop bound
from the `size` field read there. Whenever that field is not positive (the memory behind the
bank read as 0 when the program was run), the loop body is never entered: no register check
fails, `step()` returns normally, the instruction pointer is advanced to 1 and the
end-of-step tick is made. -/
theorem CpuBase.step_operand_index_unchecked (past : Int → RawWord)
    (h : (past 8).size ≤ 0) :
    cpuOperandBad.R.length = 8 ∧ insAddOperandBad.b = 8 ∧
    cpuOperandBad.reg insAddOperandBad.b = .error .unchecked_index ∧
    cpuOperandBad.stepRaw past =
      ({ cpuOperandBad with ip := 1, m := cpuOperandBad.m.tickAll 1 }, none) := by
  refine ⟨rfl, rfl, rfl, ?_⟩
  have hn : (past 8).size.toNat = 0 := by omega
  rw [CpuBase.stepRaw_eq_dispatch cpuOperandBad past insAddOperandBad rfl rfl (by decide)]
  have h8 : cpuOperandBad.regRaw past 8 = past 8 := rfl
  have he : CpuBase.execRaw cpuOperandBad past insAddOperandBad = (cpuOperandBad, none) := by
    unfold CpuBase.execRaw
    show (match alu_add_raw cpuOperandBad.m (cpuOperandBad.regRaw past 8)
      (cpuOperandBad.regRaw past 2) (cpuOperandBad.regRaw past 0) with
      | (m1, .error e) => ({ cpuOperandBad with m := m1 }, some e)
      | (m1, .ok _) => ({ cpuOperandBad with m := m1 }, none)) = _
    unfold alu_add_raw
    rw [h8, hn]
    rfl
  rw [he]
  rfl

/-- Witness for C29 with every field behind the bank reading 0; with the same memory the
program `[ADD 8, 1, 2]`, whose destination is outside the bank, throws the `set_word_bit`
error at bit 0 and leaves the state as it was. -/
theorem CpuBase.step_operand_index_unchecked_witness :
    (pastZero 8).size ≤ 0 ∧
    cpuOperandBad.stepRaw pastZero =
      ({ cpuOperandBad with ip := 1, m := cpuOperandBad.m.tickAll 1 }, none) ∧
    cpuBad.stepRaw pastZero = (cpuBad, some .set_word_bit) :=
  ⟨by decide, (CpuBase.step_operand_index_unchecked pastZero (by decide)).2.2.2, by decide⟩

end wa

